import Mathlib

/-!
Camera response function (piccante).

A shallow embedding of `include/algorithms/camera_response_function.hpp` and
of `include/io/pgm.hpp`.

Conventions of the embedding.

* The finite `float` values are elements of a linearly ordered field `α` with
  a floor function: the definitions run over `ℚ`, and statements "over the
  reals" are the instance `α = ℝ`.  `fl32` is the rounding of an exact result
  to the nearest binary32 value; it is applied where the rounded result picks
  an index or decides a comparison (`lutIndex`, `grossbergCode`,
  `normalise`).  `Binary32 α` adds the infinities and NaN to the numbers;
  `gsolve` and the normalisation step of `DebevecMalik` run over both.
* `int` values are mathematical integers; the narrowing conversion
  `int(lround(..))` keeps the low 32 bits (`toInt32`).
* A `float *` argument supplied by the caller (`icrf`) is a list and faults
  (`none`) when it is read outside its bounds; the null pointer is the empty
  list.  Buffers that a routine owns and fills itself are total maps
  `Nat → _`.
* Calls into libm (`powf`, `expf`, `logf`), into Eigen (the SVD solve) and
  into `Histogram` are parameters of the routine that makes them.
-/

set_option autoImplicit false

namespace pic

variable {α : Type} [LinearOrderedField α]

/-! ## Helpers of `base.hpp` and of the C++ library -/

/-- Modelled from the spec: the `CLAMP(x, a)` macro of `base.hpp`, which is not
among the sources; it clamps an integer code to `[0, a - 1]`
("clamp rounded code to [0,255]" for `a = 256`). -/
def CLAMP (x a : Int) : Int :=
  if x ≥ a then a - 1 else if x < 0 then 0 else x

/-- Modelled from the spec: the `CLAMPi(x, a, b)` macro of `base.hpp`, which is
not among the sources; it clamps `x` to `[a, b]` ("clamped to [0,255]"). -/
def CLAMPi {β : Type} [LinearOrder β] (x a b : β) : β :=
  if x < a then a else if x > b then b else x

/-- C `lround`: nearest integer, halfway cases away from zero. -/
def lround [FloorRing α] (x : α) : Int :=
  if 0 ≤ x then ⌊x + 1 / 2⌋ else -⌊-x + 1 / 2⌋

/-- Conversion of a `long` to a 32-bit `int`: the low 32 bits, two's
complement. -/
def toInt32 (v : Int) : Int :=
  (v + 2147483648) % 4294967296 - 2147483648

/-- Rounding to the nearest integer, halfway cases to the even one: the
rounding of a significand in the default mode of IEEE 754. -/
def roundEven [FloorRing α] (m : α) : Int :=
  let f := ⌊m⌋
  let r := m - (f : α)
  if r < 1 / 2 then f else if 1 / 2 < r then f + 1 else if f % 2 = 0 then f else f + 1

/-- The number that a `float` operation stores for the exact result `x`: the
nearest binary32 value (24-bit significand, smallest exponent `-126`, halfway
cases to even).  The exponent is not bounded above here; `round32` turns a
result beyond the largest `float` into an infinity. -/
def fl32 [FloorRing α] (x : α) : α :=
  let e := max (Int.log 2 |x|) (-126)
  let ulp : α := (2 : α) ^ (e - 23)
  let r : α := ((roundEven (|x| / ulp) : Int) : α) * ulp
  if x < 0 then -r else r

/-- A `float`: a number, an infinity or a NaN.  Zero stands for `+0`. -/
inductive Binary32 (α : Type)
  | nan
  | ninf
  | num (v : α)
  | pinf
  deriving DecidableEq, Repr

/-- The `float` that an operation with the exact result `x` stores: the
nearest binary32 value, or an infinity when that value is `2 ^ 128` or more in
magnitude. -/
def round32 [FloorRing α] (x : α) : Binary32 α :=
  let r := fl32 x
  if (2 : α) ^ 128 ≤ r then .pinf else if r ≤ -(2 : α) ^ 128 then .ninf else .num r

/-- The comparison `a > b` of two `float`s: false when either is a NaN. -/
def Binary32.gt : Binary32 α → Binary32 α → Bool
  | .nan, _ => false
  | _, .nan => false
  | .pinf, .pinf => false
  | .pinf, _ => true
  | _, .pinf => false
  | .ninf, _ => false
  | .num _, .ninf => true
  | .num a, .num b => decide (b < a)

/-- The division `a / b` of two `float`s. -/
def Binary32.div [FloorRing α] : Binary32 α → Binary32 α → Binary32 α
  | .nan, _ => .nan
  | _, .nan => .nan
  | .num a, .num b =>
    if b = 0 then (if a = 0 then .nan else if 0 < a then .pinf else .ninf)
    else round32 (a / b)
  | .num _, .pinf => .num 0
  | .num _, .ninf => .num 0
  | .pinf, .num b => if b < 0 then .ninf else .pinf
  | .ninf, .num b => if b < 0 then .pinf else .ninf
  | .pinf, .pinf => .nan
  | .pinf, .ninf => .nan
  | .ninf, .pinf => .nan
  | .ninf, .ninf => .nan

/-- The `float` operations of the normalisation step of `DebevecMalik`: the
constants `0.0f` and `1.0f`, the comparison `a > b` and the division `a / b`.
They are given on the finite floats alone (a field `α`, where the quotient is
rounded by `fl32`) and on all floats (`Binary32 α`). -/
class FloatOps (β : Type) where
  zero : β
  one : β
  gt : β → β → Bool
  div : β → β → β

instance fieldFloatOps [FloorRing α] : FloatOps α where
  zero := 0
  one := 1
  gt a b := decide (b < a)
  div a b := fl32 (a / b)

instance binary32FloatOps [FloorRing α] : FloatOps (Binary32 α) where
  zero := .num 0
  one := .num 1
  gt := Binary32.gt
  div := Binary32.div

/-- The loop shared by `std::lower_bound` and `std::upper_bound`
(`len` halves at every step; `go` is the test that moves `first` past
`middle`).  `fuel` bounds the number of iterations; `len` itself suffices. -/
def bsearch (go : Nat → Bool) : Nat → Nat → Nat → Nat
  | 0, first, _ => first
  | fuel + 1, first, len =>
    if len = 0 then first
    else
      let half := len / 2
      let middle := first + half
      if go middle then bsearch go fuel (middle + 1) (len - half - 1)
      else bsearch go fuel first half

/-- `std::lower_bound(&a[first], &a[last], val) - a`. -/
def lower_bound (a : Nat → α) (first last : Nat) (val : α) : Nat :=
  bsearch (fun m => decide (a m < val)) (last - first) first (last - first)

/-- `std::upper_bound(&a[first], &a[last], val) - a`. -/
def upper_bound (a : Nat → α) (first last : Nat) (val : α) : Nat :=
  bsearch (fun m => !decide (val < a m)) (last - first) first (last - first)

/-! ## Weight functions -/

/-- The weight types.  `CW_ROBERTSON` is a case label of `WeightFunction`;
the `enum` of this header lists the other five. -/
inductive CRF_WEIGHT
  | CW_ALL
  | CW_HAT
  | CW_DEB97
  | CW_DEB97p01
  | CW_GAUSS
  | CW_ROBERTSON
  deriving DecidableEq, Repr

/-- `WeightFunction(x, type)`; `expf` is the libm exponential. -/
def WeightFunction (expf : α → α) (x : α) (type : CRF_WEIGHT) : α :=
  match type with
  | .CW_GAUSS =>
    let sigma : α := 0.5
    let mu : α := 0.5
    let sigma_sq_2 := 2 * (sigma * sigma)
    let x_mu := x - mu
    expf (-4 * (x_mu * x_mu) / sigma_sq_2)
  | .CW_ROBERTSON =>
    let sigma : α := 0.5
    let mu : α := 0.5
    let mu_sq := mu * mu
    let sigma_sq_2 := 2 * (sigma * sigma)
    let x_mu := x - mu
    let y := expf (-4 * (x_mu * x_mu) / sigma_sq_2)
    let shift_val := expf (-4 * mu_sq / sigma_sq_2)
    let scale_val := expf 0
    let y := (y - shift_val) / (scale_val - shift_val)
    CLAMPi y 0 1
  | .CW_HAT =>
    let val := 2 * x - 1
    let val_squared := val * val
    let val_quartic := val_squared * val_squared
    1 - val_quartic * val_quartic * val_quartic
  | .CW_DEB97 =>
    let Zmin : α := 0
    let Zmax : α := 1
    let tr := (Zmin + Zmax) / 2
    if x ≤ tr then x - Zmin else Zmax - x
  | .CW_DEB97p01 =>
    let Zmin : α := 0.01
    let Zmax : α := 0.99
    let tr := (Zmin + Zmax) / 2
    if x ≤ tr then x - Zmin else Zmax - x
  | .CW_ALL => 1

/-! ## Collaborators: images, histograms, the dense solver -/

/-- Modelled from the spec: the image container of `image.hpp`, which is not
among the sources: "width/height/channel count and an exposure time", pixel
values stored as interleaved floats. -/
structure Image (α : Type) where
  width : Nat
  height : Nat
  channels : Nat
  exposure : α
  data : List α

/-- Modelled from the spec: `Image::isValid` of `image.hpp`: positive
dimensions and allocated storage for every value. -/
def Image.isValid (img : Image α) : Bool :=
  decide (0 < img.width) && decide (0 < img.height) && decide (0 < img.channels)
    && decide (img.data.length = img.width * img.height * img.channels)

/-- Modelled from the spec: `Image::size` of `image.hpp`, the number of stored
values. -/
def Image.size (img : Image α) : Nat :=
  img.width * img.height * img.channels

/-- Modelled from the spec: `Image::getMaxVal(NULL, NULL)[0]` of `image.hpp` on
a one-channel image: the maximum of the stored values ("its maximum"). -/
def Image.getMaxVal {β : Type} [FloatOps β] (img : Image β) : β :=
  img.data.foldl (fun m v => if FloatOps.gt v m then v else m)
    (img.data.headD FloatOps.zero)

/-- The maximum that `Image::getMaxVal` finds in a one-channel buffer. -/
def maxVal {β : Type} [FloatOps β] (l : List β) : β :=
  (Image.mk l.length 1 1 FloatOps.one l).getMaxVal

/-- Modelled from the spec: `Image::operator/=(float)` of `image.hpp`: every
stored value is divided by `a` ("divide by its maximum"). -/
def Image.div {β : Type} [FloatOps β] (img : Image β) (a : β) : Image β :=
  { img with data := img.data.map (fun v => FloatOps.div v a) }

/-- `Eigen::MatrixXf`: the shape and the coefficients. -/
structure MatrixXf (α : Type) where
  rows : Nat
  cols : Nat
  coeff : Nat → Nat → α

/-- `Eigen::VectorXf`. -/
structure VectorXf (α : Type) where
  size : Nat
  coeff : Nat → α

/-- `Eigen::MatrixXf::Zero(rows, cols)`. -/
def MatrixXf.Zero (rows cols : Nat) : MatrixXf α :=
  ⟨rows, cols, fun _ _ => 0⟩

/-- `Eigen::VectorXf::Zero(rows)`. -/
def VectorXf.Zero (rows : Nat) : VectorXf α :=
  ⟨rows, fun _ => 0⟩

/-- The assignment `A.coeffRef(i, j) = v`. -/
def MatrixXf.coeffRef (A : MatrixXf α) (i j : Nat) (v : α) : MatrixXf α :=
  { A with coeff := fun r c => if r = i ∧ c = j then v else A.coeff r c }

/-- The assignment `b[i] = v`. -/
def VectorXf.set (b : VectorXf α) (i : Nat) (v : α) : VectorXf α :=
  { b with coeff := fun r => if r = i then v else b.coeff r }

/-- The state of the assembly loops of `gsolve`: the matrix, the right-hand
side and the running row counter `k`. -/
structure GSystem (α : Type) where
  A : MatrixXf α
  b : VectorXf α
  k : Nat

/-- What an estimation call did, in order: a ghost log next to the object. -/
inductive Event
  | subSample
  | solve (channel : Nat)
  deriving DecidableEq, Repr

/-- Conversion `int(v)` of a float: truncation toward zero (the value is
taken to lie inside the range of `int`). -/
def truncInt [FloorRing α] (v : α) : Int :=
  if 0 ≤ v then ⌊v⌋ else ⌈v⌉

/-- Modelled from the spec: `Image::SimilarType` of `image.hpp`: the two images
"share dimensions and channel count". -/
def Image.SimilarType (a b : Image α) : Bool :=
  decide (a.width = b.width) && decide (a.height = b.height)
    && decide (a.channels = b.channels)

/-- Modelled from the spec: the "pixel accessor by (x,y,channel)" of `image.hpp`,
`(*img)(x, y)[k]`, on interleaved storage. -/
def Image.pixel (img : Image α) (x y k : Nat) : α :=
  img.data.getD ((y * img.width + x) * img.channels + k) 0

/-- The linearisation modes. -/
inductive IMG_LIN
  | IL_LIN
  | IL_2_2
  | IL_LUT_8_BIT
  deriving DecidableEq, Repr

/-! ## The class `CameraResponseFunction` -/

/-- The data members of `CameraResponseFunction`: `type`, `float w[256]` and
`std::vector<float *> icrf`. -/
structure CameraResponseFunction (α : Type) where
  type : CRF_WEIGHT
  w : Nat → α
  icrf : List (List α)

namespace CameraResponseFunction

/-- The assembly part of `gsolve`: data rows, the row for code 128, the
smoothness rows. -/
def gsolveSystem (w : Nat → α) (samples : Nat → Nat) (log_exposure : Nat → α)
    (lambda : α) (nSamples nExposure : Nat) : GSystem α :=
  let n := 256
  let rows := nSamples * nExposure + n + 1
  let cols := n + nSamples
  let s0 : GSystem α := ⟨MatrixXf.Zero rows cols, VectorXf.Zero rows, 0⟩
  let s1 := (List.range nSamples).foldl (fun s i =>
    (List.range nExposure).foldl (fun s j =>
      let tmp := samples (i * nExposure + j)
      let w_ij := w tmp
      { A := (s.A.coeffRef s.k tmp w_ij).coeffRef s.k (n + i) (-w_ij)
        b := s.b.set s.k (w_ij * log_exposure j)
        k := s.k + 1 }) s) s0
  let s2 : GSystem α := { s1 with A := s1.A.coeffRef s1.k 128 1, k := s1.k + 1 }
  (List.range (n - 2)).foldl (fun s i =>
    let w_l := lambda * w (i + 1)
    { s with
      A := ((s.A.coeffRef s.k i w_l).coeffRef s.k (i + 1) (-2 * w_l)).coeffRef s.k (i + 2) w_l
      k := s.k + 1 }) s2

/-- The body of the data loops of `gsolve` for sample `p.1` and exposure
`p.2`, as a step on the assembly state. -/
def dataStep (w : Nat → α) (samples : Nat → Nat) (log_exposure : Nat → α)
    (nExposure : Nat) (s : GSystem α) (p : Nat × Nat) : GSystem α :=
  let tmp := samples (p.1 * nExposure + p.2)
  let w_ij := w tmp
  { A := (s.A.coeffRef s.k tmp w_ij).coeffRef s.k (256 + p.1) (-w_ij)
    b := s.b.set s.k (w_ij * log_exposure p.2)
    k := s.k + 1 }

/-- The statement `A.coeffRef(k, 128) = 1.0f; k++` of `gsolve`. -/
def gaugeStep (s : GSystem α) : GSystem α :=
  { s with A := s.A.coeffRef s.k 128 1, k := s.k + 1 }

/-- The body of the smoothness loop of `gsolve` for code `i`. -/
def smoothStep (w : Nat → α) (lambda : α) (s : GSystem α) (i : Nat) : GSystem α :=
  let w_l := lambda * w (i + 1)
  { s with
    A := ((s.A.coeffRef s.k i w_l).coeffRef s.k (i + 1) (-2 * w_l)).coeffRef s.k (i + 2) w_l
    k := s.k + 1 }

/-- The (sample, exposure) pairs in the order in which the data loops of
`gsolve` visit them. -/
def samplePairs (nSamples nExposure : Nat) : List (Nat × Nat) :=
  (List.range nSamples).flatMap (fun i => (List.range nExposure).map (fun j => (i, j)))

/-- `CameraResponseFunction::gsolve` (built with Eigen): the unnormalised
curve `expf(x[i])`, `i < 256`, of the least-squares solution `x`.  The values
of `expf` are in `β`: the field itself when they are taken finite, or
`Binary32 α` with the infinity that `expf` returns on overflow. -/
def gsolve {β : Type} (svdSolve : MatrixXf α → VectorXf α → Nat → α) (expf : α → β)
    (w : Nat → α) (samples : Nat → Nat) (log_exposure : Nat → α) (lambda : α)
    (nSamples nExposure : Nat) : List β :=
  let s := gsolveSystem w samples log_exposure lambda nSamples nExposure
  let x := svdSolve s.A s.b
  (List.range 256).map (fun i => expf (x i))

/-- The code stored by `subSampleGrossberg` for channel `k`, sample `i` and
exposure `j`, from the table `h` of cumulative histograms.  `u` is the float
quotient `float(i) / float(nSamples)`: both conversions and the division
round. -/
def grossbergCode [FloorRing α] (h : List (Nat → α)) (exposures nSamples k i j : Nat) : Nat :=
  let u : α := fl32 (fl32 (i : α) / fl32 (nSamples : α))
  let ind := k * exposures + j
  let bin_c := h.getD ind (fun _ => 0)
  let ptr := upper_bound bin_c 0 255 u
  let offset := CLAMPi (ptr : Int) 0 255
  (offset % 256).toNat

/-- The table `h` of `subSampleGrossberg`: entry `j * exposures + i` is the
cumulative 256-bin histogram of channel `j` of exposure `i`; `hist img j` is
what `Histogram::Calculate`, `cumulativef` and `getCumulativef` give. -/
def histTable (hist : Image α → Nat → Nat → α) (stack : List (Image α))
    (channels : Nat) : List (Nat → α) :=
  (List.range channels).flatMap (fun j => stack.map (fun img => hist img j))

/-- `CameraResponseFunction::subSampleGrossberg`.  `none` is the `NULL`
result. -/
def subSampleGrossberg [FloorRing α] (hist : Image α → Nat → Nat → α)
    (stack : List (Image α)) (nSamples : Int) : Option (List Nat) :=
  match stack with
  | [] => none
  | img0 :: _ =>
    let nSamples : Int := if nSamples < 1 then 256 else nSamples
    let channels := img0.channels
    let exposures := stack.length
    let h := histTable hist stack channels
    some ((List.range channels).flatMap (fun k =>
      (List.range nSamples.toNat).flatMap (fun i =>
        (List.range exposures).map (fun j =>
          grossbergCode h exposures nSamples.toNat k i j))))

/-- The normalisation step of `DebevecMalik` on one curve: wrap it in a
`256 x 1` one-channel image and divide by the maximum when that is positive. -/
def normalise {β : Type} [FloatOps β] (icrf_channel : List β) : List β :=
  let img : Image β := ⟨256, 1, 1, FloatOps.one, icrf_channel⟩
  let max_val := img.getMaxVal
  if FloatOps.gt max_val FloatOps.zero then (img.div max_val).data else img.data

/-- The weight table that `DebevecMalik` writes over `w`. -/
def weightTable (expf : α → α) (type : CRF_WEIGHT) (w : Nat → α) : Nat → α :=
  fun i => if i < 256 then WeightFunction expf ((i : α) / 255) type else w i

/-- The curve that `gsolve` returns for channel `i` inside `DebevecMalik`,
before normalisation; `nSamples` is the count after the default was
substituted. -/
def unnormalised [FloorRing α] (hist : Image α → Nat → Nat → α)
    (svdSolve : MatrixXf α → VectorXf α → Nat → α) (expf logf : α → α)
    (self : CameraResponseFunction α) (stack : List (Image α)) (type : CRF_WEIGHT)
    (nSamples : Int) (lambda : α) (i : Nat) : List α :=
  let samples : List Nat := (subSampleGrossberg hist stack nSamples).getD []
  let w := weightTable expf type self.w
  let nExposure := stack.length
  let log_exposure : Nat → α := fun i =>
    (stack.map (fun img => logf img.exposure)).getD i 0
  let stride := nSamples.toNat * nExposure
  gsolve svdSolve expf w (fun t => samples.getD (i * stride + t) 0)
    log_exposure lambda nSamples.toNat nExposure

/-- `CameraResponseFunction::DebevecMalik`, with the log of what was
attempted. -/
def DebevecMalik [FloorRing α] (hist : Image α → Nat → Nat → α)
    (svdSolve : MatrixXf α → VectorXf α → Nat → α) (expf logf : α → α)
    (self : CameraResponseFunction α) (stack : List (Image α)) (type : CRF_WEIGHT)
    (nSamples : Int) (lambda : α) : CameraResponseFunction α × List Event :=
  match stack with
  | [] => (self, [])
  | img0 :: _ =>
    let nSamples : Int := if nSamples < 1 then 256 else nSamples
    let channels := img0.channels
    let icrf := (List.range channels).map (fun i =>
      normalise (unnormalised hist svdSolve expf logf self stack type nSamples lambda i))
    ({ type := type, w := weightTable expf type self.w, icrf := icrf },
      Event.subSample :: (List.range channels).map Event.solve)

/-- The index computed by `RemoveCRF` in `IL_LUT_8_BIT` mode:
`CLAMP(int(lround(x * 255.0f)), 256)`; the product is a `float`, rounded
before `lround` sees it.  Where the product is beyond the largest `float`,
`lround` receives an infinity and its result is unspecified: the definition
takes the `lround` of the unbounded rounding for it. -/
def lutIndex [FloorRing α] (x : α) : Int :=
  CLAMP (toInt32 (lround (fl32 (x * 255)))) 256

/-- `CameraResponseFunction::RemoveCRF(x, type, icrf)` on one value. -/
def RemoveCRF [FloorRing α] (powf : α → α → α) (x : α) (type : IMG_LIN) (icrf : List α) :
    Option α :=
  match type with
  | .IL_LIN => some x
  | .IL_LUT_8_BIT =>
    let index := lutIndex x
    if index < 0 then none else icrf[index.toNat]?
  | .IL_2_2 => some (powf x 2.2)

/-- `CameraResponseFunction::ApplyCRF(x, type, icrf)` on one value.  The range
`[&icrf[0], &icrf[255])` has to lie inside the array. -/
def ApplyCRF (powf : α → α → α) (x : α) (type : IMG_LIN) (icrf : List α) :
    Option α :=
  match type with
  | .IL_LIN => some x
  | .IL_LUT_8_BIT =>
    if 255 ≤ icrf.length then
      let ptr := lower_bound (fun i => icrf.getD i 0) 0 255 x
      let offset := CLAMPi (ptr : Int) 0 255
      some ((offset : α) / 255)
    else none
  | .IL_2_2 => some (powf x (1 / 2.2))

/-- The pixel loops shared by `Linearize` and the image overload of `ApplyCRF`:
`data[i + j] = f(data[i + j], icrf[j])` for `i = 0, channels, ..` below `size`
and `j < channels`.  The second component logs the channel of every curve
that is fetched from `icrf`; `none` is an access outside `icrf` or `data`. -/
def pixelLoop (f : α → List α → Option α) (icrf : List (List α)) (img : Image α) :
    Option (Image α × List Nat) :=
  ((List.range ((img.size + img.channels - 1) / img.channels)).foldlM (fun (st : List α × List Nat) p =>
    (List.range img.channels).foldlM (fun (st : List α × List Nat) j =>
      let ind := p * img.channels + j
      match icrf[j]?, st.1[ind]? with
      | some curve, some v =>
        match f v curve with
        | some r => some (st.1.set ind r, st.2 ++ [j])
        | none => none
      | _, _ => none) st) (img.data, [])).map
    (fun (st : List α × List Nat) => ({ img with data := st.1 }, st.2))

/-- `CameraResponseFunction::Linearize(img, type)` on a non-null image. -/
def Linearize [FloorRing α] (powf : α → α → α) (self : CameraResponseFunction α)
    (img : Image α) (type : IMG_LIN) : Option (Image α × List Nat) :=
  if !img.isValid then some (img, [])
  else if type = .IL_LUT_8_BIT ∧ self.icrf.length ≠ img.channels then some (img, [])
  else pixelLoop (fun v curve => RemoveCRF powf v type curve) self.icrf img

/-- `CameraResponseFunction::ApplyCRF(img, type)`, the image overload, on a
non-null image. -/
def ApplyCRFImage (powf : α → α → α) (self : CameraResponseFunction α)
    (img : Image α) (type : IMG_LIN) : Option (Image α × List Nat) :=
  if !img.isValid then some (img, [])
  else if type = .IL_LUT_8_BIT ∧ self.icrf.length ≠ img.channels then some (img, [])
  else pixelLoop (fun v curve => ApplyCRF powf v type curve) self.icrf img

/-- The joint histogram `crf` of `FromRAWJPEG`: the count of every
(RAW code, JPEG code, channel) triple over all pixels, in `unsigned int`. -/
def jointHistogram [FloorRing α] (img_raw img_jpg : Image α) : Nat → Nat :=
  let width := img_raw.width
  let height := img_raw.height
  let channels := img_raw.channels
  (List.range height).foldl (fun crf i =>
    (List.range width).foldl (fun crf j =>
      (List.range channels).foldl (fun crf k =>
        let i_raw := CLAMPi (truncInt (255 * img_raw.pixel j i k)) 0 255
        let i_jpg := CLAMPi (truncInt (255 * img_jpg.pixel j i k)) 0 255
        let addr := ((i_raw * 256 + i_jpg) * channels).toNat
        fun a => if a = addr + k then (crf a + 1) % 4294967296 else crf a) crf) crf)
    (fun _ => 0)

/-- The vector `coords` of `FromRAWJPEG` for channel `k` and JPEG code `j`:
the RAW codes `i` with a positive count, pushed for `i = 0 .. 255`. -/
def rawCodes (crf : Nat → Nat) (channels k j : Nat) : List Nat :=
  (List.range 256).filter (fun i => decide (crf ((i * 256 + j) * channels + k) > 0))

/-- The entry `ret_c[j]` after the column loop of `FromRAWJPEG`: the median of
the sorted `coords` over 255, or what the fresh buffer held when `coords` is
empty.  `std::sort` is an insertion sort here. -/
def medianColumn (crf : Nat → Nat) (channels k : Nat) (ret_c : Nat → α) (j : Nat) : α :=
  let coords := rawCodes crf channels k j
  if coords.isEmpty then ret_c j
  else
    let sorted := coords.insertionSort (fun a b => a ≤ b)
    ((sorted.getD (sorted.length / 2) 0 : Nat) : α) / 255

/-- `CameraResponseFunction::FromRAWJPEG` on non-null images.  `filterMean` is
`FilterMean::Execute`, `uninit k` the contents of the fresh buffer `ret_c` of
channel `k`. -/
def FromRAWJPEG [FloorRing α] (filterMean : List α → Int → List α)
    (uninit : Nat → Nat → α) (self : CameraResponseFunction α)
    (img_raw img_jpg : Image α) (filteringSize : Int) : CameraResponseFunction α :=
  if !img_raw.SimilarType img_jpg then self
  else
    let channels := img_raw.channels
    let crf := jointHistogram img_raw img_jpg
    { type := CRF_WEIGHT.CW_ALL
      w := self.w
      icrf := (List.range channels).map (fun k =>
        let ret_c := (List.range 256).map (fun j =>
          medianColumn crf channels k (uninit k) j)
        if filteringSize > 0 then filterMean ret_c filteringSize else ret_c) }

/-- The store `samples[c] = int(v * 255.0f)` of `subSampleSpatial`: truncation
to `int`, of which the `unsigned char` keeps the low 8 bits. -/
def spatialCode [FloorRing α] (v : α) : Nat :=
  (truncInt (v * 255) % 256).toNat

/-- `CameraResponseFunction::subSampleSpatial`: the samples and the updated
`nSamples`; `none` is the `NULL` result.  `sampler width height nSamples` is
the point list of the `RandomSampler`: `getSamplesPerLevel(0)` is its length
and `getSampleAt(0, i, x, y)` its entry `i`. -/
def subSampleSpatial [FloorRing α] (sampler : Nat → Nat → Int → List (Nat × Nat))
    (stack : List (Image α)) (nSamples : Int) : Option (List Nat × Nat) :=
  match stack with
  | [] => none
  | img0 :: _ =>
    let width := img0.width
    let height := img0.height
    let channels := img0.channels
    let p2Ds := sampler width height nSamples
    let nSamples := p2Ds.length
    some ((List.range channels).flatMap (fun k =>
      (List.range nSamples).flatMap (fun i =>
        let pt := p2Ds.getD i (0, 0)
        (List.range stack.length).map (fun j =>
          spatialCode ((stack.getD j img0).pixel pt.1 pt.2 k)))), nSamples)

end CameraResponseFunction

/-! ## PGM files (`io/pgm.hpp`)

A file is the list of its bytes.  Opening the file succeeds, sizes are
non-negative and fit an `int`, the pixel buffer passed to `WritePGM` holds
every byte that is read from it, and `ReadPGM` is called with `data == NULL`,
so that it allocates the buffer it returns. -/

/-- An input stream: the bytes that are still to be read and the fail
state. -/
structure IStream where
  rest : List Nat
  fail : Bool
  deriving DecidableEq, Repr

/-- `isspace` in the C locale. -/
def isSpace (c : Nat) : Bool :=
  decide (c = 32) || (decide (9 ≤ c) && decide (c ≤ 13))

/-- `isdigit`. -/
def isDigit (c : Nat) : Bool :=
  decide (48 ≤ c) && decide (c ≤ 57)

/-- `istream::get(char &)`: the next byte; nothing is stored when the stream
has failed or is at its end. -/
def IStream.get (s : IStream) : Option Nat × IStream :=
  if s.fail then (none, s)
  else
    match s.rest with
    | [] => (none, { s with fail := true })
    | c :: r => (some c, { s with rest := r })

/-- The extraction `stream >> value` of an unsigned decimal number below
`bound`: white space is skipped and the digits are read.  Nothing is stored
when the stream has failed before; zero is stored, and the stream fails, when
no digit follows; `bound - 1` is stored, and the stream fails, on overflow.
A sign is not accepted: `operator>>` takes a leading `+` or `-`, and the
definition covers the fields that hold none. -/
def IStream.extract (s : IStream) (bound : Nat) : Option Nat × IStream :=
  if s.fail then (none, s)
  else
    let r := s.rest.dropWhile isSpace
    let ds := r.takeWhile isDigit
    if ds.isEmpty then (some 0, ⟨r, true⟩)
    else
      let v := ds.foldl (fun v d => 10 * v + (d - 48)) 0
      if v < bound then (some v, ⟨r.dropWhile isDigit, false⟩)
      else (some (bound - 1), ⟨r.dropWhile isDigit, true⟩)

/-- What `ReadPGM` does: it returns the caller's `data` untouched, or the
buffer it filled together with `width`, `height` and `channels`, or it
divides by zero. -/
inductive PGMRead
  | unchanged
  | image (width height channels : Nat) (data : List Nat)
  | divisionByZero
  deriving DecidableEq, Repr

/-- The pixel loop of `ReadPGM` for `n` pixels and a non-zero `bpp`:
`data[c] = (static_cast<unsigned char>(value) * 255) / bpp`, with `value` read
by `get` (binary) or by `>>` (ascii); `uninit` is what `value` holds when
nothing is stored in it. -/
def readPixels (bBinary : Bool) (uninit bpp : Nat) : Nat → IStream → List Nat
  | 0, _ => []
  | n + 1, s =>
    let r := if bBinary then s.get else s.extract 2147483648
    let value := r.1.getD uninit
    ((value % 256) * 255 / bpp) % 256 :: readPixels bBinary uninit bpp n r.2

/-- `ReadPGM(nameFile, NULL, width, height, channels)` on the bytes of the
file; `uninit` is the value of a variable that was not written. -/
def ReadPGM (uninit : Nat) (file : List Nat) : PGMRead :=
  let s0 : IStream := ⟨file, false⟩
  let m0 := s0.get
  let m1 := m0.2.get
  let magic_number := (m0.1.getD 32, m1.1.getD 32)
  if magic_number ≠ (80, 53) ∧ magic_number ≠ (80, 50) then PGMRead.unchanged
  else
    let bBinary := decide (magic_number = (80, 53))
    let w := m1.2.extract 4294967296
    let h := w.2.extract 4294967296
    let b := h.2.extract 4294967296
    let tmpWidth := w.1.getD uninit
    let tmpHeight := h.1.getD uninit
    let bpp := b.1.getD uninit
    if bpp > 255 then PGMRead.unchanged
    else
      let channels := 1
      let width := tmpWidth
      let height := tmpHeight
      if bpp = 0 ∧ 0 < width * height then PGMRead.divisionByZero
      else PGMRead.image width height channels
        (readPixels bBinary uninit bpp (width * height) b.2)

/-- The characters that `stream << n` writes for a non-negative `int`. -/
def decimal (n : Nat) : List Nat :=
  (Nat.toDigits 10 n).map Char.toNat

/-- `WritePGM(nameFile, data, width, height, channels, bAscii)`: the bytes
written to the file. -/
def WritePGM (data : List Nat) (width height channels : Nat) (bAscii : Bool) : List Nat :=
  (if bAscii then [80, 50] else [80, 53]) ++ [32] ++ [10] ++ decimal width ++ [32]
    ++ decimal height ++ [32] ++ [10] ++ [50, 53, 53] ++ [10]
    ++ (List.range height).flatMap (fun y =>
      (List.range width).flatMap (fun x =>
        let c := (y * width + x) * channels
        if bAscii then decimal (data.getD c 0) ++ [32] else [data.getD c 0])
      ++ (if bAscii then [10] else []))

/-! ## Concrete inputs -/

/-- A strictly increasing response curve: entry `i` is `i / 255`. -/
def rampCurve : List ℚ :=
  (List.range 256).map (fun (i : Nat) => (i : ℚ) / 255)

/-- A non-decreasing response curve that is not strictly increasing: 256
zeros. -/
def flatCurve : List ℚ :=
  List.replicate 256 0

/-- A stand-in for `powf` in the modes that never call it. -/
def powf0 : ℚ → ℚ → ℚ :=
  fun a _ => a

/-- A grey image of one pixel. -/
def greyPixel : Image ℚ :=
  ⟨1, 1, 1, 1, [1 / 2]⟩

/-- A colour image of one pixel. -/
def rgbPixel : Image ℚ :=
  ⟨1, 1, 3, 1, [0, 1 / 2, 1]⟩

/-- A model without curves, as the default constructor leaves it. -/
def emptyModel : CameraResponseFunction ℚ :=
  ⟨CRF_WEIGHT.CW_ALL, fun _ => 0, []⟩

/-- A model that holds one curve. -/
def oneCurveModel : CameraResponseFunction ℚ :=
  ⟨CRF_WEIGHT.CW_DEB97, fun _ => 0, [rampCurve]⟩

/-- A grey image of one pixel, darker than `greyPixel`. -/
def darkPixel : Image ℚ :=
  ⟨1, 1, 1, 1, [1 / 4]⟩

/-- A grey image of one pixel of value `0.999`. -/
def brightPixel : Image ℚ :=
  ⟨1, 1, 1, 1, [999 / 1000]⟩

/-- A point sampler that returns the one point `(0, 0)`. -/
def sampler0 : Nat → Nat → Int → List (Nat × Nat) :=
  fun _ _ _ => [(0, 0)]

/-- A stand-in for `FilterMean::Execute`. -/
def filterMean0 : List ℚ → Int → List ℚ :=
  fun l _ => l

/-- A cumulative histogram: bin `b` holds `(b + 1) / 256`. -/
def hist0 : Image ℚ → Nat → Nat → ℚ :=
  fun _ _ b => ((b : ℚ) + 1) / 256

/-- A solver that answers zero, with `expf0 0 = 1`. -/
def svd0 : MatrixXf ℚ → VectorXf ℚ → Nat → ℚ :=
  fun _ _ _ => 0

/-- A stand-in for `expf`: a positive function with value 1 at 0. -/
def expf0 : ℚ → ℚ :=
  fun t => 1 + t * t

/-- A stand-in for `logf`: zero at 1. -/
def logf0 : ℚ → ℚ :=
  fun t => t - 1

/-- A stand-in for the SVD solve: a solution with `x[255] = 100` that is zero
elsewhere. -/
def svdSteep : MatrixXf ℚ → VectorXf ℚ → Nat → ℚ :=
  fun _ _ i => if i = 255 then 100 else 0

/-- A stand-in for `expf` with its overflow: `+inf` from `89` on (the `float`
exponential overflows above `88.73`) and `1`, the value at `0`, below. -/
def expfSat : ℚ → Binary32 ℚ :=
  fun t => if 89 ≤ t then .pinf else .num 1

/-- The curve that `gsolve` returns with `svdSteep` and `expfSat`: `expf(0)`
at the codes below 255 and `expf(100)` at code 255. -/
def overflowCurve : List (Binary32 ℚ) :=
  CameraResponseFunction.gsolve svdSteep expfSat (fun _ => 1) (fun _ => 0) (fun _ => 0)
    20 1 1

/-- A cumulative histogram whose bin 10 holds `11184811 / 2 ^ 25`, the `float`
nearest to `1/3`: zero below bin 10 and one above it. -/
def histThird : Image ℚ → Nat → Nat → ℚ :=
  fun _ _ b => if b < 10 then 0 else if b = 10 then 11184811 / 33554432 else 1

/-! ## Lemmas -/

theorem roundEven_floor_le [FloorRing α] (m : α) : ⌊m⌋ ≤ roundEven m := by
  unfold roundEven
  simp only
  split_ifs <;> omega

theorem roundEven_le_floor_succ [FloorRing α] (m : α) : roundEven m ≤ ⌊m⌋ + 1 := by
  unfold roundEven
  simp only
  split_ifs <;> omega

theorem roundEven_error [FloorRing α] (m : α) :
    ((roundEven m : Int) : α) - m ≤ 1 / 2 ∧ m - ((roundEven m : Int) : α) ≤ 1 / 2 := by
  have h1 := Int.floor_le m
  have h2 := Int.lt_floor_add_one m
  unfold roundEven
  simp only
  split_ifs with ha hb hc
  · constructor <;> linarith
  · push_cast
    constructor <;> linarith
  · have : m - (⌊m⌋ : α) = 1 / 2 := le_antisymm (not_lt.mp hb) (not_lt.mp ha)
    constructor <;> linarith
  · have : m - (⌊m⌋ : α) = 1 / 2 := le_antisymm (not_lt.mp hb) (not_lt.mp ha)
    push_cast
    constructor <;> linarith

theorem roundEven_intCast [FloorRing α] (n : Int) : roundEven ((n : Int) : α) = n := by
  unfold roundEven
  simp

theorem roundEven_mono [FloorRing α] (a b : α) (hab : a ≤ b) : roundEven a ≤ roundEven b := by
  have hf : ⌊a⌋ ≤ ⌊b⌋ := Int.floor_mono hab
  rcases lt_or_eq_of_le hf with h | h
  · have h1 := roundEven_le_floor_succ a
    have h2 := roundEven_floor_le b
    omega
  · unfold roundEven
    simp only
    rw [h]
    have hr : a - (⌊b⌋ : α) ≤ b - (⌊b⌋ : α) := by linarith
    split_ifs <;> first | omega | (exfalso; linarith)

theorem roundEven_nonneg [FloorRing α] (m : α) (hm : 0 ≤ m) : 0 ≤ roundEven m := by
  have := roundEven_mono 0 m hm
  have h0 : roundEven (0 : α) = 0 := by
    have := (roundEven_intCast 0 : roundEven ((0 : Int) : α) = 0)
    simpa using this
  omega

theorem fl32_eq [FloorRing α] (x : α) :
    fl32 x = if x < 0
      then -(((roundEven (|x| / (2 : α) ^ (max (Int.log 2 |x|) (-126) - 23)) : Int) : α)
        * (2 : α) ^ (max (Int.log 2 |x|) (-126) - 23))
      else ((roundEven (|x| / (2 : α) ^ (max (Int.log 2 |x|) (-126) - 23)) : Int) : α)
        * (2 : α) ^ (max (Int.log 2 |x|) (-126) - 23) := rfl

theorem two_zpow_pos (z : Int) : (0 : α) < (2 : α) ^ z :=
  zpow_pos (by norm_num) z

theorem fl32_nonneg [FloorRing α] (x : α) (hx : 0 ≤ x) : 0 ≤ fl32 x := by
  rw [fl32_eq, if_neg (not_lt.mpr hx)]
  apply mul_nonneg _ (le_of_lt (two_zpow_pos _))
  have : 0 ≤ roundEven (|x| / (2 : α) ^ (max (Int.log 2 |x|) (-126) - 23)) :=
    roundEven_nonneg _ (div_nonneg (abs_nonneg x) (le_of_lt (two_zpow_pos _)))
  exact_mod_cast this

theorem fl32_zero [FloorRing α] : fl32 (0 : α) = 0 := by
  rw [fl32_eq, if_neg (lt_irrefl _)]
  have : roundEven ((0 : Int) : α) = 0 := roundEven_intCast 0
  simp only [abs_zero, zero_div]
  simp only [Int.cast_zero] at this
  rw [this]
  simp

theorem fl32_neg [FloorRing α] (x : α) : fl32 (-x) = -fl32 x := by
  rcases lt_trichotomy x 0 with h | h | h
  · rw [fl32_eq, fl32_eq x, if_neg (by linarith), if_pos h, abs_neg, neg_neg]
  · subst h
    simp [fl32_zero]
  · rw [fl32_eq, fl32_eq x, if_pos (by linarith), if_neg (by linarith), abs_neg]

/-- The exponent chosen for `x` bounds `|x|` from above. -/
theorem abs_lt_zpow_exp [FloorRing α] (x : α) :
    |x| < (2 : α) ^ (max (Int.log 2 |x|) (-126) + 1) := by
  have h := Int.lt_zpow_succ_log_self (b := 2) (by norm_num) |x|
  have h2 : ((2 : Nat) : α) ^ (Int.log 2 |x| + 1)
      ≤ (2 : α) ^ (max (Int.log 2 |x|) (-126) + 1) := by
    push_cast
    apply zpow_le_zpow_right₀ (by norm_num)
    have := le_max_left (Int.log 2 |x|) (-126)
    omega
  exact lt_of_lt_of_le h h2

/-- A value `n * 2 ^ q` with `|n| < 2 ^ 24` and `q ≥ -149` is a binary32 value:
rounding leaves it unchanged. -/
theorem fl32_fixed [FloorRing α] (n q : Int) (hn : |n| < 16777216) (hq : -149 ≤ q) :
    fl32 ((n : α) * (2 : α) ^ q) = (n : α) * (2 : α) ^ q := by
  -- reduce to `n ≥ 0`
  have key : ∀ k : Nat, (k : Int) < 16777216 →
      fl32 (((k : Int) : α) * (2 : α) ^ q) = ((k : Int) : α) * (2 : α) ^ q := by
    intro k hk
    rcases Nat.eq_zero_or_pos k with h0 | hpos
    · subst h0
      simp [fl32_zero]
    have hx : (0 : α) < ((k : Int) : α) * (2 : α) ^ q :=
      mul_pos (by exact_mod_cast hpos) (two_zpow_pos q)
    have hlog : Int.log 2 |((k : Int) : α) * (2 : α) ^ q| < 24 + q := by
      rw [abs_of_pos hx]
      rw [← Int.lt_zpow_iff_log_lt (by norm_num) hx]
      push_cast
      rw [zpow_add₀ (by norm_num)]
      apply mul_lt_mul_of_pos_right _ (two_zpow_pos q)
      have : (k : α) < 16777216 := by exact_mod_cast hk
      calc (k : α) < 16777216 := this
        _ = (2 : α) ^ (24 : Int) := by norm_num
    have he : max (Int.log 2 |((k : Int) : α) * (2 : α) ^ q|) (-126) - 23 ≤ q := by
      rcases max_cases (Int.log 2 |((k : Int) : α) * (2 : α) ^ q|) (-126) with ⟨h, _⟩ | ⟨h, _⟩
        <;> rw [h] <;> omega
    rw [fl32_eq, if_neg (not_lt.mpr (le_of_lt hx)), abs_of_pos hx]
    rw [abs_of_pos hx] at he
    generalize max (Int.log 2 (((k : Int) : α) * (2 : α) ^ q)) (-126) - 23 = t at he
    obtain ⟨d, hd⟩ := Int.eq_ofNat_of_zero_le (show 0 ≤ q - t by omega)
    have hqt : q = t + (d : Int) := by omega
    have hdiv : ((k : Int) : α) * (2 : α) ^ q / (2 : α) ^ t
        = (((k : Int) * 2 ^ d : Int) : α) := by
      rw [hqt, zpow_add₀ (by norm_num), zpow_natCast]
      push_cast
      field_simp
      ring
    rw [hdiv, roundEven_intCast, hqt, zpow_add₀ (by norm_num), zpow_natCast]
    push_cast
    ring
  rcases le_or_lt 0 n with h | h
  · obtain ⟨k, rfl⟩ := Int.eq_ofNat_of_zero_le h
    apply key
    rw [abs_of_nonneg h] at hn
    exact hn
  · obtain ⟨k, hk⟩ := Int.eq_ofNat_of_zero_le (show 0 ≤ -n by omega)
    have hn2 : n = -(k : Int) := by omega
    rw [hn2]
    have := key k (by rw [abs_of_neg h] at hn; omega)
    push_cast
    push_cast at this
    rw [neg_mul, fl32_neg, this]

theorem fl32_natCast [FloorRing α] (k : Nat) (hk : k < 16777216) :
    fl32 ((k : Nat) : α) = (k : α) := by
  have := (fl32_fixed (k : Int) 0 (by rw [abs_of_nonneg (by omega)]; omega) (by norm_num) :
    fl32 (((k : Int) : α) * (2 : α) ^ (0 : Int)) = ((k : Int) : α) * (2 : α) ^ (0 : Int))
  simpa using this

theorem fl32_one [FloorRing α] : fl32 (1 : α) = 1 := by
  have := (fl32_natCast 1 (by norm_num) : fl32 ((1 : Nat) : α) = ((1 : Nat) : α))
  simpa using this

/-- The rounding error is at most half a unit in the last place. -/
theorem fl32_error [FloorRing α] (x : α) :
    |fl32 x - x| ≤ (2 : α) ^ (max (Int.log 2 |x|) (-126) - 23) / 2 := by
  have key : ∀ y : α, 0 ≤ y →
      |fl32 y - y| ≤ (2 : α) ^ (max (Int.log 2 |y|) (-126) - 23) / 2 := by
    intro y hy
    have hpos : (0 : α) < (2 : α) ^ (max (Int.log 2 |y|) (-126) - 23) := two_zpow_pos _
    rw [fl32_eq, if_neg (not_lt.mpr hy)]
    obtain ⟨h1, h2⟩ := roundEven_error (|y| / (2 : α) ^ (max (Int.log 2 |y|) (-126) - 23))
    rw [abs_of_nonneg hy] at *
    generalize (2 : α) ^ (max (Int.log 2 y) (-126) - 23) = u at *
    generalize ((roundEven (y / u) : Int) : α) = r at *
    have hy2 : y = y / u * u := by field_simp
    rw [abs_le]
    constructor
    · have : (y / u - r) * u ≤ 1 / 2 * u := mul_le_mul_of_nonneg_right h2 (le_of_lt hpos)
      nlinarith
    · have : (r - y / u) * u ≤ 1 / 2 * u := mul_le_mul_of_nonneg_right h1 (le_of_lt hpos)
      nlinarith
  rcases le_or_lt 0 x with h | h
  · exact key x h
  · have := key (-x) (by linarith)
    rw [fl32_neg, abs_neg] at this
    rw [show fl32 x - x = -(-fl32 x - -x) by ring, abs_neg]
    exact this

/-- Rounding is monotone on the non-negative values. -/
theorem fl32_mono_nonneg [FloorRing α] (x y : α) (hx : 0 ≤ x) (hxy : x ≤ y) :
    fl32 x ≤ fl32 y := by
  rcases eq_or_lt_of_le hx with h0 | hpos
  · rw [← h0, fl32_zero]
    exact fl32_nonneg y (le_trans hx hxy)
  have hypos : 0 < y := lt_of_lt_of_le hpos hxy
  have hlog : Int.log 2 x ≤ Int.log 2 y := Int.log_mono_right hpos hxy
  have hbx := abs_lt_zpow_exp x
  rw [fl32_eq, fl32_eq y, if_neg (not_lt.mpr hx), if_neg (not_lt.mpr (le_of_lt hypos))]
  rw [abs_of_pos hpos] at *
  rw [abs_of_pos hypos]
  have hle : max (Int.log 2 x) (-126) ≤ max (Int.log 2 y) (-126) :=
    max_le_max hlog (le_refl _)
  rcases eq_or_lt_of_le hle with he | hlt
  · rw [he]
    apply mul_le_mul_of_nonneg_right _ (le_of_lt (two_zpow_pos _))
    have := roundEven_mono (x / (2 : α) ^ (max (Int.log 2 y) (-126) - 23))
      (y / (2 : α) ^ (max (Int.log 2 y) (-126) - 23))
      (div_le_div_of_nonneg_right hxy (le_of_lt (two_zpow_pos _)))
    exact_mod_cast this
  · -- the exponents differ: a power of two lies between the two roundings
    have hey : max (Int.log 2 y) (-126) = Int.log 2 y := by
      rcases max_cases (Int.log 2 y) (-126) with ⟨h, _⟩ | ⟨h, h2⟩
      · exact h
      · exfalso
        rw [h] at hlt
        have := le_max_right (Int.log 2 x) (-126)
        omega
    rw [hey] at hlt ⊢
    generalize max (Int.log 2 x) (-126) = ex at *
    have hylow : ((2 : Nat) : α) ^ Int.log 2 y ≤ y := Int.zpow_log_le_self (by norm_num) hypos
    push_cast at hylow
    generalize Int.log 2 y = ey at *
    -- left side is at most `2 ^ (ex + 1)`
    have h1 : ((roundEven (x / (2 : α) ^ (ex - 23)) : Int) : α) * (2 : α) ^ (ex - 23)
        ≤ (2 : α) ^ (ex + 1) := by
      have hm : x / (2 : α) ^ (ex - 23) ≤ ((16777216 : Int) : α) := by
        rw [div_le_iff₀ (two_zpow_pos _)]
        have : ((16777216 : Int) : α) * (2 : α) ^ (ex - 23) = (2 : α) ^ (ex + 1) := by
          rw [show ex + 1 = 24 + (ex - 23) by ring, zpow_add₀ (by norm_num)]
          norm_num
        rw [this]
        exact le_of_lt hbx
      have := roundEven_mono _ _ hm
      rw [roundEven_intCast] at this
      have h3 : ((roundEven (x / (2 : α) ^ (ex - 23)) : Int) : α) ≤ 16777216 := by
        exact_mod_cast this
      calc ((roundEven (x / (2 : α) ^ (ex - 23)) : Int) : α) * (2 : α) ^ (ex - 23)
          ≤ 16777216 * (2 : α) ^ (ex - 23) :=
            mul_le_mul_of_nonneg_right h3 (le_of_lt (two_zpow_pos _))
        _ = (2 : α) ^ (ex + 1) := by
          rw [show ex + 1 = 24 + (ex - 23) by ring, zpow_add₀ (by norm_num)]
          norm_num
    -- right side is at least `2 ^ ey`
    have h2 : (2 : α) ^ ey
        ≤ ((roundEven (y / (2 : α) ^ (ey - 23)) : Int) : α) * (2 : α) ^ (ey - 23) := by
      have hm : ((8388608 : Int) : α) ≤ y / (2 : α) ^ (ey - 23) := by
        rw [le_div_iff₀ (two_zpow_pos _)]
        have : ((8388608 : Int) : α) * (2 : α) ^ (ey - 23) = (2 : α) ^ ey := by
          rw [show ey = 23 + (ey - 23) by ring, zpow_add₀ (by norm_num)]
          norm_num
        rw [this]
        exact hylow
      have := roundEven_mono _ _ hm
      rw [roundEven_intCast] at this
      have h3 : (8388608 : α) ≤ ((roundEven (y / (2 : α) ^ (ey - 23)) : Int) : α) := by
        exact_mod_cast this
      calc (2 : α) ^ ey = 8388608 * (2 : α) ^ (ey - 23) := by
            rw [show (2 : α) ^ ey = (2 : α) ^ (23 + (ey - 23)) by ring_nf,
              zpow_add₀ (by norm_num)]
            norm_num
        _ ≤ _ := mul_le_mul_of_nonneg_right h3 (le_of_lt (two_zpow_pos _))
    have h3 : (2 : α) ^ (ex + 1) ≤ (2 : α) ^ ey :=
      zpow_le_zpow_right₀ (by norm_num) (by omega)
    linarith

theorem roundEven_eq_of [FloorRing α] (m : α) (n : Int) (h1 : (n : α) - 1 / 2 < m)
    (h2 : m < (n : α) + 1 / 2) : roundEven m = n := by
  have hf1 := Int.floor_le m
  have hf2 := Int.lt_floor_add_one m
  have hlo : n ≤ ⌊m⌋ + 1 := by
    have : (n : α) < ((⌊m⌋ + 1 + 1 : Int) : α) := by push_cast; linarith
    have := Int.cast_lt.mp this
    omega
  have hhi : ⌊m⌋ ≤ n := by
    have : ((⌊m⌋ : Int) : α) < ((n + 1 : Int) : α) := by push_cast; linarith
    have := Int.cast_lt.mp this
    omega
  rcases (show ⌊m⌋ = n ∨ ⌊m⌋ + 1 = n by omega) with h | h
  · have hr : m - ((⌊m⌋ : Int) : α) < 1 / 2 := by rw [h]; linarith
    unfold roundEven
    simp only
    rw [if_pos hr, h]
  · have hn : (n : α) = (⌊m⌋ : α) + 1 := by rw [← h]; push_cast; ring
    have hr : 1 / 2 < m - ((⌊m⌋ : Int) : α) := by linarith
    unfold roundEven
    simp only
    rw [if_neg (not_lt.mpr (le_of_lt hr)), if_pos hr, h]

/-- The rounding of a positive `x` with `2 ^ e ≤ x < 2 ^ (e + 1)`, `e ≥ -126`,
whose significand is not halfway between two integers. -/
theorem fl32_eval [FloorRing α] (x : α) (e n : Int) (hx : 0 < x) (he : -126 ≤ e)
    (hlo : (2 : α) ^ e ≤ x) (hhi : x < (2 : α) ^ (e + 1))
    (h1 : (n : α) - 1 / 2 < x / (2 : α) ^ (e - 23))
    (h2 : x / (2 : α) ^ (e - 23) < (n : α) + 1 / 2) :
    fl32 x = (n : α) * (2 : α) ^ (e - 23) := by
  have hlog : Int.log 2 x = e := by
    apply le_antisymm
    · have : Int.log 2 x < e + 1 := by
        rw [← Int.lt_zpow_iff_log_lt (by norm_num) hx]
        push_cast
        exact hhi
      omega
    · rw [← Int.zpow_le_iff_le_log (by norm_num) hx]
      push_cast
      exact hlo
  rw [fl32_eq, if_neg (not_lt.mpr (le_of_lt hx)), abs_of_pos hx, hlog, max_eq_left he,
    roundEven_eq_of _ n h1 h2]

theorem fl32_le_of_le [FloorRing α] (x c : α) (hx : 0 ≤ x) (hxc : x ≤ c) (hc : fl32 c = c) :
    fl32 x ≤ c := by
  have := fl32_mono_nonneg x c hx hxc
  rwa [hc] at this

theorem fl32_le_one [FloorRing α] (x : α) (hx : x ≤ 1) : fl32 x ≤ 1 := by
  rcases le_or_lt 0 x with h | h
  · exact fl32_le_of_le x 1 h hx fl32_one
  · have h1 := fl32_nonneg (-x) (by linarith)
    rw [fl32_neg] at h1
    linarith

/-- Below 256 the rounding error is at most `2 ^ (-17)`. -/
theorem fl32_error_small [FloorRing α] (p : α) (h0 : 0 ≤ p) (h1 : p < 256) :
    |fl32 p - p| ≤ 1 / 131072 := by
  have h := fl32_error p
  have he : max (Int.log 2 |p|) (-126) - 23 ≤ -16 := by
    rw [abs_of_nonneg h0]
    have hl : Int.log 2 p < 8 := by
      rcases eq_or_lt_of_le h0 with hz | hpos
      · rw [← hz, Int.log_zero_right]; norm_num
      · rw [← Int.lt_zpow_iff_log_lt (by norm_num) hpos]
        push_cast
        calc p < 256 := h1
          _ = (2 : α) ^ (8 : Int) := by norm_num
    rcases max_cases (Int.log 2 p) (-126) with ⟨h, _⟩ | ⟨h, _⟩ <;> rw [h] <;> omega
  have hz : (2 : α) ^ (max (Int.log 2 |p|) (-126) - 23) ≤ (2 : α) ^ (-16 : Int) :=
    zpow_le_zpow_right₀ (by norm_num) he
  have h16 : (2 : α) ^ (-16 : Int) = 1 / 65536 := by norm_num [zpow_neg]
  rw [h16] at hz
  linarith

theorem maxVal_eq_foldl [FloorRing α] (l : List α) : maxVal l = l.foldl max (l.headD 0) := by
  unfold maxVal Image.getMaxVal
  show l.foldl (fun m v => if decide (m < v) = true then v else m) (l.headD 0) = _
  congr 1
  funext m v
  by_cases h : m < v
  · simp [h, max_eq_right (le_of_lt h)]
  · simp [h, max_eq_left (not_lt.mp h)]

theorem CLAMP_256_bounds (v : Int) : 0 ≤ CLAMP v 256 ∧ CLAMP v 256 ≤ 255 := by
  unfold CLAMP
  split_ifs <;> omega

theorem CLAMPi_int_bounds (v : Int) : 0 ≤ CLAMPi v 0 255 ∧ CLAMPi v 0 255 ≤ 255 := by
  unfold CLAMPi
  split_ifs <;> omega

theorem bsearch_bounds (go : Nat → Bool) :
    ∀ fuel first len : Nat,
      first ≤ bsearch go fuel first len ∧ bsearch go fuel first len ≤ first + len := by
  intro fuel
  induction fuel with
  | zero => intro first len; simp [bsearch]
  | succ n ih =>
    intro first len
    unfold bsearch
    by_cases hlen : len = 0
    · simp [hlen]
    · simp only [hlen, if_false]
      by_cases hgo : go (first + len / 2) = true
      · simp only [hgo, if_true]
        have h := ih (first + len / 2 + 1) (len - len / 2 - 1)
        omega
      · simp only [hgo]
        have h := ih first (len / 2)
        simp only [Bool.false_eq_true, if_false]
        omega

theorem bsearch_spec (go : Nat → Bool) :
    ∀ fuel first len : Nat, len ≤ fuel →
      (∀ i j, first ≤ i → i ≤ j → j < first + len → go j = true → go i = true) →
      (∀ i, first ≤ i → i < bsearch go fuel first len → go i = true) ∧
      (∀ i, bsearch go fuel first len ≤ i → i < first + len → go i = false) := by
  intro fuel
  induction fuel with
  | zero =>
    intro first len hf _
    have : len = 0 := by omega
    subst this
    simp only [bsearch]
    constructor
    · intro i h1 h2; omega
    · intro i h1 h2; omega
  | succ n ih =>
    intro first len hf hpart
    unfold bsearch
    by_cases hlen : len = 0
    · simp only [hlen, if_true]
      constructor
      · intro i h1 h2; omega
      · intro i h1 h2; omega
    · simp only [hlen, if_false]
      by_cases hgo : go (first + len / 2) = true
      · simp only [hgo, if_true]
        have hb := bsearch_bounds go n (first + len / 2 + 1) (len - len / 2 - 1)
        have h := ih (first + len / 2 + 1) (len - len / 2 - 1) (by omega)
          (fun i j h1 h2 h3 h4 => hpart i j (by omega) h2 (by omega) h4)
        constructor
        · intro i h1 h2
          by_cases hi : i ≤ first + len / 2
          · exact hpart i (first + len / 2) h1 hi (by omega) hgo
          · exact h.1 i (by omega) h2
        · intro i h1 h2
          exact h.2 i h1 (by omega)
      · simp only [hgo, Bool.false_eq_true, if_false]
        have hb := bsearch_bounds go n first (len / 2)
        have h := ih first (len / 2) (by omega)
          (fun i j h1 h2 h3 h4 => hpart i j h1 h2 (by omega) h4)
        constructor
        · intro i h1 h2
          exact h.1 i h1 h2
        · intro i h1 h2
          by_cases hi : i < first + len / 2
          · exact h.2 i h1 hi
          · by_contra hc
            have hc2 : go i = true := by simpa using hc
            exact hgo (hpart (first + len / 2) i (by omega) (by omega) h2 hc2)

theorem lower_bound_sorted (a : Nat → α) (first last : Nat) (val : α)
    (hfl : first ≤ last)
    (hmono : ∀ i j, first ≤ i → i ≤ j → j < last → a i ≤ a j) :
    first ≤ lower_bound a first last val ∧ lower_bound a first last val ≤ last ∧
    (∀ i, first ≤ i → i < lower_bound a first last val → a i < val) ∧
    (∀ i, lower_bound a first last val ≤ i → i < last → val ≤ a i) := by
  have hb := bsearch_bounds (fun m => decide (a m < val)) (last - first) first (last - first)
  have hs := bsearch_spec (fun m => decide (a m < val)) (last - first) first (last - first)
    (le_refl _)
    (fun i j h1 h2 h3 h4 => by
      have h5 : a j < val := by simpa using h4
      have h6 : a i ≤ a j := hmono i j h1 h2 (by omega)
      simpa using lt_of_le_of_lt h6 h5)
  unfold lower_bound
  refine ⟨hb.1, by omega, ?_, ?_⟩
  · intro i h1 h2
    simpa using hs.1 i h1 h2
  · intro i h1 h2
    have := hs.2 i h1 (by omega)
    simpa using this

theorem lower_bound_le (a : Nat → α) (first last : Nat) (val : α) (hfl : first ≤ last) :
    lower_bound a first last val ≤ last := by
  have hb := bsearch_bounds (fun m => decide (a m < val)) (last - first) first (last - first)
  unfold lower_bound
  omega

theorem lround_bounds [FloorRing α] (x : α) (h0 : 0 ≤ x) :
    (lround x : α) ≤ x + 1 / 2 ∧ x - 1 / 2 < (lround x : α) ∧ 0 ≤ lround x := by
  unfold lround
  simp only [h0, if_true]
  refine ⟨Int.floor_le _, ?_, ?_⟩
  · have := Int.lt_floor_add_one (x + 1 / 2)
    linarith
  · apply Int.floor_nonneg.mpr
    linarith

theorem foldl_max_ge_init (l : List α) (a : α) : a ≤ l.foldl max a := by
  induction l generalizing a with
  | nil => exact le_refl _
  | cons b t ih => exact le_trans (le_max_left a b) (ih (max a b))

theorem foldl_max_ge_mem (l : List α) (a v : α) (hv : v ∈ l) : v ≤ l.foldl max a := by
  induction l generalizing a with
  | nil => cases hv
  | cons b t ih =>
    rcases List.mem_cons.mp hv with h | h
    · subst h
      exact le_trans (le_max_right a v) (foldl_max_ge_init t (max a v))
    · exact ih (max a b) h

theorem foldl_max_mem (l : List α) (a : α) : l.foldl max a = a ∨ l.foldl max a ∈ l := by
  induction l generalizing a with
  | nil => exact Or.inl rfl
  | cons b t ih =>
    rcases ih (max a b) with h | h
    · rcases max_choice a b with hm | hm
      · left; simp only [List.foldl_cons]; rw [h, hm]
      · right; simp only [List.foldl_cons]; rw [h, hm]; exact List.mem_cons_self _ _
    · right; exact List.mem_cons_of_mem _ h

theorem maxVal_mem [FloorRing α] (l : List α) (hne : l ≠ []) : maxVal l ∈ l := by
  rw [maxVal_eq_foldl]
  cases l with
  | nil => exact absurd rfl hne
  | cons b t =>
    show (b :: t).foldl max b ∈ b :: t
    rcases foldl_max_mem (b :: t) b with h | h
    · rw [h]; exact List.mem_cons_self _ _
    · exact h

theorem maxVal_ge [FloorRing α] (l : List α) (v : α) (hv : v ∈ l) : v ≤ maxVal l := by
  rw [maxVal_eq_foldl]
  exact foldl_max_ge_mem l _ v hv

theorem maxVal_eq_of [FloorRing α] (l : List α) (m : α) (hm : m ∈ l) (hub : ∀ v ∈ l, v ≤ m) :
    maxVal l = m :=
  le_antisymm (hub _ (maxVal_mem l (List.ne_nil_of_mem hm))) (maxVal_ge l m hm)

theorem maxVal_pos_of_pos [FloorRing α] (l : List α) (hne : l ≠ []) (h : ∀ v ∈ l, 0 < v) :
    0 < maxVal l :=
  h _ (maxVal_mem l hne)

theorem flatMap_range_length {β : Type} (f : Nat → List β) (c : Nat)
    (hlen : ∀ k, (f k).length = c) (m : Nat) :
    ((List.range m).flatMap f).length = m * c := by
  induction m with
  | zero => simp
  | succ m ih =>
    rw [List.range_succ, List.flatMap_append, List.length_append, ih]
    simp [hlen, Nat.succ_mul]

theorem flatMap_range_getElem? {β : Type} (f : Nat → List β) (c : Nat)
    (hlen : ∀ k, (f k).length = c) (m k t : Nat) (hk : k < m) (ht : t < c) :
    ((List.range m).flatMap f)[k * c + t]? = (f k)[t]? := by
  induction m with
  | zero => omega
  | succ m ih =>
    rw [List.range_succ, List.flatMap_append]
    have hl := flatMap_range_length f c hlen m
    rcases Nat.lt_succ_iff_lt_or_eq.mp hk with h | h
    · have hlt : k * c + t < ((List.range m).flatMap f).length := by
        rw [hl]
        calc k * c + t < k * c + c := by omega
          _ = (k + 1) * c := by ring
          _ ≤ m * c := Nat.mul_le_mul_right c h
      rw [List.getElem?_append_left hlt]
      exact ih h
    · subst h
      rw [List.getElem?_append_right (by rw [hl]; omega), hl]
      simp

theorem expf0_pos (t : ℚ) : 0 < expf0 t := by
  unfold expf0
  nlinarith [mul_self_nonneg t]

namespace CameraResponseFunction

theorem ApplyCRF_lut (powf : α → α → α) (x : α) (icrf : List α)
    (hlen : 255 ≤ icrf.length) :
    ApplyCRF powf x .IL_LUT_8_BIT icrf =
      some (((lower_bound (fun i => icrf.getD i 0) 0 255 x : Nat) : α) / 255) := by
  have hle := lower_bound_le (fun i => icrf.getD i 0) 0 255 x (by omega)
  simp only [ApplyCRF, hlen, if_true]
  have hc : CLAMPi ((lower_bound (fun i => icrf.getD i 0) 0 255 x : Nat) : Int) 0 255
      = ((lower_bound (fun i => icrf.getD i 0) 0 255 x : Nat) : Int) := by
    unfold CLAMPi
    split_ifs <;> omega
  rw [hc]
  simp

theorem lutIndex_bounds [FloorRing α] (x : α) : 0 ≤ lutIndex x ∧ lutIndex x ≤ 255 :=
  CLAMP_256_bounds _

theorem lutIndex_in_range [FloorRing α] (x : α)
    (hlo : -2147483648 ≤ lround (fl32 (x * 255)))
    (hhi : lround (fl32 (x * 255)) < 2147483648) :
    lutIndex x = CLAMPi (lround (fl32 (x * 255))) 0 255 := by
  unfold lutIndex toInt32 CLAMP CLAMPi
  split_ifs <;> omega

/-- The float product `x * 255.0f` of an `x` in `[0,1]` lies in `[0,255]`. -/
theorem fl32_product_unit [FloorRing α] (x : α) (h0 : 0 ≤ x) (h1 : x ≤ 1) :
    0 ≤ fl32 (x * 255) ∧ fl32 (x * 255) ≤ 255 ∧ |fl32 (x * 255) - x * 255| ≤ 1 / 131072 := by
  have h255 : fl32 (255 : α) = 255 := by
    have := (fl32_natCast 255 (by norm_num) : fl32 ((255 : Nat) : α) = ((255 : Nat) : α))
    simpa using this
  exact ⟨fl32_nonneg _ (by positivity), fl32_le_of_le _ _ (by positivity) (by linarith) h255,
    fl32_error_small _ (by positivity) (by linarith)⟩

theorem lutIndex_unit [FloorRing α] (x : α) (h0 : 0 ≤ x) (h1 : x ≤ 1) :
    lutIndex x = lround (fl32 (x * 255)) ∧ 0 ≤ lround (fl32 (x * 255)) ∧
      lround (fl32 (x * 255)) ≤ 255 := by
  obtain ⟨hp0, hp1, _⟩ := fl32_product_unit x h0 h1
  have hb := lround_bounds (fl32 (x * 255)) hp0
  have h255 : lround (fl32 (x * 255)) ≤ 255 := by
    have h2 : (lround (fl32 (x * 255)) : α) < 256 := by linarith [hb.1]
    have h3 : lround (fl32 (x * 255)) < 256 := by exact_mod_cast h2
    omega
  refine ⟨?_, hb.2.2, h255⟩
  unfold lutIndex toInt32 CLAMP
  have := hb.2.2
  split_ifs <;> omega

theorem RemoveCRF_lut [FloorRing α] (powf : α → α → α) (x : α) (icrf : List α)
    (hlen : icrf.length = 256) :
    RemoveCRF powf x .IL_LUT_8_BIT icrf = some (icrf.getD (lutIndex x).toNat 0) := by
  have hb := lutIndex_bounds x
  have hlt : (lutIndex x).toNat < icrf.length := by omega
  simp only [RemoveCRF]
  rw [if_neg (by omega)]
  simp [List.getD, List.getElem?_eq_getElem hlt]

theorem rampCurve_length : rampCurve.length = 256 := by
  simp [rampCurve]

theorem rampCurve_getD (i : Nat) (h : i < 256) : rampCurve.getD i 0 = (i : ℚ) / 255 := by
  simp [rampCurve, List.getD, List.getElem?_map, List.getElem?_range h]

theorem rampCurve_strict (i j : Nat) (hij : i < j) (hj : j < 256) :
    rampCurve.getD i 0 < rampCurve.getD j 0 := by
  rw [rampCurve_getD i (by omega), rampCurve_getD j hj]
  have : (i : ℚ) < (j : ℚ) := by exact_mod_cast hij
  linarith

theorem flatCurve_length : flatCurve.length = 256 :=
  List.length_replicate _ _

theorem flatCurve_getD (i : Nat) : flatCurve.getD i 0 = 0 := by
  unfold flatCurve
  rw [List.getD_eq_getElem?_getD, List.getElem?_replicate]
  split_ifs <;> rfl

/-- On a strictly increasing table the inverse lookup of entry `k` is
`k / 255`, also for `k = 255`, which the search does not visit. -/
theorem ApplyCRF_lut_table_value (powf : α → α → α) (icrf : List α)
    (hlen : icrf.length = 256)
    (hstrict : ∀ i j : Nat, i < j → j < 256 → icrf.getD i 0 < icrf.getD j 0)
    (k : Nat) (hk : k ≤ 255) :
    ApplyCRF powf (icrf.getD k 0) .IL_LUT_8_BIT icrf = some ((k : α) / 255) := by
  rw [ApplyCRF_lut powf _ icrf (by omega)]
  have hs := lower_bound_sorted (fun i => icrf.getD i 0) 0 255 (icrf.getD k 0) (by omega)
    (fun i j _ h2 h3 => by
      rcases Nat.eq_or_lt_of_le h2 with h | h
      · subst h; exact le_refl _
      · exact le_of_lt (hstrict i j h (by omega)))
  obtain ⟨_, hle, hlow, hhigh⟩ := hs
  have hr : lower_bound (fun i => icrf.getD i 0) 0 255 (icrf.getD k 0) = k := by
    apply le_antisymm
    · by_contra hc
      have := hlow k (by omega) (by omega)
      exact lt_irrefl _ this
    · by_contra hc
      have hlt : lower_bound (fun i => icrf.getD i 0) 0 255 (icrf.getD k 0) < k := by omega
      have h1 := hhigh _ (le_refl _) (by omega)
      have h2 := hstrict _ k hlt (by omega)
      exact absurd h1 (not_le.mpr h2)
  rw [hr]

theorem normalise_eq [FloorRing α] (l : List α) :
    normalise l = if maxVal l > 0 then l.map (fun v => fl32 (v / maxVal l)) else l := by
  show (if decide (0 < maxVal l) = true then l.map (fun v => fl32 (v / maxVal l)) else l) = _
  by_cases h : 0 < maxVal l
  · simp [h]
  · simp [h]

theorem normalise_length [FloorRing α] (l : List α) : (normalise l).length = l.length := by
  rw [normalise_eq]
  split_ifs
  · exact List.length_map _ _
  · rfl

/-- What normalisation does to a curve whose maximum is positive. -/
theorem normalise_spec [FloorRing α] (l : List α) (hpos : 0 < maxVal l) :
    (normalise l).length = l.length ∧ maxVal (normalise l) = 1 ∧
    (∀ c, c < l.length → (normalise l).getD c 0 = fl32 (l.getD c 0 / maxVal l)) ∧
    (∀ v ∈ normalise l, v ≤ 1) ∧
    ((∀ v ∈ l, 0 ≤ v) → ∀ v ∈ normalise l, 0 ≤ v) := by
  have hne : l ≠ [] := by
    intro h; subst h
    rw [maxVal_eq_foldl] at hpos
    simp at hpos
  have hn : normalise l = l.map (fun v => fl32 (v / maxVal l)) := by
    rw [normalise_eq, if_pos hpos]
  have hle1 : ∀ v ∈ normalise l, v ≤ 1 := by
    intro v hv
    rw [hn, List.mem_map] at hv
    obtain ⟨u, hu, rfl⟩ := hv
    apply fl32_le_one
    rw [div_le_one hpos]
    exact maxVal_ge l u hu
  refine ⟨by rw [hn, List.length_map], ?_, ?_, hle1, ?_⟩
  · apply maxVal_eq_of _ _ _ hle1
    rw [hn, List.mem_map]
    exact ⟨maxVal l, maxVal_mem l hne, by rw [div_self (ne_of_gt hpos), fl32_one]⟩
  · intro c hc
    rw [hn]
    simp [List.getD, List.getElem?_map, List.getElem?_eq_getElem hc]
  · intro hnn v hv
    rw [hn, List.mem_map] at hv
    obtain ⟨u, hu, rfl⟩ := hv
    exact fl32_nonneg _ (div_nonneg (hnn u hu) (le_of_lt hpos))

theorem gsolve_length (svdSolve : MatrixXf α → VectorXf α → Nat → α) (expf : α → α)
    (w : Nat → α) (samples : Nat → Nat) (log_exposure : Nat → α) (lambda : α)
    (nSamples nExposure : Nat) :
    (gsolve svdSolve expf w samples log_exposure lambda nSamples nExposure).length = 256 := by
  simp [gsolve]

theorem gsolve_nonneg (svdSolve : MatrixXf α → VectorXf α → Nat → α) (expf : α → α)
    (hexp : ∀ t, 0 ≤ expf t)
    (w : Nat → α) (samples : Nat → Nat) (log_exposure : Nat → α) (lambda : α)
    (nSamples nExposure : Nat) :
    ∀ v ∈ gsolve svdSolve expf w samples log_exposure lambda nSamples nExposure, 0 ≤ v := by
  intro v hv
  simp only [gsolve, List.mem_map] at hv
  obtain ⟨i, _, rfl⟩ := hv
  exact hexp _

theorem unnormalised_length [FloorRing α] (hist : Image α → Nat → Nat → α)
    (svdSolve : MatrixXf α → VectorXf α → Nat → α) (expf logf : α → α)
    (self : CameraResponseFunction α) (stack : List (Image α)) (type : CRF_WEIGHT)
    (nSamples : Int) (lambda : α) (i : Nat) :
    (unnormalised hist svdSolve expf logf self stack type nSamples lambda i).length = 256 :=
  gsolve_length _ _ _ _ _ _ _ _

theorem unnormalised_nonneg [FloorRing α] (hist : Image α → Nat → Nat → α)
    (svdSolve : MatrixXf α → VectorXf α → Nat → α) (expf logf : α → α)
    (hexp : ∀ t, 0 ≤ expf t)
    (self : CameraResponseFunction α) (stack : List (Image α)) (type : CRF_WEIGHT)
    (nSamples : Int) (lambda : α) (i : Nat) :
    ∀ v ∈ unnormalised hist svdSolve expf logf self stack type nSamples lambda i, 0 ≤ v :=
  gsolve_nonneg _ _ hexp _ _ _ _ _ _

/-- The curves that `DebevecMalik` stores for a non-empty stack. -/
theorem DebevecMalik_icrf [FloorRing α] (hist : Image α → Nat → Nat → α)
    (svdSolve : MatrixXf α → VectorXf α → Nat → α) (expf logf : α → α)
    (self : CameraResponseFunction α) (img0 : Image α) (rest : List (Image α))
    (type : CRF_WEIGHT) (nSamples : Int) (lambda : α) :
    (DebevecMalik hist svdSolve expf logf self (img0 :: rest) type nSamples lambda).1.icrf =
      (List.range img0.channels).map (fun i =>
        normalise (unnormalised hist svdSolve expf logf self (img0 :: rest) type
          (if nSamples < 1 then 256 else nSamples) lambda i)) := rfl

theorem grossbergCode_le [FloorRing α] (h : List (Nat → α)) (exposures nSamples k i j : Nat) :
    grossbergCode h exposures nSamples k i j ≤ 255 := by
  unfold grossbergCode
  have hb := CLAMPi_int_bounds
    ((upper_bound (h.getD (k * exposures + j) (fun _ => 0)) 0 255
      (fl32 (fl32 (i : α) / fl32 (nSamples : α))) : Nat) : Int)
  simp only
  omega

theorem Binary32_gt_pinf_right (v : Binary32 α) : Binary32.gt v .pinf = false := by
  cases v <;> rfl

theorem Binary32_gt_pinf_left (m : Binary32 α) (hm : m ≠ .nan) (hp : m ≠ .pinf) :
    Binary32.gt .pinf m = true := by
  cases m with
  | nan => exact absurd rfl hm
  | ninf => rfl
  | num v => rfl
  | pinf => exact absurd rfl hp

theorem foldl_gt_pinf [FloorRing α] (l : List (Binary32 α)) :
    l.foldl (fun m v => if FloatOps.gt v m then v else m) Binary32.pinf = Binary32.pinf := by
  induction l with
  | nil => rfl
  | cons v t ih =>
    have h : FloatOps.gt v (Binary32.pinf : Binary32 α) = false := Binary32_gt_pinf_right v
    simp only [List.foldl_cons, h]
    exact ih

theorem foldl_gt_reach [FloorRing α] (l : List (Binary32 α)) (m : Binary32 α)
    (hm : m ≠ .nan) (hnan : Binary32.nan ∉ l) (hmem : Binary32.pinf ∈ l) :
    l.foldl (fun m v => if FloatOps.gt v m then v else m) m = Binary32.pinf := by
  induction l generalizing m with
  | nil => cases hmem
  | cons v t ih =>
    simp only [List.foldl_cons]
    by_cases hv : v = Binary32.pinf
    · subst hv
      by_cases hp : m = Binary32.pinf
      · subst hp
        have h : FloatOps.gt (Binary32.pinf : Binary32 α) Binary32.pinf = false := rfl
        rw [h]
        exact foldl_gt_pinf t
      · have h : FloatOps.gt (Binary32.pinf : Binary32 α) m = true :=
          Binary32_gt_pinf_left m hm hp
        rw [h]
        exact foldl_gt_pinf t
    · have hvn : v ≠ Binary32.nan := fun h => hnan (by rw [h]; exact List.mem_cons_self _ _)
      have htn : Binary32.nan ∉ t := fun h => hnan (List.mem_cons_of_mem _ h)
      have htm : Binary32.pinf ∈ t := by
        rcases List.mem_cons.mp hmem with h | h
        · exact absurd h.symm hv
        · exact h
      apply ih _ _ htn htm
      split_ifs
      · exact hvn
      · exact hm

/-- A curve that holds `+inf` and no NaN has the maximum `+inf`. -/
theorem maxVal_pinf [FloorRing α] (l : List (Binary32 α)) (hnan : Binary32.nan ∉ l)
    (hmem : Binary32.pinf ∈ l) : maxVal l = Binary32.pinf := by
  unfold maxVal Image.getMaxVal
  apply foldl_gt_reach l _ _ hnan hmem
  cases l with
  | nil => cases hmem
  | cons v t =>
    intro h
    apply hnan
    simp only [List.headD_cons] at h
    rw [h]
    exact List.mem_cons_self _ _

/-- The normalisation of a curve whose maximum is `+inf`: every entry is
divided by `+inf`. -/
theorem normalise_pinf [FloorRing α] (l : List (Binary32 α))
    (h : maxVal l = Binary32.pinf) :
    normalise l = l.map (fun v => Binary32.div v Binary32.pinf) := by
  have h2 : (Image.mk 256 1 1 (FloatOps.one : Binary32 α) l).getMaxVal = Binary32.pinf := h
  unfold normalise
  simp only [h2]
  rfl

theorem foldl_gt_zero_nan [FloorRing α] (l : List (Binary32 α))
    (h : ∀ v ∈ l, v = Binary32.num 0 ∨ v = Binary32.nan) :
    l.foldl (fun m v => if FloatOps.gt v m then v else m) (Binary32.num 0) = Binary32.num 0 := by
  induction l with
  | nil => rfl
  | cons v t ih =>
    simp only [List.foldl_cons]
    have hg : FloatOps.gt v (Binary32.num (0 : α)) = false := by
      rcases h v (List.mem_cons_self _ _) with hv | hv
      · rw [hv]
        show decide ((0 : α) < 0) = false
        simp
      · rw [hv]; rfl
    rw [hg]
    exact ih (fun u hu => h u (List.mem_cons_of_mem _ hu))

theorem foldl_gt_num [FloorRing α] (l : List α) (a : α) :
    (l.map Binary32.num).foldl (fun m v => if FloatOps.gt v m then v else m) (Binary32.num a) =
      Binary32.num (l.foldl (fun m v => if FloatOps.gt v m then v else m) a) := by
  induction l generalizing a with
  | nil => rfl
  | cons v t ih =>
    simp only [List.map_cons, List.foldl_cons]
    have h : (if FloatOps.gt (Binary32.num v) (Binary32.num a) then Binary32.num v
        else Binary32.num a) = Binary32.num (if FloatOps.gt v a then v else a) := by
      have hg : FloatOps.gt (Binary32.num v) (Binary32.num a) = FloatOps.gt v a := rfl
      rw [hg]
      split_ifs <;> rfl
    rw [h]
    exact ih _

theorem maxVal_num [FloorRing α] (l : List α) :
    maxVal (l.map Binary32.num) = Binary32.num (maxVal l) := by
  unfold maxVal Image.getMaxVal
  simp only
  have hh : (l.map Binary32.num).headD (FloatOps.zero : Binary32 α)
      = Binary32.num (l.headD (FloatOps.zero : α)) := by
    cases l <;> rfl
  rw [hh]
  exact foldl_gt_num l _

theorem round32_unit [FloorRing α] (x : α) (h0 : 0 ≤ x) (h1 : x ≤ 1) :
    round32 x = Binary32.num (fl32 x) := by
  have hn := fl32_nonneg x h0
  have hl := fl32_le_one x h1
  have hbig : (1 : α) < (2 : α) ^ 128 := by
    have : (1 : α) < 2 := by norm_num
    exact one_lt_pow₀ this (by norm_num)
  unfold round32
  simp only
  rw [if_neg (by linarith), if_neg (by linarith)]

/-- On a finite curve with non-negative entries and a positive maximum the
normalisation over all floats is the normalisation over the numbers. -/
theorem normalise_num [FloorRing α] (l : List α) (hpos : 0 < maxVal l)
    (hnn : ∀ v ∈ l, 0 ≤ v) :
    normalise (l.map Binary32.num) = (normalise l).map Binary32.num := by
  have hmax : maxVal (l.map Binary32.num) = Binary32.num (maxVal l) := maxVal_num l
  have h2 : (Image.mk 256 1 1 (FloatOps.one : Binary32 α) (l.map Binary32.num)).getMaxVal
      = Binary32.num (maxVal l) := hmax
  have hgt : FloatOps.gt (Binary32.num (maxVal l)) (FloatOps.zero : Binary32 α) = true := by
    show decide ((0 : α) < maxVal l) = true
    exact decide_eq_true hpos
  rw [normalise_eq, if_pos hpos]
  unfold normalise
  simp only [h2, hgt, if_true, Image.div, List.map_map]
  apply List.map_congr_left
  intro v hv
  show Binary32.div (Binary32.num v) (Binary32.num (maxVal l)) = _
  have hdiv : Binary32.div (Binary32.num v) (Binary32.num (maxVal l))
      = round32 (v / maxVal l) := by
    show (if maxVal l = 0 then _ else round32 (v / maxVal l)) = _
    rw [if_neg (ne_of_gt hpos)]
  rw [hdiv]
  exact round32_unit _ (div_nonneg (hnn v hv) (le_of_lt hpos))
    ((div_le_one hpos).mpr (maxVal_ge l v hv))

theorem overflowCurve_eq :
    overflowCurve = (List.range 256).map
      (fun i => if i = 255 then (Binary32.pinf : Binary32 ℚ) else Binary32.num 1) := by
  unfold overflowCurve gsolve
  apply List.map_congr_left
  intro i _
  simp only [expfSat, svdSteep]
  by_cases h : i = 255
  · simp only [h, if_true]
    norm_num
  · simp only [h, if_false]
    norm_num

/-! ## The claims -/

/-- C1, as stated, fails when `expf` overflows: the curve that `gsolve`
returns for a solution with `x[255] = 100` holds `expf(100) = +inf`, so its
maximum is `+inf`, which is `> 0`; the division by it turns every finite
entry into `0` and the entry `+inf` into a NaN.  No entry of the stored curve
is `1`, and its maximum is `0`. -/
theorem normalise_overflow :
    overflowCurve.length = 256 ∧
    overflowCurve[255]? = some Binary32.pinf ∧
    maxVal overflowCurve = Binary32.pinf ∧
    FloatOps.gt (maxVal overflowCurve) (FloatOps.zero : Binary32 ℚ) = true ∧
    (∀ v ∈ normalise overflowCurve, v = Binary32.num 0 ∨ v = Binary32.nan) ∧
    (normalise overflowCurve)[255]? = some Binary32.nan ∧
    (∀ v ∈ normalise overflowCurve, v ≠ Binary32.num 1) ∧
    maxVal (normalise overflowCurve) = Binary32.num 0 := by
  have hmem : Binary32.pinf ∈ overflowCurve := by
    rw [overflowCurve_eq, List.mem_map]
    exact ⟨255, List.mem_range.mpr (by norm_num), by simp⟩
  have hnan : Binary32.nan ∉ overflowCurve := by
    rw [overflowCurve_eq, List.mem_map]
    rintro ⟨i, _, hi⟩
    split_ifs at hi
  have hmax : maxVal overflowCurve = Binary32.pinf := maxVal_pinf _ hnan hmem
  have hnorm := normalise_pinf overflowCurve hmax
  have hall : ∀ v ∈ normalise overflowCurve, v = Binary32.num 0 ∨ v = Binary32.nan := by
    intro v hv
    rw [hnorm, overflowCurve_eq, List.map_map, List.mem_map] at hv
    obtain ⟨i, _, rfl⟩ := hv
    simp only [Function.comp]
    split_ifs
    · right; rfl
    · left; rfl
  have h255 : overflowCurve[255]? = some Binary32.pinf := by
    rw [overflowCurve_eq, List.getElem?_map, List.getElem?_range (by norm_num)]
    simp
  have h0 : overflowCurve[0]? = some (Binary32.num 1) := by
    rw [overflowCurve_eq, List.getElem?_map, List.getElem?_range (by norm_num)]
    simp
  refine ⟨by rw [overflowCurve_eq]; simp, h255, hmax, by rw [hmax]; rfl, hall, ?_, ?_, ?_⟩
  · rw [hnorm, List.getElem?_map, h255]
    rfl
  · intro v hv
    rcases hall v hv with h | h <;> rw [h]
    · intro hc
      have := Binary32.num.inj hc
      norm_num at this
    · intro hc
      cases hc
  · have hhead : (normalise overflowCurve).headD (FloatOps.zero : Binary32 ℚ)
        = Binary32.num 0 := by
      rw [List.headD_eq_head?_getD, List.head?_eq_getElem?, hnorm, List.getElem?_map, h0]
      rfl
    unfold maxVal Image.getMaxVal
    simp only
    rw [hhead]
    exact foldl_gt_zero_nan _ hall

/-- C1, amended: for a non-empty stack and every channel `i`, when the
unnormalised curve that `gsolve` returns for the channel is finite (its
entries are numbers, `expf` having no negative value) and its maximum is
positive, the curve stored in `icrf[i]` has 256 entries, each the float
quotient of the unnormalised entry by that maximum, its maximum is exactly 1
and all its entries lie in `[0,1]`; the normalisation over all floats gives
the same curve. -/
theorem DebevecMalik_normalised [FloorRing α] (hist : Image α → Nat → Nat → α)
    (svdSolve : MatrixXf α → VectorXf α → Nat → α) (expf logf : α → α)
    (hexp : ∀ t, 0 ≤ expf t)
    (self : CameraResponseFunction α) (img0 : Image α) (rest : List (Image α))
    (type : CRF_WEIGHT) (nSamples : Int) (lambda : α) (i : Nat)
    (hi : i < img0.channels)
    (hpos : 0 < maxVal (unnormalised hist svdSolve expf logf self (img0 :: rest) type
      (if nSamples < 1 then 256 else nSamples) lambda i)) :
    ∃ curve,
      (DebevecMalik hist svdSolve expf logf self (img0 :: rest) type nSamples
        lambda).1.icrf[i]? = some curve ∧
      curve.length = 256 ∧ maxVal curve = 1 ∧
      (∀ c, c < 256 → curve.getD c 0 =
        fl32 ((unnormalised hist svdSolve expf logf self (img0 :: rest) type
          (if nSamples < 1 then 256 else nSamples) lambda i).getD c 0 /
        maxVal (unnormalised hist svdSolve expf logf self (img0 :: rest) type
          (if nSamples < 1 then 256 else nSamples) lambda i))) ∧
      (∀ v ∈ curve, 0 ≤ v ∧ v ≤ 1) ∧
      normalise ((unnormalised hist svdSolve expf logf self (img0 :: rest) type
        (if nSamples < 1 then 256 else nSamples) lambda i).map Binary32.num) =
        curve.map Binary32.num := by
  have hlen := unnormalised_length hist svdSolve expf logf self (img0 :: rest) type
    (if nSamples < 1 then 256 else nSamples) lambda i
  have hnn := unnormalised_nonneg hist svdSolve expf logf hexp self (img0 :: rest) type
    (if nSamples < 1 then 256 else nSamples) lambda i
  obtain ⟨h1, h2, h3, h4, h5⟩ := normalise_spec _ hpos
  refine ⟨_, ?_, by rw [h1, hlen], h2, fun c hc => h3 c (by rw [hlen]; exact hc),
    fun v hv => ⟨h5 hnn v hv, h4 v hv⟩, normalise_num _ hpos hnn⟩
  rw [DebevecMalik_icrf, List.getElem?_map, List.getElem?_range hi]
  rfl

/-- The amended C1 on a stack of one grey pixel, two samples, a solver that
answers zero and the positive stand-in `expf0`. -/
theorem DebevecMalik_normalised_witness :
    (∀ t, 0 ≤ expf0 t) ∧ 0 < greyPixel.channels ∧
    ∃ curve,
      (DebevecMalik hist0 svd0 expf0 logf0 emptyModel [greyPixel] CRF_WEIGHT.CW_DEB97 2
        10).1.icrf[0]? = some curve ∧
      curve.length = 256 ∧ maxVal curve = 1 ∧ (∀ v ∈ curve, 0 ≤ v ∧ v ≤ 1) := by
  have hpos : 0 < maxVal (unnormalised hist0 svd0 expf0 logf0 emptyModel [greyPixel]
      CRF_WEIGHT.CW_DEB97 (if (2 : Int) < 1 then 256 else 2) 10 0) := by
    apply maxVal_pos_of_pos
    · intro h
      have := unnormalised_length hist0 svd0 expf0 logf0 emptyModel [greyPixel]
        CRF_WEIGHT.CW_DEB97 (if (2 : Int) < 1 then 256 else 2) 10 0
      rw [h] at this
      simp at this
    · intro v hv
      simp only [unnormalised, gsolve, List.mem_map] at hv
      obtain ⟨i, _, rfl⟩ := hv
      exact expf0_pos _
  obtain ⟨curve, h1, h2, h3, _, h5, _⟩ :=
    DebevecMalik_normalised hist0 svd0 expf0 logf0 (fun t => le_of_lt (expf0_pos t))
      emptyModel greyPixel [] CRF_WEIGHT.CW_DEB97 2 10 0 (by decide) hpos
  exact ⟨fun t => le_of_lt (expf0_pos t), by decide, curve, h1, h2, h3, h5⟩

/-- C2, as stated, fails: on the non-decreasing table of 256 zeros the value
`x = 1` is linearised to `0`, and `0` is mapped back to code `0`, that is to
`0`, which is a whole unit away from `x`. -/
theorem lut_round_trip_flat :
    (∀ i j : Nat, i ≤ j → j < 256 → flatCurve.getD i 0 ≤ flatCurve.getD j 0) ∧
    RemoveCRF powf0 1 .IL_LUT_8_BIT flatCurve = some 0 ∧
    ApplyCRF powf0 0 .IL_LUT_8_BIT flatCurve = some 0 ∧
    ¬ (|(0 : ℚ) - 1| ≤ 1 / 255) := by
  refine ⟨fun i j _ _ => by rw [flatCurve_getD, flatCurve_getD], ?_, ?_, by norm_num⟩
  · rw [RemoveCRF_lut powf0 1 flatCurve flatCurve_length, flatCurve_getD]
  · rw [ApplyCRF_lut powf0 0 flatCurve (by rw [flatCurve_length]; norm_num)]
    obtain ⟨_, _, hlow, _⟩ := lower_bound_sorted (fun i => flatCurve.getD i 0) 0 255 0
      (by omega) (fun i j _ _ _ => by simp only [flatCurve_getD]; exact le_refl _)
    have hr : lower_bound (fun i => flatCurve.getD i 0) 0 255 0 = 0 := by
      by_contra hc
      have := hlow 0 (le_refl _) (Nat.pos_of_ne_zero hc)
      simp only [flatCurve_getD] at this
      exact lt_irrefl _ this
    rw [hr]
    simp

/-- C2, amended: for every strictly increasing 256-entry table `icrf` and
every `x` in `[0,1]`, `RemoveCRF` followed by `ApplyCRF` in `IL_LUT_8_BIT`
mode returns a value within `1/255` of `x`. -/
theorem lut_round_trip_strict [FloorRing α] (powf : α → α → α) (x : α) (icrf : List α)
    (hlen : icrf.length = 256)
    (hstrict : ∀ i j : Nat, i < j → j < 256 → icrf.getD i 0 < icrf.getD j 0)
    (h0 : 0 ≤ x) (h1 : x ≤ 1) :
    ∃ y z, RemoveCRF powf x .IL_LUT_8_BIT icrf = some y ∧
      ApplyCRF powf y .IL_LUT_8_BIT icrf = some z ∧ |z - x| ≤ 1 / 255 := by
  obtain ⟨hidx, hlo, hhi⟩ := lutIndex_unit x h0 h1
  obtain ⟨hp0, _, herr⟩ := fl32_product_unit x h0 h1
  have hb := lround_bounds (fl32 (x * 255)) hp0
  obtain ⟨k, hk⟩ := Int.eq_ofNat_of_zero_le hlo
  have hk255 : k ≤ 255 := by omega
  refine ⟨icrf.getD k 0, (k : α) / 255, ?_, ?_, ?_⟩
  · rw [RemoveCRF_lut powf x icrf hlen, hidx, hk]
    simp
  · exact ApplyCRF_lut_table_value powf icrf hlen hstrict k hk255
  · have hcast : ((lround (fl32 (x * 255)) : Int) : α) = (k : α) := by
      rw [hk]; simp
    rw [hcast] at hb
    rw [abs_le] at herr
    rw [abs_le]
    constructor
    · have : x - 1 / 255 ≤ (k : α) / 255 := by
        rw [le_div_iff₀ (by norm_num)]
        linarith [hb.2.1, herr.1]
      linarith
    · have : (k : α) / 255 ≤ x + 1 / 255 := by
        rw [div_le_iff₀ (by norm_num)]
        linarith [hb.1, herr.2]
      linarith

/-- The amended C2 at the table `i / 255` and `x = 1/3`. -/
theorem lut_round_trip_strict_witness :
    rampCurve.length = 256 ∧ (0 : ℚ) ≤ 1 / 3 ∧ (1 / 3 : ℚ) ≤ 1 ∧
    ∃ y z, RemoveCRF powf0 (1 / 3) .IL_LUT_8_BIT rampCurve = some y ∧
      ApplyCRF powf0 y .IL_LUT_8_BIT rampCurve = some z ∧ |z - 1 / 3| ≤ 1 / 255 :=
  ⟨rampCurve_length, by norm_num, by norm_num,
    lut_round_trip_strict powf0 (1 / 3) rampCurve rampCurve_length rampCurve_strict
      (by norm_num) (by norm_num)⟩

/-- C3: on a 256-entry table `ApplyCRF` in `IL_LUT_8_BIT` mode always returns
`i / 255` for an index `i ≤ 255`; when the table is non-decreasing and
`icrf[0] ≤ x ≤ icrf[255]`, that `i` is the smallest index of `0..255` with
`icrf[i] ≥ x`, although only the entries `0..254` are searched. -/
theorem ApplyCRF_lut_first_index (powf : α → α → α) (x : α) (icrf : List α)
    (hlen : icrf.length = 256) :
    (∃ i : Nat, i ≤ 255 ∧ ApplyCRF powf x .IL_LUT_8_BIT icrf = some ((i : α) / 255)) ∧
    ((∀ i j : Nat, i ≤ j → j < 256 → icrf.getD i 0 ≤ icrf.getD j 0) →
      icrf.getD 0 0 ≤ x → x ≤ icrf.getD 255 0 →
      ∃ i : Nat, i ≤ 255 ∧ x ≤ icrf.getD i 0 ∧ (∀ j, j < i → icrf.getD j 0 < x) ∧
        ApplyCRF powf x .IL_LUT_8_BIT icrf = some ((i : α) / 255)) := by
  have happ := ApplyCRF_lut powf x icrf (by omega)
  have hle := lower_bound_le (fun i => icrf.getD i 0) 0 255 x (by omega)
  refine ⟨⟨_, hle, happ⟩, ?_⟩
  intro hmono _ hx
  obtain ⟨_, _, hlow, hhigh⟩ := lower_bound_sorted (fun i => icrf.getD i 0) 0 255 x
    (by omega) (fun i j _ h2 h3 => hmono i j h2 (by omega))
  refine ⟨_, hle, ?_, fun j hj => hlow j (by omega) hj, happ⟩
  rcases Nat.eq_or_lt_of_le hle with h | h
  · rw [h]; exact hx
  · exact hhigh _ (le_refl _) h

/-- C3 at the table `i / 255` and `x = 1/2`, with the monotonicity and range
conditions discharged. -/
theorem ApplyCRF_lut_first_index_witness :
    rampCurve.length = 256 ∧
    ∃ i : Nat, i ≤ 255 ∧ (1 / 2 : ℚ) ≤ rampCurve.getD i 0 ∧
      (∀ j, j < i → rampCurve.getD j 0 < 1 / 2) ∧
      ApplyCRF powf0 (1 / 2) .IL_LUT_8_BIT rampCurve = some ((i : ℚ) / 255) :=
  ⟨rampCurve_length,
    (ApplyCRF_lut_first_index powf0 (1 / 2) rampCurve rampCurve_length).2
      (fun i j hij hj => by
        rcases Nat.eq_or_lt_of_le hij with h | h
        · subst h; exact le_refl _
        · exact le_of_lt (rampCurve_strict i j h hj))
      (by rw [rampCurve_getD 0 (by norm_num)]; norm_num)
      (by rw [rampCurve_getD 255 (by norm_num)]; norm_num)⟩

/-- C4, as stated, fails, at two floats.  At `x = 8454401 / 2 ^ 24`, in
`[0,1]`, the exact product `255 x` is below `128.5` and rounds to `128`, but
the float product is `128.5`, which `lround` takes to `129`: `RemoveCRF`
returns entry `129` and not entry `128`.  At `x = 16843010` the float product
is `2 ^ 32`, whose clamp to `[0,255]` is `255`, but its conversion to `int`
is `0`: `RemoveCRF` returns entry `0` and not entry `255`. -/
theorem RemoveCRF_lut_rounded_product :
    fl32 (8454401 / 16777216 : ℚ) = 8454401 / 16777216 ∧
    CLAMPi (lround ((8454401 / 16777216 : ℚ) * 255)) 0 255 = 128 ∧
    fl32 ((8454401 / 16777216 : ℚ) * 255) = 257 / 2 ∧
    lutIndex (8454401 / 16777216 : ℚ) = 129 ∧
    RemoveCRF powf0 (8454401 / 16777216 : ℚ) .IL_LUT_8_BIT rampCurve = some (129 / 255) ∧
    rampCurve[128]? = some (128 / 255) ∧
    fl32 (16843010 : ℚ) = 16843010 ∧
    CLAMPi (lround ((16843010 : ℚ) * 255)) 0 255 = 255 ∧
    fl32 ((16843010 : ℚ) * 255) = 4294967296 ∧
    lutIndex (16843010 : ℚ) = 0 ∧
    RemoveCRF powf0 (16843010 : ℚ) .IL_LUT_8_BIT rampCurve = some 0 ∧
    rampCurve[255]? = some 1 := by
  have hx : fl32 (8454401 / 16777216 : ℚ) = 8454401 / 16777216 := by
    have h := (fl32_fixed 8454401 (-24) (by norm_num) (by norm_num) :
      fl32 (((8454401 : Int) : ℚ) * (2 : ℚ) ^ (-24 : Int)) =
        ((8454401 : Int) : ℚ) * (2 : ℚ) ^ (-24 : Int))
    have e : ((8454401 : Int) : ℚ) * (2 : ℚ) ^ (-24 : Int) = 8454401 / 16777216 := by
      norm_num [zpow_neg]
    rwa [e] at h
  have hexact : lround ((8454401 / 16777216 : ℚ) * 255) = 128 := by
    unfold lround
    rw [if_pos (by norm_num), Int.floor_eq_iff]
    constructor <;> norm_num
  have hp : fl32 ((8454401 / 16777216 : ℚ) * 255) = 257 / 2 := by
    rw [fl32_eval ((8454401 / 16777216 : ℚ) * 255) 7 8421376 (by norm_num) (by norm_num)
      (by norm_num) (by norm_num) (by norm_num [zpow_neg]) (by norm_num [zpow_neg])]
    norm_num [zpow_neg]
  have hidx : lutIndex (8454401 / 16777216 : ℚ) = 129 := by
    unfold lutIndex
    rw [hp]
    have hl : lround (257 / 2 : ℚ) = 129 := by
      unfold lround
      rw [if_pos (by norm_num), Int.floor_eq_iff]
      constructor <;> norm_num
    rw [hl]
    decide
  have hy : fl32 (16843010 : ℚ) = 16843010 := by
    have h := (fl32_fixed 8421505 1 (by norm_num) (by norm_num) :
      fl32 (((8421505 : Int) : ℚ) * (2 : ℚ) ^ (1 : Int)) =
        ((8421505 : Int) : ℚ) * (2 : ℚ) ^ (1 : Int))
    have e : ((8421505 : Int) : ℚ) * (2 : ℚ) ^ (1 : Int) = 16843010 := by norm_num
    rwa [e] at h
  have hexact2 : lround ((16843010 : ℚ) * 255) = 4294967550 := by
    unfold lround
    rw [if_pos (by norm_num), Int.floor_eq_iff]
    constructor <;> norm_num
  have hq : fl32 ((16843010 : ℚ) * 255) = 4294967296 := by
    rw [fl32_eval ((16843010 : ℚ) * 255) 32 8388608 (by norm_num) (by norm_num)
      (by norm_num) (by norm_num) (by norm_num) (by norm_num)]
    norm_num
  have hidx2 : lutIndex (16843010 : ℚ) = 0 := by
    unfold lutIndex
    rw [hq]
    have hl : lround (4294967296 : ℚ) = 4294967296 := by
      unfold lround
      rw [if_pos (by norm_num), Int.floor_eq_iff]
      constructor <;> norm_num
    rw [hl]
    decide
  have hget : ∀ i : Nat, i < 256 → rampCurve[i]? = some ((i : ℚ) / 255) := by
    intro i hi
    have h := rampCurve_getD i hi
    have hlt : i < rampCurve.length := by rw [rampCurve_length]; exact hi
    rw [List.getD_eq_getElem?_getD, List.getElem?_eq_getElem hlt] at h
    rw [List.getElem?_eq_getElem hlt]
    simp only [Option.getD_some] at h
    rw [h]
  refine ⟨hx, ?_, hp, hidx, ?_, ?_, hy, ?_, hq, hidx2, ?_, ?_⟩
  · rw [hexact]; decide
  · rw [RemoveCRF_lut _ _ _ rampCurve_length, hidx]
    have := rampCurve_getD 129 (by norm_num)
    simpa using this
  · have := hget 128 (by norm_num)
    simpa using this
  · rw [hexact2]; decide
  · rw [RemoveCRF_lut _ _ _ rampCurve_length, hidx2]
    simpa using rampCurve_getD 0 (by norm_num)
  · have := hget 255 (by norm_num)
    simpa using this

/-- C4, amended: for every `x` and every 256-entry table the index that
`RemoveCRF` computes in `IL_LUT_8_BIT` mode lies in `[0,255]`, so the lookup
returns that entry and never fails; whenever the rounded code `lround(p)` of
the float product `p = x * 255.0f` fits a 32-bit `int`, the index is
`clamp(lround(p), 0, 255)`; and for `x` in `[0,1]` the index is `lround(p)`
and lies within `1/2 + 2 ^ (-17)` of `255 x`. -/
theorem RemoveCRF_lut_index [FloorRing α] (powf : α → α → α) (x : α) (icrf : List α)
    (hlen : icrf.length = 256) :
    (0 ≤ lutIndex x ∧ lutIndex x ≤ 255) ∧
    (∃ v, icrf[(lutIndex x).toNat]? = some v ∧
      RemoveCRF powf x .IL_LUT_8_BIT icrf = some v) ∧
    (-2147483648 ≤ lround (fl32 (x * 255)) → lround (fl32 (x * 255)) < 2147483648 →
      lutIndex x = CLAMPi (lround (fl32 (x * 255))) 0 255) ∧
    (0 ≤ x → x ≤ 1 → lutIndex x = lround (fl32 (x * 255)) ∧
      |((lutIndex x : Int) : α) - x * 255| ≤ 1 / 2 + 1 / 131072) := by
  have hb := lutIndex_bounds x
  have hlt : (lutIndex x).toNat < icrf.length := by omega
  refine ⟨hb, ⟨icrf[(lutIndex x).toNat], List.getElem?_eq_getElem hlt, ?_⟩,
    lutIndex_in_range x, ?_⟩
  · rw [RemoveCRF_lut powf x icrf hlen]
    simp [List.getD, List.getElem?_eq_getElem hlt]
  · intro h0 h1
    obtain ⟨hidx, _, _⟩ := lutIndex_unit x h0 h1
    obtain ⟨hp0, _, herr⟩ := fl32_product_unit x h0 h1
    have hl := lround_bounds (fl32 (x * 255)) hp0
    refine ⟨hidx, ?_⟩
    rw [hidx]
    rw [abs_le] at herr ⊢
    constructor <;> linarith [hl.1, hl.2.1, herr.1, herr.2]

/-- The amended C4 at the table `i / 255` and `x = 1/2`, whose float product
is `127.5`. -/
theorem RemoveCRF_lut_index_witness :
    rampCurve.length = 256 ∧
    (∃ v, rampCurve[(lutIndex (1 / 2 : ℚ)).toNat]? = some v ∧
      RemoveCRF powf0 (1 / 2) .IL_LUT_8_BIT rampCurve = some v) ∧
    lutIndex (1 / 2 : ℚ) = lround (fl32 ((1 / 2 : ℚ) * 255)) ∧
    |((lutIndex (1 / 2 : ℚ) : Int) : ℚ) - (1 / 2 : ℚ) * 255| ≤ 1 / 2 + 1 / 131072 :=
  ⟨rampCurve_length,
    (RemoveCRF_lut_index powf0 (1 / 2) rampCurve rampCurve_length).2.1,
    ((RemoveCRF_lut_index powf0 (1 / 2) rampCurve rampCurve_length).2.2.2
      (by norm_num) (by norm_num)).1,
    ((RemoveCRF_lut_index powf0 (1 / 2) rampCurve rampCurve_length).2.2.2
      (by norm_num) (by norm_num)).2⟩

/-- C5: in `IL_LIN` mode `RemoveCRF` and `ApplyCRF` each return their argument
unchanged, whatever `icrf` is, and so does their composition. -/
theorem identity_round_trip [FloorRing α] (powf : α → α → α) (x : α) (icrf : List α) :
    RemoveCRF powf x .IL_LIN icrf = some x ∧
    ApplyCRF powf x .IL_LIN icrf = some x ∧
    (RemoveCRF powf x .IL_LIN icrf).bind (fun y => ApplyCRF powf y .IL_LIN icrf) =
      some x := by
  simp [RemoveCRF, ApplyCRF]

/-- C6: over the reals, with `powf` the real power, `RemoveCRF` in `IL_2_2`
mode is `x ^ 2.2`, `ApplyCRF` is `x ^ (1 / 2.2)`, and for `x` in `[0,1]`
their composition returns `x`. -/
theorem gamma_round_trip (x : ℝ) (icrf : List ℝ) (h0 : 0 ≤ x) (_h1 : x ≤ 1) :
    RemoveCRF (fun a b : ℝ => a ^ b) x .IL_2_2 icrf = some (x ^ (2.2 : ℝ)) ∧
    ApplyCRF (fun a b : ℝ => a ^ b) x .IL_2_2 icrf = some (x ^ (1 / 2.2 : ℝ)) ∧
    (RemoveCRF (fun a b : ℝ => a ^ b) x .IL_2_2 icrf).bind
      (fun y => ApplyCRF (fun a b : ℝ => a ^ b) y .IL_2_2 icrf) = some x := by
  refine ⟨rfl, rfl, ?_⟩
  simp only [RemoveCRF, ApplyCRF, Option.some_bind, Option.some.injEq]
  rw [← Real.rpow_mul h0]
  norm_num

/-- C6 at `x = 1/2`. -/
theorem gamma_round_trip_witness :
    (0 : ℝ) ≤ 1 / 2 ∧ (1 / 2 : ℝ) ≤ 1 ∧
    (RemoveCRF (fun a b : ℝ => a ^ b) (1 / 2) .IL_2_2 []).bind
      (fun y => ApplyCRF (fun a b : ℝ => a ^ b) y .IL_2_2 []) = some (1 / 2) :=
  ⟨by norm_num, by norm_num, (gamma_round_trip (1 / 2) [] (by norm_num) (by norm_num)).2.2⟩

/-- C7: in `IL_LUT_8_BIT` mode, on a valid image whose channel count differs
from the number of curves of the model, `Linearize` and the image overload of
`ApplyCRF` return the image unchanged and fetch no curve. -/
theorem lut_channel_mismatch_noop [FloorRing α] (powf : α → α → α)
    (self : CameraResponseFunction α) (img : Image α) (hvalid : img.isValid = true)
    (hmis : self.icrf.length ≠ img.channels) :
    Linearize powf self img .IL_LUT_8_BIT = some (img, []) ∧
    ApplyCRFImage powf self img .IL_LUT_8_BIT = some (img, []) := by
  simp [Linearize, ApplyCRFImage, hvalid, hmis]

/-- C7 on a three-channel pixel and a model with one curve. -/
theorem lut_channel_mismatch_noop_witness :
    rgbPixel.isValid = true ∧ oneCurveModel.icrf.length ≠ rgbPixel.channels ∧
    Linearize powf0 oneCurveModel rgbPixel .IL_LUT_8_BIT = some (rgbPixel, []) ∧
    ApplyCRFImage powf0 oneCurveModel rgbPixel .IL_LUT_8_BIT = some (rgbPixel, []) :=
  ⟨by decide, by decide,
    lut_channel_mismatch_noop powf0 oneCurveModel rgbPixel (by decide) (by decide)⟩

/-- C8: for a non-empty stack and `nSamples ≥ 1`, `subSampleGrossberg` returns
exactly `channels * nSamples * exposures` codes, every code is at most 255,
and the code of channel `k`, sample `i` and exposure `j` is stored at index
`(k * nSamples + i) * exposures + j`. -/
theorem subSampleGrossberg_count [FloorRing α] (hist : Image α → Nat → Nat → α) (img0 : Image α)
    (rest : List (Image α)) (nSamples : Int) (hn : 1 ≤ nSamples) :
    ∃ samples, subSampleGrossberg hist (img0 :: rest) nSamples = some samples ∧
      samples.length = img0.channels * nSamples.toNat * (rest.length + 1) ∧
      (∀ c ∈ samples, c ≤ 255) ∧
      (∀ k i j, k < img0.channels → i < nSamples.toNat → j < rest.length + 1 →
        samples[(k * nSamples.toNat + i) * (rest.length + 1) + j]? =
          some (grossbergCode (histTable hist (img0 :: rest) img0.channels)
            (rest.length + 1) nSamples.toNat k i j)) := by
  have hn2 : ¬ nSamples < 1 := by omega
  refine ⟨_, by simp only [subSampleGrossberg, hn2, if_false]; rfl, ?_, ?_, ?_⟩
  · rw [flatMap_range_length _ (nSamples.toNat * (rest.length + 1))]
    · ring
    · intro k
      rw [flatMap_range_length _ (rest.length + 1)]
      intro i
      simp
  · intro c hc
    simp only [List.mem_flatMap, List.mem_map] at hc
    obtain ⟨k, _, i, _, j, _, rfl⟩ := hc
    exact grossbergCode_le _ _ _ _ _ _
  · intro k i j hk hi hj
    have hinner : ∀ k i : Nat, ((List.range (img0 :: rest).length).map (fun j =>
        grossbergCode (histTable hist (img0 :: rest) img0.channels) (img0 :: rest).length
          nSamples.toNat k i j)).length = rest.length + 1 := by
      intro k i; simp
    have hmid : ∀ k : Nat, ((List.range nSamples.toNat).flatMap (fun i =>
        (List.range (img0 :: rest).length).map (fun j =>
          grossbergCode (histTable hist (img0 :: rest) img0.channels) (img0 :: rest).length
            nSamples.toNat k i j))).length = nSamples.toNat * (rest.length + 1) := by
      intro k
      exact flatMap_range_length _ _ (hinner k) _
    have hidx : (k * nSamples.toNat + i) * (rest.length + 1) + j =
        k * (nSamples.toNat * (rest.length + 1)) + (i * (rest.length + 1) + j) := by ring
    have hlt : i * (rest.length + 1) + j < nSamples.toNat * (rest.length + 1) := by
      calc i * (rest.length + 1) + j < i * (rest.length + 1) + (rest.length + 1) := by omega
        _ = (i + 1) * (rest.length + 1) := by ring
        _ ≤ nSamples.toNat * (rest.length + 1) := Nat.mul_le_mul_right _ hi
    rw [hidx, flatMap_range_getElem? _ _ hmid _ k _ hk hlt,
      flatMap_range_getElem? _ _ (hinner k) _ i j hi hj]
    rw [List.getElem?_map, List.getElem?_range (by simpa using hj)]
    rfl

/-- C8 on a stack of two grey pixels with two samples: four codes. -/
theorem subSampleGrossberg_count_witness :
    (1 : Int) ≤ 2 ∧
    ∃ samples, subSampleGrossberg hist0 [greyPixel, greyPixel] 2 = some samples ∧
      samples.length = 4 ∧ (∀ c ∈ samples, c ≤ 255) := by
  obtain ⟨s, h1, h2, h3, _⟩ :=
    subSampleGrossberg_count hist0 greyPixel [greyPixel] 2 (by decide)
  exact ⟨by decide, s, h1, h2, h3⟩

/-- C9: on an empty stack `DebevecMalik` returns at its first guard: the
object (`type`, `w`, `icrf`) is returned as it was and the log of attempted
work is empty, whatever the histogram and solver are; `subSampleGrossberg`
on the empty stack gives `NULL`.  The early return is the only signal of the
failure, the function being `void`. -/
theorem DebevecMalik_empty_stack [FloorRing α] (hist : Image α → Nat → Nat → α)
    (svdSolve : MatrixXf α → VectorXf α → Nat → α) (expf logf : α → α)
    (self : CameraResponseFunction α) (type : CRF_WEIGHT) (nSamples : Int) (lambda : α) :
    DebevecMalik hist svdSolve expf logf self [] type nSamples lambda = (self, []) ∧
    subSampleGrossberg hist [] nSamples = none :=
  ⟨rfl, rfl⟩

/-- C10, as stated, fails: on a stack of one grey pixel `DebevecMalik` does
not stop; it subsamples, solves for channel 0, and the model, which had no
curve, holds one afterwards. -/
theorem DebevecMalik_single_exposure_runs :
    (DebevecMalik hist0 svd0 expf0 logf0 emptyModel [greyPixel] CRF_WEIGHT.CW_DEB97 2
      10).1.icrf.length = 1 ∧
    emptyModel.icrf.length = 0 ∧
    (DebevecMalik hist0 svd0 expf0 logf0 emptyModel [greyPixel] CRF_WEIGHT.CW_DEB97 2
      10).2 = [Event.subSample, Event.solve 0] := by
  refine ⟨?_, rfl, ?_⟩
  · rw [DebevecMalik_icrf]; simp [greyPixel]
  · rfl

/-- C10, amended: a stack of exactly one exposure is not rejected:
`DebevecMalik` subsamples, solves once per channel and stores one curve of 256
entries per channel of the image. -/
theorem DebevecMalik_single_exposure [FloorRing α] (hist : Image α → Nat → Nat → α)
    (svdSolve : MatrixXf α → VectorXf α → Nat → α) (expf logf : α → α)
    (self : CameraResponseFunction α) (img : Image α) (type : CRF_WEIGHT)
    (nSamples : Int) (lambda : α) :
    (DebevecMalik hist svdSolve expf logf self [img] type nSamples lambda).1.icrf.length =
      img.channels ∧
    (∀ curve ∈ (DebevecMalik hist svdSolve expf logf self [img] type nSamples
      lambda).1.icrf, curve.length = 256) ∧
    (DebevecMalik hist svdSolve expf logf self [img] type nSamples lambda).2 =
      Event.subSample :: (List.range img.channels).map Event.solve := by
  refine ⟨?_, ?_, rfl⟩
  · rw [DebevecMalik_icrf]; simp
  · intro curve hc
    rw [DebevecMalik_icrf, List.mem_map] at hc
    obtain ⟨i, _, rfl⟩ := hc
    rw [normalise_length, unnormalised_length]

/-- C11: for a non-empty stack and `nSamples < 1`, `subSampleGrossberg` and
`DebevecMalik` do not reject the call (the first returns samples, the second
subsamples and solves every channel) and give exactly what the same call with
`nSamples = 256` gives. -/
theorem default_sample_count [FloorRing α] (hist : Image α → Nat → Nat → α)
    (svdSolve : MatrixXf α → VectorXf α → Nat → α) (expf logf : α → α)
    (self : CameraResponseFunction α) (img0 : Image α) (rest : List (Image α))
    (type : CRF_WEIGHT) (nSamples : Int) (lambda : α) (hn : nSamples < 1) :
    subSampleGrossberg hist (img0 :: rest) nSamples =
      subSampleGrossberg hist (img0 :: rest) 256 ∧
    (subSampleGrossberg hist (img0 :: rest) nSamples).isSome = true ∧
    DebevecMalik hist svdSolve expf logf self (img0 :: rest) type nSamples lambda =
      DebevecMalik hist svdSolve expf logf self (img0 :: rest) type 256 lambda ∧
    (DebevecMalik hist svdSolve expf logf self (img0 :: rest) type nSamples lambda).2 =
      Event.subSample :: (List.range img0.channels).map Event.solve := by
  refine ⟨?_, rfl, ?_, rfl⟩
  · simp [subSampleGrossberg, hn]
  · simp [DebevecMalik, hn]

/-- C11 at `nSamples = -3` on a stack of one grey pixel. -/
theorem default_sample_count_witness :
    (-3 : Int) < 1 ∧
    subSampleGrossberg hist0 [greyPixel] (-3) = subSampleGrossberg hist0 [greyPixel] 256 ∧
    DebevecMalik hist0 svd0 expf0 logf0 emptyModel [greyPixel] CRF_WEIGHT.CW_DEB97 (-3) 10 =
      DebevecMalik hist0 svd0 expf0 logf0 emptyModel [greyPixel] CRF_WEIGHT.CW_DEB97 256 10 :=
  ⟨by decide,
    (default_sample_count hist0 svd0 expf0 logf0 emptyModel greyPixel []
      CRF_WEIGHT.CW_DEB97 (-3) 10 (by decide)).1,
    (default_sample_count hist0 svd0 expf0 logf0 emptyModel greyPixel []
      CRF_WEIGHT.CW_DEB97 (-3) 10 (by decide)).2.2.1⟩

end CameraResponseFunction

theorem CLAMPi_unit_bounds (y : α) : 0 ≤ CLAMPi y 0 1 ∧ CLAMPi y 0 1 ≤ 1 := by
  unfold CLAMPi
  split_ifs with h1 h2
  · exact ⟨le_refl _, zero_le_one⟩
  · exact ⟨zero_le_one, le_refl _⟩
  · exact ⟨not_lt.mp h1, not_lt.mp h2⟩

/-- The range of the weights on the unit interval, per weight type. -/
theorem WeightFunction_range (expf : α → α) (hexp0 : ∀ t, 0 ≤ expf t)
    (hexp1 : ∀ t, t ≤ 0 → expf t ≤ 1) (x : α) (h0 : 0 ≤ x) (h1 : x ≤ 1) :
    (0 ≤ WeightFunction expf x .CW_HAT ∧ WeightFunction expf x .CW_HAT ≤ 1) ∧
    (0 ≤ WeightFunction expf x .CW_GAUSS ∧ WeightFunction expf x .CW_GAUSS ≤ 1) ∧
    (0 ≤ WeightFunction expf x .CW_ROBERTSON ∧ WeightFunction expf x .CW_ROBERTSON ≤ 1) ∧
    (0 ≤ WeightFunction expf x .CW_DEB97 ∧ WeightFunction expf x .CW_DEB97 ≤ 1) ∧
    (-(1 / 100) ≤ WeightFunction expf x .CW_DEB97p01 ∧
      WeightFunction expf x .CW_DEB97p01 ≤ 1) := by
  refine ⟨?_, ?_, ?_, ?_, ?_⟩
  · simp only [WeightFunction]
    have hsq : (2 * x - 1) * (2 * x - 1) ≤ 1 := by nlinarith
    have hsq0 : 0 ≤ (2 * x - 1) * (2 * x - 1) := mul_self_nonneg _
    have hq0 : 0 ≤ (2 * x - 1) * (2 * x - 1) * ((2 * x - 1) * (2 * x - 1)) :=
      mul_nonneg hsq0 hsq0
    have hq1 : (2 * x - 1) * (2 * x - 1) * ((2 * x - 1) * (2 * x - 1)) ≤ 1 := by
      nlinarith
    have hqq0 := mul_nonneg hq0 hq0
    have hqq1 : (2 * x - 1) * (2 * x - 1) * ((2 * x - 1) * (2 * x - 1)) *
        ((2 * x - 1) * (2 * x - 1) * ((2 * x - 1) * (2 * x - 1))) ≤ 1 := by nlinarith
    have h120 := mul_nonneg hqq0 hq0
    constructor
    · nlinarith
    · linarith
  · simp only [WeightFunction]
    refine ⟨hexp0 _, hexp1 _ ?_⟩
    have : 0 ≤ (x - 0.5) * (x - 0.5) := mul_self_nonneg _
    apply div_nonpos_of_nonpos_of_nonneg
    · linarith
    · norm_num
  · simp only [WeightFunction]
    exact CLAMPi_unit_bounds _
  · simp only [WeightFunction]
    split_ifs with h
    · constructor <;> linarith
    · push_neg at h
      constructor <;> linarith
  · simp only [WeightFunction]
    have e : ((0.01 : α) + 0.99) / 2 = 1 / 2 := by norm_num
    have e1 : (0.01 : α) = 1 / 100 := by norm_num
    have e2 : (0.99 : α) = 99 / 100 := by norm_num
    rw [e, e1, e2]
    split_ifs with h
    · constructor <;> linarith
    · push_neg at h
      constructor <;> linarith


theorem upper_bound_sorted (a : Nat → α) (first last : Nat) (val : α)
    (hfl : first ≤ last)
    (hmono : ∀ i j, first ≤ i → i ≤ j → j < last → a i ≤ a j) :
    first ≤ upper_bound a first last val ∧ upper_bound a first last val ≤ last ∧
    (∀ i, first ≤ i → i < upper_bound a first last val → a i ≤ val) ∧
    (∀ i, upper_bound a first last val ≤ i → i < last → val < a i) := by
  have hb := bsearch_bounds (fun m => !decide (val < a m)) (last - first) first (last - first)
  have hs := bsearch_spec (fun m => !decide (val < a m)) (last - first) first (last - first)
    (le_refl _)
    (fun i j h1 h2 h3 h4 => by
      have h5 : a j ≤ val := by simpa using h4
      have h6 : a i ≤ a j := hmono i j h1 h2 (by omega)
      simpa using le_trans h6 h5)
  unfold upper_bound
  refine ⟨hb.1, by omega, ?_, ?_⟩
  · intro i h1 h2
    simpa using hs.1 i h1 h2
  · intro i h1 h2
    have := hs.2 i h1 (by omega)
    simpa using this

theorem upper_bound_le (a : Nat → α) (first last : Nat) (val : α) (hfl : first ≤ last) :
    upper_bound a first last val ≤ last := by
  have hb := bsearch_bounds (fun m => !decide (val < a m)) (last - first) first (last - first)
  unfold upper_bound
  omega

/-- C13: the hat weight is `0` at `0` and at `1`, `1` at `0.5`, and symmetric:
`w(x) = w(1 - x)` for every `x`. -/
theorem hat_weight_symmetry (expf : α → α) (x : α) :
    WeightFunction expf 0 .CW_HAT = 0 ∧ WeightFunction expf 1 .CW_HAT = 0 ∧
    WeightFunction expf 0.5 .CW_HAT = 1 ∧
    WeightFunction expf x .CW_HAT = WeightFunction expf (1 - x) .CW_HAT := by
  simp only [WeightFunction]
  refine ⟨by norm_num, by norm_num, by norm_num, by ring⟩

/-- C15, as stated, fails: at `x = 1/4` the hat weight of the code is
`1 - (1/2)^12 = 4095/4096`, while `1 - ((2x - 1)^2)^4` is `255/256`. -/
theorem hat_weight_quarter :
    WeightFunction expf0 (1 / 4) .CW_HAT = 4095 / 4096 ∧
    (1 - ((2 * (1 / 4 : ℚ) - 1) ^ 2) ^ 4 = 255 / 256) ∧
    WeightFunction expf0 (1 / 4) .CW_HAT ≠ 1 - ((2 * (1 / 4 : ℚ) - 1) ^ 2) ^ 4 ∧
    (0 : ℚ) ≤ 1 / 4 ∧ (1 / 4 : ℚ) ≤ 1 := by
  simp only [WeightFunction]
  norm_num

/-- C15, amended: for every `x`, in particular on `[0,1]`, the hat weight is
`1 - (2x - 1)^12`, the cube of the quartic. -/
theorem hat_weight_formula (expf : α → α) (x : α) :
    WeightFunction expf x .CW_HAT = 1 - (2 * x - 1) ^ 12 := by
  simp only [WeightFunction]
  ring

/-- C16: for every `x` the two triangular weights are
`min(x - 0, 1 - x)` and `min(x - 0.01, 0.99 - x)`: the branch on
`x ≤ (Zmin + Zmax) / 2` selects the smaller arm. -/
theorem triangular_weights (expf : α → α) (x : α) :
    WeightFunction expf x .CW_DEB97 = min (x - 0) (1 - x) ∧
    WeightFunction expf x .CW_DEB97p01 = min (x - 0.01) (0.99 - x) := by
  simp only [WeightFunction]
  constructor
  · split_ifs with h
    · rw [min_eq_left]; linarith
    · rw [min_eq_right]; push_neg at h; linarith
  · have e : ((0.01 : α) + 0.99) / 2 = 1 / 2 := by norm_num
    rw [e]
    split_ifs with h
    · rw [min_eq_left]
      have : (0.01 : α) + 0.99 = 1 := by norm_num
      linarith
    · rw [min_eq_right]; push_neg at h
      have : (0.01 : α) + 0.99 = 1 := by norm_num
      linarith

namespace CameraResponseFunction

theorem histTable_getD {β : Type} (hist : Image β → Nat → Nat → β) (stack : List (Image β))
    (channels k j : Nat) (hk : k < channels) (hj : j < stack.length)
    (d : Nat → β) (img0 : Image β) :
    (histTable hist stack channels).getD (k * stack.length + j) d =
      hist (stack.getD j img0) k := by
  unfold histTable
  rw [List.getD_eq_getElem?_getD,
    flatMap_range_getElem? (fun j => stack.map (fun img => hist img j)) stack.length
      (fun _ => List.length_map _ _) channels k j hk hj]
  simp [List.getD, List.getElem?_map, List.getElem?_eq_getElem hj]

/-- Where `subSampleGrossberg` stores the code of a (channel, sample, exposure)
triple. -/
theorem subSampleGrossberg_getElem? [FloorRing α] (hist : Image α → Nat → Nat → α) (img0 : Image α)
    (rest : List (Image α)) (nSamples : Int) (hn : 1 ≤ nSamples) (k i j : Nat)
    (hk : k < img0.channels) (hi : i < nSamples.toNat) (hj : j < rest.length + 1) :
    ∃ samples, subSampleGrossberg hist (img0 :: rest) nSamples = some samples ∧
      samples[(k * nSamples.toNat + i) * (rest.length + 1) + j]? =
        some (grossbergCode (histTable hist (img0 :: rest) img0.channels)
          (rest.length + 1) nSamples.toNat k i j) := by
  have hn2 : ¬ nSamples < 1 := by omega
  refine ⟨_, by simp only [subSampleGrossberg, hn2, if_false]; rfl, ?_⟩
  have hinner : ∀ k i : Nat, ((List.range (img0 :: rest).length).map (fun j =>
      grossbergCode (histTable hist (img0 :: rest) img0.channels) (img0 :: rest).length
        nSamples.toNat k i j)).length = rest.length + 1 := by
    intro k i; simp
  have hmid : ∀ k : Nat, ((List.range nSamples.toNat).flatMap (fun i =>
      (List.range (img0 :: rest).length).map (fun j =>
        grossbergCode (histTable hist (img0 :: rest) img0.channels) (img0 :: rest).length
          nSamples.toNat k i j))).length = nSamples.toNat * (rest.length + 1) := by
    intro k
    exact flatMap_range_length _ _ (hinner k) _
  have hidx : (k * nSamples.toNat + i) * (rest.length + 1) + j =
      k * (nSamples.toNat * (rest.length + 1)) + (i * (rest.length + 1) + j) := by ring
  have hlt : i * (rest.length + 1) + j < nSamples.toNat * (rest.length + 1) := by
    calc i * (rest.length + 1) + j < i * (rest.length + 1) + (rest.length + 1) := by omega
      _ = (i + 1) * (rest.length + 1) := by ring
      _ ≤ nSamples.toNat * (rest.length + 1) := Nat.mul_le_mul_right _ hi
  rw [hidx, flatMap_range_getElem? _ _ hmid _ k _ hk hlt,
    flatMap_range_getElem? _ _ (hinner k) _ i j hi hj]
  rw [List.getElem?_map, List.getElem?_range (by simpa using hj)]
  rfl

/-- The code of `grossbergCode` on an ascending cumulative array. -/
theorem grossbergCode_first_greater [FloorRing α] (h : List (Nat → α))
    (exposures nSamples k i j : Nat)
    (bin_c : Nat → α) (hbin : h.getD (k * exposures + j) (fun _ => 0) = bin_c)
    (hasc : ∀ b b' : Nat, b ≤ b' → b' ≤ 255 → bin_c b ≤ bin_c b') :
    grossbergCode h exposures nSamples k i j ≤ 255 ∧
    (∀ b, b < grossbergCode h exposures nSamples k i j →
      bin_c b ≤ fl32 (fl32 (i : α) / fl32 (nSamples : α))) ∧
    ((∃ b, b ≤ 255 ∧ fl32 (fl32 (i : α) / fl32 (nSamples : α)) < bin_c b) →
      fl32 (fl32 (i : α) / fl32 (nSamples : α)) <
        bin_c (grossbergCode h exposures nSamples k i j)) ∧
    ((∀ b, b ≤ 255 → bin_c b ≤ fl32 (fl32 (i : α) / fl32 (nSamples : α))) →
      grossbergCode h exposures nSamples k i j = 255) := by
  obtain ⟨_, hle, hlow, hhigh⟩ := upper_bound_sorted bin_c 0 255
    (fl32 (fl32 (i : α) / fl32 (nSamples : α)))
    (by omega) (fun a b _ h2 h3 => hasc a b h2 (by omega))
  have hcode : grossbergCode h exposures nSamples k i j =
      upper_bound bin_c 0 255 (fl32 (fl32 (i : α) / fl32 (nSamples : α))) := by
    unfold grossbergCode
    simp only [hbin]
    unfold CLAMPi
    split_ifs <;> omega
  rw [hcode]
  refine ⟨hle, fun b hb => hlow b (by omega) hb, ?_, ?_⟩
  · rintro ⟨b, hb, hgt⟩
    rcases Nat.eq_or_lt_of_le hle with h255 | hlt
    · rw [h255]
      exact lt_of_lt_of_le hgt (hasc b 255 hb (le_refl _))
    · exact hhigh _ (le_refl _) hlt
  · intro hall
    by_contra hne
    have hlt : upper_bound bin_c 0 255 (fl32 (fl32 (i : α) / fl32 (nSamples : α))) < 255 := by
      omega
    exact absurd (hall _ (by omega)) (not_le.mpr (hhigh _ (le_refl _) hlt))

theorem histThird_ascending (img : Image ℚ) (k b b' : Nat) (hbb : b ≤ b') :
    histThird img k b ≤ histThird img k b' := by
  unfold histThird
  split_ifs <;> first | omega | norm_num

/-- The float quotient `float(1) / float(3)`. -/
theorem fl32_third :
    fl32 (fl32 ((1 : Nat) : ℚ) / fl32 ((3 : Nat) : ℚ)) = 11184811 / 33554432 := by
  rw [fl32_natCast 1 (by norm_num), fl32_natCast 3 (by norm_num)]
  rw [fl32_eval (((1 : Nat) : ℚ) / ((3 : Nat) : ℚ)) (-2) 11184811 (by norm_num) (by norm_num)
    (by norm_num [zpow_neg]) (by norm_num [zpow_neg]) (by norm_num [zpow_neg])
    (by norm_num [zpow_neg])]
  norm_num [zpow_neg]

/-- C17, as stated, fails: with three samples the target of sample 1 is the
float quotient `float(1) / float(3) = 11184811 / 2 ^ 25`, which is above
`1/3`.  On an ascending cumulative array whose bin 10 holds exactly that
value, bin 10 is the smallest bin that exceeds `1/3`, but it does not exceed
the float quotient, and the stored code is `11`. -/
theorem grossberg_third_skipped :
    (∀ b b' : Nat, b ≤ b' → histThird greyPixel 0 b ≤ histThird greyPixel 0 b') ∧
    ((1 : Nat) : ℚ) / ((3 : Nat) : ℚ) < histThird greyPixel 0 10 ∧
    (∀ b, b < 10 → histThird greyPixel 0 b ≤ ((1 : Nat) : ℚ) / ((3 : Nat) : ℚ)) ∧
    fl32 (fl32 ((1 : Nat) : ℚ) / fl32 ((3 : Nat) : ℚ)) = histThird greyPixel 0 10 ∧
    ∃ samples, subSampleGrossberg histThird [greyPixel] 3 = some samples ∧
      samples[1]? = some 11 := by
  have h10 : histThird greyPixel 0 10 = 11184811 / 33554432 := by
    unfold histThird
    norm_num
  refine ⟨fun b b' hbb => histThird_ascending _ _ b b' hbb, ?_, ?_, ?_, ?_⟩
  · rw [h10]; norm_num
  · intro b hb
    unfold histThird
    rw [if_pos hb]
    norm_num
  · rw [h10]; exact fl32_third
  · obtain ⟨samples, hs, hget⟩ := subSampleGrossberg_getElem? histThird greyPixel [] 3
      (by decide) 0 1 0 (by decide) (by decide) (by decide)
    refine ⟨samples, hs, ?_⟩
    have hbin := histTable_getD histThird [greyPixel] greyPixel.channels 0 0 (by decide)
      (by decide) (fun _ => 0) greyPixel
    obtain ⟨_, h2, h3, _⟩ := grossbergCode_first_greater
      (histTable histThird [greyPixel] greyPixel.channels) (([] : List (Image ℚ)).length + 1)
      (3 : Int).toNat 0 1 0 (histThird ([greyPixel].getD 0 greyPixel) 0) hbin
      (fun b b' hbb _ => histThird_ascending _ _ b b' hbb)
    have h3n : (3 : Int).toNat = 3 := rfl
    rw [h3n] at h2 h3
    rw [fl32_third] at h2 h3
    have hcode : grossbergCode (histTable histThird [greyPixel] greyPixel.channels)
        (([] : List (Image ℚ)).length + 1) 3 0 1 0 = 11 := by
      generalize grossbergCode (histTable histThird [greyPixel] greyPixel.channels)
        (([] : List (Image ℚ)).length + 1) 3 0 1 0 = code at h2 h3
      have hge : 11 ≤ code := by
        by_contra hlt
        have hgt := h3 ⟨11, by norm_num, by unfold histThird; norm_num⟩
        unfold histThird at hgt
        split_ifs at hgt with ha hb
        · norm_num at hgt
        · norm_num at hgt
        · omega
      have hle : code ≤ 11 := by
        by_contra hgt
        have := h2 11 (by omega)
        unfold histThird at this
        norm_num at this
      omega
    rw [h3n, hcode] at hget
    exact hget

/-- C17, amended: for channel `k`, sample `i < nSamples` and exposure `j`, when
the cumulative array of that channel and exposure is ascending over its 256
entries, the stored code is the smallest bin `b` of `0..255` whose value
exceeds the float quotient `u = float(i) / float(nSamples)` (no smaller bin
exceeds it, and the bin at the code does when some bin does), and it is `255`
when no bin exceeds it; `u` is `i / nSamples` itself whenever that is a float
and `nSamples < 2 ^ 24`. -/
theorem grossberg_percentile [FloorRing α] (hist : Image α → Nat → Nat → α) (img0 : Image α)
    (rest : List (Image α)) (nSamples : Int) (hn : 1 ≤ nSamples) (k i j : Nat)
    (hk : k < img0.channels) (hi : i < nSamples.toNat) (hj : j < rest.length + 1)
    (hasc : ∀ b b' : Nat, b ≤ b' → b' ≤ 255 →
      hist ((img0 :: rest).getD j img0) k b ≤ hist ((img0 :: rest).getD j img0) k b') :
    ∃ samples code, subSampleGrossberg hist (img0 :: rest) nSamples = some samples ∧
      samples[(k * nSamples.toNat + i) * (rest.length + 1) + j]? = some code ∧
      code ≤ 255 ∧
      (∀ b, b < code →
        hist ((img0 :: rest).getD j img0) k b ≤
          fl32 (fl32 (i : α) / fl32 (nSamples.toNat : α))) ∧
      ((∃ b, b ≤ 255 ∧
          fl32 (fl32 (i : α) / fl32 (nSamples.toNat : α)) <
            hist ((img0 :: rest).getD j img0) k b) →
        fl32 (fl32 (i : α) / fl32 (nSamples.toNat : α)) <
          hist ((img0 :: rest).getD j img0) k code) ∧
      ((∀ b, b ≤ 255 →
          hist ((img0 :: rest).getD j img0) k b ≤
            fl32 (fl32 (i : α) / fl32 (nSamples.toNat : α))) →
        code = 255) ∧
      (nSamples.toNat < 16777216 →
        fl32 ((i : α) / (nSamples.toNat : α)) = (i : α) / (nSamples.toNat : α) →
        fl32 (fl32 (i : α) / fl32 (nSamples.toNat : α)) = (i : α) / (nSamples.toNat : α)) := by
  obtain ⟨samples, hs, hget⟩ := subSampleGrossberg_getElem? hist img0 rest nSamples hn k i j
    hk hi hj
  have hbin := histTable_getD hist (img0 :: rest) img0.channels k j hk
    (by simpa using hj) (fun _ => 0) img0
  obtain ⟨h1, h2, h3, h4⟩ := grossbergCode_first_greater
    (histTable hist (img0 :: rest) img0.channels) (rest.length + 1) nSamples.toNat k i j
    (hist ((img0 :: rest).getD j img0) k) hbin hasc
  refine ⟨samples, _, hs, hget, h1, h2, h3, h4, ?_⟩
  intro hsmall hfix
  rw [fl32_natCast i (by omega), fl32_natCast nSamples.toNat hsmall, hfix]


theorem hist0_ascending (img : Image ℚ) (k b b' : Nat) (hbb : b ≤ b') :
    hist0 img k b ≤ hist0 img k b' := by
  unfold hist0
  have : (b : ℚ) ≤ (b' : ℚ) := by exact_mod_cast hbb
  linarith

/-- The amended C17 on two grey pixels, four samples, sample 2 of exposure 1,
with the ascending histogram `hist0`; the float quotient is `2 / 4`. -/
theorem grossberg_percentile_witness :
    (1 : Int) ≤ 4 ∧ 0 < greyPixel.channels ∧ 2 < (4 : Int).toNat ∧
    ∃ samples code, subSampleGrossberg hist0 [greyPixel, greyPixel] 4 = some samples ∧
      samples[(0 * (4 : Int).toNat + 2) * ([greyPixel].length + 1) + 1]? = some code ∧
      code ≤ 255 ∧
      (∀ b, b < code → hist0 ([greyPixel, greyPixel].getD 1 greyPixel) 0 b ≤
        fl32 (fl32 ((2 : Nat) : ℚ) / fl32 (((4 : Int).toNat : Nat) : ℚ))) ∧
      fl32 (fl32 ((2 : Nat) : ℚ) / fl32 (((4 : Int).toNat : Nat) : ℚ)) <
        hist0 ([greyPixel, greyPixel].getD 1 greyPixel) 0 code ∧
      fl32 (fl32 ((2 : Nat) : ℚ) / fl32 (((4 : Int).toNat : Nat) : ℚ)) =
        ((2 : Nat) : ℚ) / (((4 : Int).toNat : Nat) : ℚ) := by
  have h4 : (4 : Int).toNat = 4 := rfl
  have hhalf : fl32 (((2 : Nat) : ℚ) / (((4 : Int).toNat : Nat) : ℚ)) =
      ((2 : Nat) : ℚ) / (((4 : Int).toNat : Nat) : ℚ) := by
    have h := (fl32_fixed 1 (-1) (by norm_num) (by norm_num) :
      fl32 (((1 : Int) : ℚ) * (2 : ℚ) ^ (-1 : Int)) = ((1 : Int) : ℚ) * (2 : ℚ) ^ (-1 : Int))
    have e : ((1 : Int) : ℚ) * (2 : ℚ) ^ (-1 : Int) =
        ((2 : Nat) : ℚ) / (((4 : Int).toNat : Nat) : ℚ) := by
      rw [h4]; norm_num
    rwa [e] at h
  obtain ⟨samples, code, h1, h2, h3, h5, h6, _, h8⟩ :=
    grossberg_percentile hist0 greyPixel [greyPixel] 4 (by decide) 0 2 1 (by decide)
      (by decide) (by decide) (fun b b' hbb _ => hist0_ascending _ _ b b' hbb)
  have hu := h8 (by decide) hhalf
  refine ⟨by decide, by decide, by decide, samples, code, h1, h2, h3, h5,
    h6 ⟨255, le_refl _, ?_⟩, hu⟩
  rw [hu, h4]
  simp only [hist0]
  norm_num

/-- C14, as stated, fails for the padded triangular weight: the table entry
for code `0` is `0 - 0.01 = -1/100`, below `0`. -/
theorem weight_table_padded_negative :
    (DebevecMalik hist0 svd0 expf0 logf0 emptyModel [greyPixel] CRF_WEIGHT.CW_DEB97p01 2
      10).1.w 0 = -(1 / 100) ∧
    ¬ (0 ≤ (DebevecMalik hist0 svd0 expf0 logf0 emptyModel [greyPixel]
      CRF_WEIGHT.CW_DEB97p01 2 10).1.w 0) := by
  have h : (DebevecMalik hist0 svd0 expf0 logf0 emptyModel [greyPixel]
      CRF_WEIGHT.CW_DEB97p01 2 10).1.w 0 = -(1 / 100) := by
    simp only [DebevecMalik, weightTable, WeightFunction]
    norm_num
  exact ⟨h, by rw [h]; norm_num⟩

/-- C14, amended: the table entry that `DebevecMalik` stores for code
`c ≤ 255` is `WeightFunction(c / 255, type)`; it lies in `[0,1]` for the hat,
both Gaussian variants and the full-range triangular weight, and for the
padded triangular weight it lies in `[-0.01, 1]`, and in `[0,1]` for the codes
`3..252` (`expf` takes values in `[0,1]` on non-positive arguments). -/
theorem weight_table_range [FloorRing α] (hist : Image α → Nat → Nat → α)
    (svdSolve : MatrixXf α → VectorXf α → Nat → α) (expf logf : α → α)
    (hexp0 : ∀ t, 0 ≤ expf t) (hexp1 : ∀ t, t ≤ 0 → expf t ≤ 1)
    (self : CameraResponseFunction α) (img0 : Image α) (rest : List (Image α))
    (type : CRF_WEIGHT) (nSamples : Int) (lambda : α) (c : Nat) (hc : c ≤ 255) :
    (DebevecMalik hist svdSolve expf logf self (img0 :: rest) type nSamples lambda).1.w c =
      WeightFunction expf ((c : α) / 255) type ∧
    (type = .CW_HAT ∨ type = .CW_GAUSS ∨ type = .CW_ROBERTSON ∨ type = .CW_DEB97 →
      0 ≤ (DebevecMalik hist svdSolve expf logf self (img0 :: rest) type nSamples
        lambda).1.w c ∧
      (DebevecMalik hist svdSolve expf logf self (img0 :: rest) type nSamples
        lambda).1.w c ≤ 1) ∧
    (type = .CW_DEB97p01 →
      -(1 / 100) ≤ (DebevecMalik hist svdSolve expf logf self (img0 :: rest) type nSamples
        lambda).1.w c ∧
      (DebevecMalik hist svdSolve expf logf self (img0 :: rest) type nSamples
        lambda).1.w c ≤ 1 ∧
      (3 ≤ c → c ≤ 252 →
        0 ≤ (DebevecMalik hist svdSolve expf logf self (img0 :: rest) type nSamples
          lambda).1.w c)) := by
  have hw : (DebevecMalik hist svdSolve expf logf self (img0 :: rest) type nSamples
      lambda).1.w c = WeightFunction expf ((c : α) / 255) type := by
    show weightTable expf type self.w c = _
    unfold weightTable
    rw [if_pos (by omega)]
  have hc' : (c : α) ≤ 255 := by exact_mod_cast hc
  have hx0 : (0 : α) ≤ (c : α) / 255 := by positivity
  have hx1 : (c : α) / 255 ≤ 1 := by
    rw [div_le_one (by norm_num)]; exact hc'
  obtain ⟨hhat, hgauss, hrob, hdeb, hpad⟩ :=
    WeightFunction_range expf hexp0 hexp1 ((c : α) / 255) hx0 hx1
  rw [hw]
  refine ⟨rfl, ?_, ?_⟩
  · rintro (h | h | h | h) <;> subst h
    · exact hhat
    · exact hgauss
    · exact hrob
    · exact hdeb
  · intro h
    subst h
    refine ⟨hpad.1, hpad.2, ?_⟩
    intro h3 h252
    have h3' : (3 : α) ≤ (c : α) := by exact_mod_cast h3
    have h252' : (c : α) ≤ 252 := by exact_mod_cast h252
    simp only [WeightFunction]
    have e1 : (0.01 : α) = 1 / 100 := by norm_num
    have e2 : (0.99 : α) = 99 / 100 := by norm_num
    rw [e1, e2]
    have ha : (1 : α) / 100 ≤ (c : α) / 255 := by
      rw [le_div_iff₀ (by norm_num)]; linarith
    have hb : (c : α) / 255 ≤ 99 / 100 := by
      rw [div_le_iff₀ (by norm_num)]; linarith
    split_ifs <;> linarith

/-- The amended C14 over the reals with the real exponential, Gaussian weight,
code 128. -/
theorem weight_table_range_witness :
    (∀ t : ℝ, 0 ≤ Real.exp t) ∧ (∀ t : ℝ, t ≤ 0 → Real.exp t ≤ 1) ∧ 128 ≤ 255 ∧
    0 ≤ (DebevecMalik (fun _ _ _ => (0 : ℝ)) (fun _ _ _ => 0) Real.exp Real.log
      ⟨CRF_WEIGHT.CW_ALL, fun _ => 0, []⟩ [⟨1, 1, 1, 1, [0]⟩] CRF_WEIGHT.CW_GAUSS 2
      20).1.w 128 ∧
    (DebevecMalik (fun _ _ _ => (0 : ℝ)) (fun _ _ _ => 0) Real.exp Real.log
      ⟨CRF_WEIGHT.CW_ALL, fun _ => 0, []⟩ [⟨1, 1, 1, 1, [0]⟩] CRF_WEIGHT.CW_GAUSS 2
      20).1.w 128 ≤ 1 :=
  ⟨fun t => Real.exp_nonneg t, fun t ht => Real.exp_le_one_iff.mpr ht, by decide,
    (weight_table_range (fun _ _ _ => (0 : ℝ)) (fun _ _ _ => 0) Real.exp Real.log
      (fun t => Real.exp_nonneg t) (fun t ht => Real.exp_le_one_iff.mpr ht)
      ⟨CRF_WEIGHT.CW_ALL, fun _ => 0, []⟩ ⟨1, 1, 1, 1, [0]⟩ [] CRF_WEIGHT.CW_GAUSS 2 20 128
      (by decide)).2.1 (Or.inr (Or.inl rfl))⟩

theorem rawCodes_sorted (crf : Nat → Nat) (channels k j : Nat) :
    (rawCodes crf channels k j).Sorted (fun a b => a < b) :=
  List.Sorted.filter _ (List.sorted_lt_range 256)

theorem rawCodes_mem (crf : Nat → Nat) (channels k j i : Nat) :
    i ∈ rawCodes crf channels k j ↔ i < 256 ∧ 0 < crf ((i * 256 + j) * channels + k) := by
  simp [rawCodes]

/-- The ascending list of the RAW codes with a positive count is `coords`. -/
theorem rawCodes_unique (crf : Nat → Nat) (channels k j : Nat) (s : List Nat)
    (hs : s.Sorted (fun a b => a < b))
    (hmem : ∀ i, i ∈ s ↔ i < 256 ∧ 0 < crf ((i * 256 + j) * channels + k)) :
    s = rawCodes crf channels k j := by
  apply List.eq_of_perm_of_sorted _ hs (rawCodes_sorted crf channels k j)
  rw [List.perm_ext_iff_of_nodup hs.nodup (rawCodes_sorted crf channels k j).nodup]
  intro i
  rw [hmem, rawCodes_mem]

theorem medianColumn_eq (crf : Nat → Nat) (channels k : Nat) (ret_c : Nat → α) (j : Nat)
    (hne : rawCodes crf channels k j ≠ []) :
    medianColumn crf channels k ret_c j =
      (((rawCodes crf channels k j).getD ((rawCodes crf channels k j).length / 2) 0 : Nat) : α)
        / 255 := by
  unfold medianColumn
  have hsorted : (rawCodes crf channels k j).Sorted (fun a b => a ≤ b) :=
    (rawCodes_sorted crf channels k j).le_of_lt
  simp only [List.isEmpty_iff, hne, if_false, hsorted.insertionSort_eq]

theorem FromRAWJPEG_icrf [FloorRing α] (filterMean : List α → Int → List α)
    (uninit : Nat → Nat → α) (self : CameraResponseFunction α)
    (img_raw img_jpg : Image α) (hsim : img_raw.SimilarType img_jpg = true)
    (k : Nat) (hk : k < img_raw.channels) :
    (FromRAWJPEG filterMean uninit self img_raw img_jpg 0).icrf[k]? =
      some ((List.range 256).map (fun j =>
        medianColumn (jointHistogram img_raw img_jpg) img_raw.channels k (uninit k) j)) := by
  simp [FromRAWJPEG, hsim, List.getElem?_map, List.getElem?_range hk]

/-- C12: without smoothing (`filteringSize = 0`), for every channel `k` and JPEG
code `j`: when the RAW codes with a non-zero joint-histogram count, listed
in ascending order as `s`, are not empty, the stored entry is
`s[floor(|s| / 2)] / 255`; in particular it is `i / 255` when `i` is the only
RAW code with a non-zero count, whatever that count is. -/
theorem FromRAWJPEG_median [FloorRing α] (filterMean : List α → Int → List α)
    (uninit : Nat → Nat → α) (self : CameraResponseFunction α)
    (img_raw img_jpg : Image α) (hsim : img_raw.SimilarType img_jpg = true)
    (k j : Nat) (hk : k < img_raw.channels) (hj : j < 256) :
    ∃ ret, (FromRAWJPEG filterMean uninit self img_raw img_jpg 0).icrf[k]? = some ret ∧
      ret.length = 256 ∧
      (∀ s : List Nat, s.Sorted (fun a b => a < b) →
        (∀ i, i ∈ s ↔ i < 256 ∧
          0 < jointHistogram img_raw img_jpg ((i * 256 + j) * img_raw.channels + k)) →
        s ≠ [] → ret.getD j 0 = ((s.getD (s.length / 2) 0 : Nat) : α) / 255) ∧
      (∀ i, i < 256 →
        (∀ i', i' < 256 →
          (0 < jointHistogram img_raw img_jpg ((i' * 256 + j) * img_raw.channels + k) ↔
            i' = i)) →
        ret.getD j 0 = (i : α) / 255) := by
  have hget : ((List.range 256).map (fun j =>
      medianColumn (jointHistogram img_raw img_jpg) img_raw.channels k (uninit k) j)).getD j 0
      = medianColumn (jointHistogram img_raw img_jpg) img_raw.channels k (uninit k) j := by
    simp [List.getD, List.getElem?_map, List.getElem?_range hj]
  have hmed : ∀ s : List Nat, s.Sorted (fun a b => a < b) →
      (∀ i, i ∈ s ↔ i < 256 ∧
        0 < jointHistogram img_raw img_jpg ((i * 256 + j) * img_raw.channels + k)) →
      s ≠ [] →
      medianColumn (jointHistogram img_raw img_jpg) img_raw.channels k (uninit k) j =
        ((s.getD (s.length / 2) 0 : Nat) : α) / 255 := by
    intro s hs hmem hne
    have hu := rawCodes_unique _ _ _ _ s hs hmem
    rw [medianColumn_eq _ _ _ _ _ (by rw [← hu]; exact hne), ← hu]
  refine ⟨_, FromRAWJPEG_icrf filterMean uninit self img_raw img_jpg hsim k hk,
    by simp, ?_, ?_⟩
  · intro s hs hmem hne
    rw [hget]
    exact hmed s hs hmem hne
  · intro i hi hone
    rw [hget, hmed [i] (List.sorted_singleton i) ?_ (by simp)]
    · simp
    · intro i'
      constructor
      · intro h
        have : i' = i := by simpa using h
        subst this
        exact ⟨hi, (hone i' hi).mpr rfl⟩
      · rintro ⟨h1, h2⟩
        have := (hone i' h1).mp h2
        simp [this]


/-- The joint histogram of the pixels `1/2` (RAW) and `1/4` (JPEG): one count at
(127, 63). -/
theorem jointHistogram_grey_dark (a : Nat) :
    jointHistogram greyPixel darkPixel a = if a = 32575 then 1 else 0 := by
  have h1 : truncInt ((255 : ℚ) * (1 / 2)) = 127 := by
    unfold truncInt
    rw [if_pos (by norm_num), Int.floor_eq_iff]
    norm_num
  have h2 : truncInt ((255 : ℚ) * (1 / 4)) = 63 := by
    unfold truncInt
    rw [if_pos (by norm_num), Int.floor_eq_iff]
    norm_num
  simp only [jointHistogram, greyPixel, darkPixel, Image.pixel, List.range_succ,
    List.range_zero, List.nil_append, List.foldl_cons, List.foldl_nil]
  simp only [Nat.mul_zero, Nat.zero_mul, Nat.add_zero, Nat.mul_one, List.getD_cons_zero, h1, h2]
  simp [CLAMPi]

/-- C12 on the pixels `1/2` (RAW) and `1/4` (JPEG): entry 63 is `127 / 255`. -/
theorem FromRAWJPEG_median_witness :
    greyPixel.SimilarType darkPixel = true ∧ 0 < greyPixel.channels ∧ 63 < 256 ∧
    ∃ ret, (FromRAWJPEG filterMean0 (fun _ _ => -1) emptyModel greyPixel darkPixel
        0).icrf[0]? = some ret ∧
      ret.length = 256 ∧ ret.getD 63 0 = ((127 : Nat) : ℚ) / 255 := by
  obtain ⟨ret, h1, h2, _, h4⟩ := FromRAWJPEG_median filterMean0 (fun _ _ => -1) emptyModel
    greyPixel darkPixel (by decide) 0 63 (by decide) (by decide)
  refine ⟨by decide, by decide, by decide, ret, h1, h2, h4 127 (by decide) ?_⟩
  intro i' hi'
  rw [jointHistogram_grey_dark]
  simp only [greyPixel]
  constructor
  · intro h
    by_contra hne
    rw [if_neg (by omega)] at h
    exact absurd h (by decide)
  · intro h
    subst h
    decide

end CameraResponseFunction

theorem foldl_flatMap_eq {σ β γ : Type} (f : σ → γ → σ) (g : β → List γ) :
    ∀ (l : List β) (s : σ),
      l.foldl (fun s i => (g i).foldl f s) s = (l.flatMap g).foldl f s := by
  intro l
  induction l with
  | nil => intro s; rfl
  | cons a t ih =>
    intro s
    rw [List.flatMap_cons, List.foldl_append, List.foldl_cons, ih]

/-- A fold of steps that each fill the row at the counter `k` and advance it:
the shape is kept, row `k + t` is what step `t` wrote, other rows are
untouched. -/
theorem rowFold {κ β : Type} (f : GSystem κ → β → GSystem κ)
    (rowOf : β → (Nat → κ) → Nat → κ) (rhsOf : β → κ → κ)
    (hk : ∀ s x, (f s x).k = s.k + 1)
    (hshape : ∀ s x, (f s x).A.rows = s.A.rows ∧ (f s x).A.cols = s.A.cols ∧
      (f s x).b.size = s.b.size)
    (hA : ∀ s x r, (f s x).A.coeff r =
      if r = s.k then rowOf x (s.A.coeff r) else s.A.coeff r)
    (hb : ∀ s x r, (f s x).b.coeff r =
      if r = s.k then rhsOf x (s.b.coeff r) else s.b.coeff r) :
    ∀ (xs : List β) (s : GSystem κ),
      (xs.foldl f s).k = s.k + xs.length ∧
      ((xs.foldl f s).A.rows = s.A.rows ∧ (xs.foldl f s).A.cols = s.A.cols ∧
        (xs.foldl f s).b.size = s.b.size) ∧
      (∀ t x, xs[t]? = some x →
        (xs.foldl f s).A.coeff (s.k + t) = rowOf x (s.A.coeff (s.k + t)) ∧
        (xs.foldl f s).b.coeff (s.k + t) = rhsOf x (s.b.coeff (s.k + t))) ∧
      (∀ r, r < s.k ∨ s.k + xs.length ≤ r →
        (xs.foldl f s).A.coeff r = s.A.coeff r ∧
        (xs.foldl f s).b.coeff r = s.b.coeff r) := by
  intro xs
  induction xs with
  | nil =>
    intro s
    refine ⟨rfl, ⟨rfl, rfl, rfl⟩, ?_, fun r _ => ⟨rfl, rfl⟩⟩
    intro t x h
    simp at h
  | cons a tl ih =>
    intro s
    obtain ⟨ih1, ih2, ih3, ih4⟩ := ih (f s a)
    simp only [List.foldl_cons, List.length_cons]
    refine ⟨by rw [ih1, hk]; omega, ?_, ?_, ?_⟩
    · obtain ⟨h1, h2, h3⟩ := hshape s a
      exact ⟨ih2.1.trans h1, ih2.2.1.trans h2, ih2.2.2.trans h3⟩
    · intro t x hx
      cases t with
      | zero =>
        have hx' : a = x := by simpa using hx
        subst hx'
        obtain ⟨e1, e2⟩ := ih4 (s.k + 0) (Or.inl (by rw [hk]; omega))
        rw [e1, e2, hA, hb]
        simp
      | succ t =>
        have hx' : tl[t]? = some x := by simpa using hx
        obtain ⟨e1, e2⟩ := ih3 t x hx'
        have hidx : (f s a).k + t = s.k + (t + 1) := by rw [hk]; omega
        rw [hidx] at e1 e2
        rw [e1, e2, hA, hb]
        have hne : ¬ (s.k + (t + 1) = s.k) := by omega
        simp only [hne, if_false, and_self]
    · intro r hr
      obtain ⟨e1, e2⟩ := ih4 r (by rw [hk]; omega)
      rw [e1, e2, hA, hb]
      have hne : ¬ (r = s.k) := by omega
      simp only [hne, if_false, and_self]

namespace CameraResponseFunction

theorem samplePairs_length (nSamples nExposure : Nat) :
    (samplePairs nSamples nExposure).length = nSamples * nExposure :=
  flatMap_range_length _ nExposure (fun _ => by simp) nSamples

theorem samplePairs_getElem? (nSamples nExposure i j : Nat) (hi : i < nSamples)
    (hj : j < nExposure) :
    (samplePairs nSamples nExposure)[i * nExposure + j]? = some (i, j) := by
  unfold samplePairs
  rw [flatMap_range_getElem? _ nExposure (fun _ => by simp) nSamples i j hi hj]
  simp [List.getElem?_map, List.getElem?_range hj]

/-- The assembly of `gsolve` as three folds over named steps. -/
theorem gsolveSystem_eq (w : Nat → α) (samples : Nat → Nat) (log_exposure : Nat → α)
    (lambda : α) (nSamples nExposure : Nat) :
    gsolveSystem w samples log_exposure lambda nSamples nExposure =
      (List.range 254).foldl (smoothStep w lambda)
        (gaugeStep ((samplePairs nSamples nExposure).foldl
          (dataStep w samples log_exposure nExposure)
          ⟨MatrixXf.Zero (nSamples * nExposure + 256 + 1) (256 + nSamples),
            VectorXf.Zero (nSamples * nExposure + 256 + 1), 0⟩)) := by
  unfold gsolveSystem samplePairs
  rw [← foldl_flatMap_eq]
  simp only [List.foldl_map]
  rfl


/-- The state after the data loops of `gsolve`. -/
theorem dataFold (w : Nat → α) (samples : Nat → Nat) (log_exposure : Nat → α)
    (nExposure : Nat) (xs : List (Nat × Nat)) (s : GSystem α) :
    (xs.foldl (dataStep w samples log_exposure nExposure) s).k = s.k + xs.length ∧
    ((xs.foldl (dataStep w samples log_exposure nExposure) s).A.rows = s.A.rows ∧
      (xs.foldl (dataStep w samples log_exposure nExposure) s).A.cols = s.A.cols ∧
      (xs.foldl (dataStep w samples log_exposure nExposure) s).b.size = s.b.size) ∧
    (∀ t p, xs[t]? = some p →
      (xs.foldl (dataStep w samples log_exposure nExposure) s).A.coeff (s.k + t) =
        (fun c => if c = 256 + p.1 then -w (samples (p.1 * nExposure + p.2))
          else if c = samples (p.1 * nExposure + p.2)
            then w (samples (p.1 * nExposure + p.2))
          else s.A.coeff (s.k + t) c) ∧
      (xs.foldl (dataStep w samples log_exposure nExposure) s).b.coeff (s.k + t) =
        w (samples (p.1 * nExposure + p.2)) * log_exposure p.2) ∧
    (∀ r, r < s.k ∨ s.k + xs.length ≤ r →
      (xs.foldl (dataStep w samples log_exposure nExposure) s).A.coeff r = s.A.coeff r ∧
      (xs.foldl (dataStep w samples log_exposure nExposure) s).b.coeff r = s.b.coeff r) := by
  apply rowFold (dataStep w samples log_exposure nExposure)
    (fun p old c => if c = 256 + p.1 then -w (samples (p.1 * nExposure + p.2))
      else if c = samples (p.1 * nExposure + p.2) then w (samples (p.1 * nExposure + p.2))
      else old c)
    (fun p _ => w (samples (p.1 * nExposure + p.2)) * log_exposure p.2)
  · intro s x; rfl
  · intro s x; exact ⟨rfl, rfl, rfl⟩
  · intro s x r
    funext c
    simp only [dataStep, MatrixXf.coeffRef]
    by_cases hr : r = s.k <;> simp [hr]
  · intro s x r
    simp only [dataStep, VectorXf.set]

/-- The state after the smoothness loop of `gsolve`. -/
theorem smoothFold (w : Nat → α) (lambda : α) (xs : List Nat) (s : GSystem α) :
    (xs.foldl (smoothStep w lambda) s).k = s.k + xs.length ∧
    ((xs.foldl (smoothStep w lambda) s).A.rows = s.A.rows ∧
      (xs.foldl (smoothStep w lambda) s).A.cols = s.A.cols ∧
      (xs.foldl (smoothStep w lambda) s).b.size = s.b.size) ∧
    (∀ t i, xs[t]? = some i →
      (xs.foldl (smoothStep w lambda) s).A.coeff (s.k + t) =
        (fun c => if c = i + 2 then lambda * w (i + 1)
          else if c = i + 1 then -2 * (lambda * w (i + 1))
          else if c = i then lambda * w (i + 1)
          else s.A.coeff (s.k + t) c) ∧
      (xs.foldl (smoothStep w lambda) s).b.coeff (s.k + t) = s.b.coeff (s.k + t)) ∧
    (∀ r, r < s.k ∨ s.k + xs.length ≤ r →
      (xs.foldl (smoothStep w lambda) s).A.coeff r = s.A.coeff r ∧
      (xs.foldl (smoothStep w lambda) s).b.coeff r = s.b.coeff r) := by
  apply rowFold (smoothStep w lambda)
    (fun i old c => if c = i + 2 then lambda * w (i + 1)
      else if c = i + 1 then -2 * (lambda * w (i + 1))
      else if c = i then lambda * w (i + 1)
      else old c)
    (fun _ old => old)
  · intro s x; rfl
  · intro s x; exact ⟨rfl, rfl, rfl⟩
  · intro s x r
    funext c
    simp only [smoothStep, MatrixXf.coeffRef]
    by_cases hr : r = s.k <;> simp [hr]
  · intro s x r
    simp only [smoothStep]
    split_ifs <;> rfl

/-- The shape of the system that `gsolve` assembles and the number of rows it
fills. -/
theorem gsolveSystem_shape (w : Nat → α) (samples : Nat → Nat) (log_exposure : Nat → α)
    (lambda : α) (nSamples nExposure : Nat) :
    (gsolveSystem w samples log_exposure lambda nSamples nExposure).A.rows =
      nSamples * nExposure + 257 ∧
    (gsolveSystem w samples log_exposure lambda nSamples nExposure).A.cols =
      256 + nSamples ∧
    (gsolveSystem w samples log_exposure lambda nSamples nExposure).b.size =
      nSamples * nExposure + 257 ∧
    (gsolveSystem w samples log_exposure lambda nSamples nExposure).k =
      nSamples * nExposure + 255 := by
  rw [gsolveSystem_eq]
  obtain ⟨hk2, hs2, _, _⟩ := smoothFold w lambda (List.range 254)
    (gaugeStep ((samplePairs nSamples nExposure).foldl
      (dataStep w samples log_exposure nExposure)
      ⟨MatrixXf.Zero (nSamples * nExposure + 256 + 1) (256 + nSamples),
        VectorXf.Zero (nSamples * nExposure + 256 + 1), 0⟩))
  obtain ⟨hk1, hs1, _, _⟩ := dataFold w samples log_exposure nExposure
    (samplePairs nSamples nExposure)
    ⟨MatrixXf.Zero (nSamples * nExposure + 256 + 1) (256 + nSamples),
      VectorXf.Zero (nSamples * nExposure + 256 + 1), 0⟩
  rw [hk2, hs2.1, hs2.2.1, hs2.2.2]
  have g1 : ∀ s : GSystem α, (gaugeStep s).k = s.k + 1 := fun _ => rfl
  have g2 : ∀ s : GSystem α, (gaugeStep s).A.rows = s.A.rows := fun _ => rfl
  have g3 : ∀ s : GSystem α, (gaugeStep s).A.cols = s.A.cols := fun _ => rfl
  have g4 : ∀ s : GSystem α, (gaugeStep s).b.size = s.b.size := fun _ => rfl
  rw [g1, g2, g3, g4, hk1, hs1.1, hs1.2.1, hs1.2.2, samplePairs_length, List.length_range]
  exact ⟨rfl, rfl, rfl, by dsimp only; omega⟩

/-- The data row of sample `i` and exposure `j` in the system of `gsolve`. -/
theorem gsolveSystem_data_row (w : Nat → α) (samples : Nat → Nat)
    (log_exposure : Nat → α) (lambda : α) (nSamples nExposure i j : Nat)
    (hi : i < nSamples) (hj : j < nExposure) :
    (∀ c, (gsolveSystem w samples log_exposure lambda nSamples nExposure).A.coeff
        (i * nExposure + j) c =
      if c = 256 + i then -w (samples (i * nExposure + j))
      else if c = samples (i * nExposure + j) then w (samples (i * nExposure + j))
      else 0) ∧
    (gsolveSystem w samples log_exposure lambda nSamples nExposure).b.coeff
        (i * nExposure + j) =
      w (samples (i * nExposure + j)) * log_exposure j := by
  rw [gsolveSystem_eq]
  obtain ⟨hk1, _, hrow1, _⟩ := dataFold w samples log_exposure nExposure
    (samplePairs nSamples nExposure)
    ⟨MatrixXf.Zero (nSamples * nExposure + 256 + 1) (256 + nSamples),
      VectorXf.Zero (nSamples * nExposure + 256 + 1), 0⟩
  obtain ⟨_, _, _, hout2⟩ := smoothFold w lambda (List.range 254)
    (gaugeStep ((samplePairs nSamples nExposure).foldl
      (dataStep w samples log_exposure nExposure)
      ⟨MatrixXf.Zero (nSamples * nExposure + 256 + 1) (256 + nSamples),
        VectorXf.Zero (nSamples * nExposure + 256 + 1), 0⟩))
  have hlt : i * nExposure + j < nSamples * nExposure := by
    calc i * nExposure + j < i * nExposure + nExposure := by omega
      _ = (i + 1) * nExposure := by ring
      _ ≤ nSamples * nExposure := Nat.mul_le_mul_right _ hi
  rw [samplePairs_length] at hk1
  obtain ⟨e1, e2⟩ := hout2 (i * nExposure + j) (Or.inl (by
    simp only [gaugeStep, hk1]; omega))
  obtain ⟨r1, r2⟩ := hrow1 (i * nExposure + j) (i, j)
    (samplePairs_getElem? nSamples nExposure i j hi hj)
  simp only [Nat.zero_add] at r1 r2
  rw [e1, e2]
  have hne : ¬ (i * nExposure + j = nSamples * nExposure) := by omega
  constructor
  · intro c
    simp only [gaugeStep, MatrixXf.coeffRef, hk1, Nat.zero_add, hne, false_and, if_false]
    rw [r1]
    simp [MatrixXf.Zero]
  · simp only [gaugeStep]
    rw [r2]


/-- The rows past the last smoothness row are never written. -/
theorem gsolveSystem_unwritten (w : Nat → α) (samples : Nat → Nat)
    (log_exposure : Nat → α) (lambda : α) (nSamples nExposure r : Nat)
    (hr : nSamples * nExposure + 255 ≤ r) :
    (∀ c, (gsolveSystem w samples log_exposure lambda nSamples nExposure).A.coeff r c = 0) ∧
    (gsolveSystem w samples log_exposure lambda nSamples nExposure).b.coeff r = 0 := by
  rw [gsolveSystem_eq]
  obtain ⟨hk1, _, _, hout1⟩ := dataFold w samples log_exposure nExposure
    (samplePairs nSamples nExposure)
    ⟨MatrixXf.Zero (nSamples * nExposure + 256 + 1) (256 + nSamples),
      VectorXf.Zero (nSamples * nExposure + 256 + 1), 0⟩
  obtain ⟨_, _, _, hout2⟩ := smoothFold w lambda (List.range 254)
    (gaugeStep ((samplePairs nSamples nExposure).foldl
      (dataStep w samples log_exposure nExposure)
      ⟨MatrixXf.Zero (nSamples * nExposure + 256 + 1) (256 + nSamples),
        VectorXf.Zero (nSamples * nExposure + 256 + 1), 0⟩))
  rw [samplePairs_length] at hk1 hout1
  obtain ⟨e1, e2⟩ := hout2 r (Or.inr (by
    simp only [gaugeStep, hk1, List.length_range]; omega))
  obtain ⟨f1, f2⟩ := hout1 r (Or.inr (by dsimp only; omega))
  rw [e1, e2]
  have hne : ¬ (r = nSamples * nExposure) := by omega
  constructor
  · intro c
    simp only [gaugeStep, MatrixXf.coeffRef, hk1, Nat.zero_add, hne, false_and, if_false]
    rw [f1]
    rfl
  · simp only [gaugeStep]
    rw [f2]
    rfl

/-- C18, as stated, fails: for one sample and one exposure the matrix and the
right-hand side have 258 rows, not `1 * 1 + 1 + 254 = 256`. -/
theorem gsolve_rows_one_sample :
    (gsolveSystem (fun _ => (1 : ℚ)) (fun _ => 0) (fun _ => 0) 10 1 1).A.rows = 258 ∧
    1 * 1 + 1 + 254 = 256 ∧
    (gsolveSystem (fun _ => (1 : ℚ)) (fun _ => 0) (fun _ => 0) 10 1 1).b.size = 258 := by
  obtain ⟨h1, _, h3, _⟩ := gsolveSystem_shape (fun _ => (1 : ℚ)) (fun _ => 0) (fun _ => 0)
    10 1 1
  exact ⟨h1, rfl, h3⟩

/-- C18, amended: the matrix assembled by `gsolve` has
`nSamples * nExposure + 256 + 1` rows and `256 + nSamples` columns, and the
right-hand side has as many rows; the loops fill the first
`nSamples * nExposure + 1 + 254` rows, and every row from there on (the last
two) stays zero. -/
theorem gsolve_system_size (w : Nat → α) (samples : Nat → Nat) (log_exposure : Nat → α)
    (lambda : α) (nSamples nExposure : Nat) :
    (gsolveSystem w samples log_exposure lambda nSamples nExposure).A.rows =
      nSamples * nExposure + 256 + 1 ∧
    (gsolveSystem w samples log_exposure lambda nSamples nExposure).A.cols =
      256 + nSamples ∧
    (gsolveSystem w samples log_exposure lambda nSamples nExposure).b.size =
      (gsolveSystem w samples log_exposure lambda nSamples nExposure).A.rows ∧
    (gsolveSystem w samples log_exposure lambda nSamples nExposure).k =
      nSamples * nExposure + 1 + 254 ∧
    (∀ r c, nSamples * nExposure + 1 + 254 ≤ r →
      (gsolveSystem w samples log_exposure lambda nSamples nExposure).A.coeff r c = 0 ∧
      (gsolveSystem w samples log_exposure lambda nSamples nExposure).b.coeff r = 0) := by
  obtain ⟨h1, h2, h3, h4⟩ := gsolveSystem_shape w samples log_exposure lambda nSamples
    nExposure
  refine ⟨h1, h2, by rw [h3, h1], h4, ?_⟩
  intro r c hr
  obtain ⟨u1, u2⟩ := gsolveSystem_unwritten w samples log_exposure lambda nSamples
    nExposure r (by omega)
  exact ⟨u1 c, u2⟩

/-- C19: for sample `i < nSamples` and exposure `j < nExposure` with code
`z = samples[i * nExposure + j]`, row `i * nExposure + j` of the matrix has
`w[z]` at column `z`, `-w[z]` at column `256 + i`, zero in every other column,
and the right-hand side there is `w[z] * log_exposure[j]`. -/
theorem gsolve_data_rows (w : Nat → α) (samples : Nat → Nat) (log_exposure : Nat → α)
    (lambda : α) (nSamples nExposure i j : Nat) (hi : i < nSamples) (hj : j < nExposure)
    (hz : samples (i * nExposure + j) ≤ 255) :
    (gsolveSystem w samples log_exposure lambda nSamples nExposure).A.coeff
      (i * nExposure + j) (samples (i * nExposure + j)) =
      w (samples (i * nExposure + j)) ∧
    (gsolveSystem w samples log_exposure lambda nSamples nExposure).A.coeff
      (i * nExposure + j) (256 + i) = -w (samples (i * nExposure + j)) ∧
    (∀ c, c ≠ samples (i * nExposure + j) → c ≠ 256 + i →
      (gsolveSystem w samples log_exposure lambda nSamples nExposure).A.coeff
        (i * nExposure + j) c = 0) ∧
    (gsolveSystem w samples log_exposure lambda nSamples nExposure).b.coeff
      (i * nExposure + j) = w (samples (i * nExposure + j)) * log_exposure j := by
  obtain ⟨hrow, hb⟩ := gsolveSystem_data_row w samples log_exposure lambda nSamples
    nExposure i j hi hj
  refine ⟨?_, ?_, ?_, hb⟩
  · rw [hrow, if_neg (by omega), if_pos rfl]
  · rw [hrow, if_pos rfl]
  · intro c h1 h2
    rw [hrow, if_neg h2, if_neg h1]

/-- C19 for two samples and three exposures, all codes 7, at sample 1 and
exposure 0. -/
theorem gsolve_data_rows_witness :
    1 < 2 ∧ 0 < 3 ∧ (fun _ : Nat => 7) (1 * 3 + 0) ≤ 255 ∧
    (gsolveSystem (fun c : Nat => (c : ℚ) / 255) (fun _ => 7) (fun e => (e : ℚ) + 1) 10 2
      3).A.coeff (1 * 3 + 0) 7 = 7 / 255 ∧
    (gsolveSystem (fun c : Nat => (c : ℚ) / 255) (fun _ => 7) (fun e => (e : ℚ) + 1) 10 2
      3).A.coeff (1 * 3 + 0) (256 + 1) = -(7 / 255) ∧
    (gsolveSystem (fun c : Nat => (c : ℚ) / 255) (fun _ => 7) (fun e => (e : ℚ) + 1) 10 2
      3).b.coeff (1 * 3 + 0) = 7 / 255 * 1 := by
  obtain ⟨h1, h2, _, h4⟩ := gsolve_data_rows (fun c : Nat => (c : ℚ) / 255) (fun _ => 7)
    (fun e => (e : ℚ) + 1) 10 2 3 1 0 (by decide) (by decide) (by decide)
  refine ⟨by decide, by decide, by decide, ?_, ?_, ?_⟩
  · rw [h1]; norm_num
  · rw [h2]; norm_num
  · rw [h4]; norm_num

/-- C20, as stated, fails: in the table that `DebevecMalik` builds for the
full-range triangular weight the entry of code `0` is `0`, so the data row of
a sample with code `0` has no non-zero coefficient at all. -/
theorem gsolve_zero_weight_row :
    (DebevecMalik hist0 svd0 expf0 logf0 emptyModel [greyPixel] CRF_WEIGHT.CW_DEB97 1
      10).1.w 0 = 0 ∧
    ¬ ∃ c, (gsolveSystem
      (DebevecMalik hist0 svd0 expf0 logf0 emptyModel [greyPixel] CRF_WEIGHT.CW_DEB97 1
        10).1.w (fun _ => 0) (fun _ => 0) 10 1 1).A.coeff (0 * 1 + 0) c ≠ 0 := by
  have hw : (DebevecMalik hist0 svd0 expf0 logf0 emptyModel [greyPixel]
      CRF_WEIGHT.CW_DEB97 1 10).1.w 0 = 0 := by
    simp only [DebevecMalik, weightTable, WeightFunction]
    norm_num
  refine ⟨hw, ?_⟩
  rintro ⟨c, hc⟩
  apply hc
  obtain ⟨hrow, _⟩ := gsolveSystem_data_row
    (DebevecMalik hist0 svd0 expf0 logf0 emptyModel [greyPixel] CRF_WEIGHT.CW_DEB97 1
      10).1.w (fun _ => 0) (fun _ => 0) 10 1 1 0 0 (by decide) (by decide)
  rw [hrow, hw]
  simp

/-- C20, amended: for every weight table (so also the one `DebevecMalik`
builds for any weight type), every sample set and every (sample, exposure)
pair with code `z`, the data row has non-zero coefficients at most at the two
columns `z` and `256 + i`; both are non-zero when `w[z]` is not zero, and the
row is zero when `w[z]` is zero. -/
theorem gsolve_data_row_sparsity (w : Nat → α) (samples : Nat → Nat)
    (log_exposure : Nat → α) (lambda : α) (nSamples nExposure i j : Nat)
    (hi : i < nSamples) (hj : j < nExposure) (hz : samples (i * nExposure + j) ≤ 255) :
    (∀ c, (gsolveSystem w samples log_exposure lambda nSamples nExposure).A.coeff
        (i * nExposure + j) c ≠ 0 →
      c = samples (i * nExposure + j) ∨ c = 256 + i) ∧
    (w (samples (i * nExposure + j)) ≠ 0 →
      samples (i * nExposure + j) ≠ 256 + i ∧
      (gsolveSystem w samples log_exposure lambda nSamples nExposure).A.coeff
        (i * nExposure + j) (samples (i * nExposure + j)) ≠ 0 ∧
      (gsolveSystem w samples log_exposure lambda nSamples nExposure).A.coeff
        (i * nExposure + j) (256 + i) ≠ 0) ∧
    (w (samples (i * nExposure + j)) = 0 →
      ∀ c, (gsolveSystem w samples log_exposure lambda nSamples nExposure).A.coeff
        (i * nExposure + j) c = 0) := by
  obtain ⟨hrow, _⟩ := gsolveSystem_data_row w samples log_exposure lambda nSamples
    nExposure i j hi hj
  refine ⟨?_, ?_, ?_⟩
  · intro c hc
    by_contra hcon
    push_neg at hcon
    apply hc
    rw [hrow, if_neg hcon.2, if_neg hcon.1]
  · intro hw
    refine ⟨by omega, ?_, ?_⟩
    · rw [hrow, if_neg (by omega), if_pos rfl]; exact hw
    · rw [hrow, if_pos rfl]; exact neg_ne_zero.mpr hw
  · intro hw c
    rw [hrow, hw]
    simp

/-- The amended C20 for two samples and three exposures, all codes 7, with
`w[7]` not zero: exactly the columns 7 and 257 are non-zero. -/
theorem gsolve_data_row_sparsity_witness :
    1 < 2 ∧ 0 < 3 ∧ (fun _ : Nat => 7) (1 * 3 + 0) ≤ 255 ∧
    (gsolveSystem (fun c : Nat => (c : ℚ) / 255) (fun _ => 7) (fun e => (e : ℚ) + 1) 10 2
      3).A.coeff (1 * 3 + 0) 7 ≠ 0 ∧
    (gsolveSystem (fun c : Nat => (c : ℚ) / 255) (fun _ => 7) (fun e => (e : ℚ) + 1) 10 2
      3).A.coeff (1 * 3 + 0) (256 + 1) ≠ 0 ∧
    (∀ c, (gsolveSystem (fun c : Nat => (c : ℚ) / 255) (fun _ => 7) (fun e => (e : ℚ) + 1)
        10 2 3).A.coeff (1 * 3 + 0) c ≠ 0 → c = 7 ∨ c = 256 + 1) := by
  obtain ⟨h1, h2, _⟩ := gsolve_data_row_sparsity (fun c : Nat => (c : ℚ) / 255)
    (fun _ => 7) (fun e => (e : ℚ) + 1) 10 2 3 1 0 (by decide) (by decide) (by decide)
  obtain ⟨_, h3, h4⟩ := h2 (by norm_num)
  exact ⟨by decide, by decide, by decide, h3, h4, h1⟩

/-- The row that `gsolve` writes for code 128, after the data rows. -/
theorem gsolveSystem_gauge_row (w : Nat → α) (samples : Nat → Nat)
    (log_exposure : Nat → α) (lambda : α) (nSamples nExposure : Nat) :
    (∀ c, (gsolveSystem w samples log_exposure lambda nSamples nExposure).A.coeff
        (nSamples * nExposure) c = if c = 128 then 1 else 0) ∧
    (gsolveSystem w samples log_exposure lambda nSamples nExposure).b.coeff
        (nSamples * nExposure) = 0 := by
  rw [gsolveSystem_eq]
  obtain ⟨hk1, _, _, hout1⟩ := dataFold w samples log_exposure nExposure
    (samplePairs nSamples nExposure)
    ⟨MatrixXf.Zero (nSamples * nExposure + 256 + 1) (256 + nSamples),
      VectorXf.Zero (nSamples * nExposure + 256 + 1), 0⟩
  obtain ⟨_, _, _, hout2⟩ := smoothFold w lambda (List.range 254)
    (gaugeStep ((samplePairs nSamples nExposure).foldl
      (dataStep w samples log_exposure nExposure)
      ⟨MatrixXf.Zero (nSamples * nExposure + 256 + 1) (256 + nSamples),
        VectorXf.Zero (nSamples * nExposure + 256 + 1), 0⟩))
  rw [samplePairs_length] at hk1 hout1
  obtain ⟨e1, e2⟩ := hout2 (nSamples * nExposure) (Or.inl (by
    simp only [gaugeStep, hk1]; omega))
  obtain ⟨f1, f2⟩ := hout1 (nSamples * nExposure) (Or.inr (by dsimp only; omega))
  rw [e1, e2]
  constructor
  · intro c
    simp only [gaugeStep, MatrixXf.coeffRef, hk1, Nat.zero_add, true_and]
    rw [f1]
    rfl
  · simp only [gaugeStep]
    rw [f2]
    rfl

/-- The smoothness row of code `c` in the system of `gsolve`. -/
theorem gsolveSystem_smooth_row (w : Nat → α) (samples : Nat → Nat)
    (log_exposure : Nat → α) (lambda : α) (nSamples nExposure c : Nat) (hc : c < 254) :
    (∀ col, (gsolveSystem w samples log_exposure lambda nSamples nExposure).A.coeff
        (nSamples * nExposure + 1 + c) col =
      if col = c + 2 then lambda * w (c + 1)
      else if col = c + 1 then -2 * (lambda * w (c + 1))
      else if col = c then lambda * w (c + 1)
      else 0) ∧
    (gsolveSystem w samples log_exposure lambda nSamples nExposure).b.coeff
        (nSamples * nExposure + 1 + c) = 0 := by
  rw [gsolveSystem_eq]
  obtain ⟨hk1, _, _, hout1⟩ := dataFold w samples log_exposure nExposure
    (samplePairs nSamples nExposure)
    ⟨MatrixXf.Zero (nSamples * nExposure + 256 + 1) (256 + nSamples),
      VectorXf.Zero (nSamples * nExposure + 256 + 1), 0⟩
  obtain ⟨_, _, hrow2, _⟩ := smoothFold w lambda (List.range 254)
    (gaugeStep ((samplePairs nSamples nExposure).foldl
      (dataStep w samples log_exposure nExposure)
      ⟨MatrixXf.Zero (nSamples * nExposure + 256 + 1) (256 + nSamples),
        VectorXf.Zero (nSamples * nExposure + 256 + 1), 0⟩))
  rw [samplePairs_length] at hk1 hout1
  have hgk : (gaugeStep ((samplePairs nSamples nExposure).foldl
      (dataStep w samples log_exposure nExposure)
      ⟨MatrixXf.Zero (nSamples * nExposure + 256 + 1) (256 + nSamples),
        VectorXf.Zero (nSamples * nExposure + 256 + 1), 0⟩)).k =
      nSamples * nExposure + 1 := by
    simp only [gaugeStep, hk1]; omega
  obtain ⟨r1, r2⟩ := hrow2 c c (List.getElem?_range hc)
  rw [hgk] at r1 r2
  obtain ⟨f1, f2⟩ := hout1 (nSamples * nExposure + 1 + c) (Or.inr (by dsimp only; omega))
  have hne : ¬ (nSamples * nExposure + 1 + c = nSamples * nExposure) := by omega
  rw [r1, r2]
  constructor
  · intro col
    simp only [gaugeStep, MatrixXf.coeffRef, hk1, Nat.zero_add, hne, false_and, if_false]
    rw [f1]
    rfl
  · simp only [gaugeStep]
    rw [f2]
    rfl

/-- C21, as stated, fails: for one sample and one exposure the right-hand side
of the row for code 128 (row `1 * 1`) is `0`, not `1`. -/
theorem gsolve_gauge_rhs_zero :
    (gsolveSystem (fun _ => (1 : ℚ)) (fun _ => 0) (fun _ => 0) 10 1 1).b.coeff (1 * 1) = 0 ∧
    (gsolveSystem (fun _ => (1 : ℚ)) (fun _ => 0) (fun _ => 0) 10 1 1).b.coeff (1 * 1) ≠ 1 := by
  obtain ⟨_, h⟩ := gsolveSystem_gauge_row (fun _ => (1 : ℚ)) (fun _ => 0) (fun _ => 0) 10 1 1
  exact ⟨h, by rw [h]; norm_num⟩

/-- C21, amended: the row at index `nSamples * nExposure` has the single
coefficient `1` at column 128, zero in every other column, and right-hand
side `0`: it encodes `g(128) = 0`. -/
theorem gsolve_gauge_row (w : Nat → α) (samples : Nat → Nat) (log_exposure : Nat → α)
    (lambda : α) (nSamples nExposure : Nat) :
    (gsolveSystem w samples log_exposure lambda nSamples nExposure).A.coeff
      (nSamples * nExposure) 128 = 1 ∧
    (∀ c, c ≠ 128 →
      (gsolveSystem w samples log_exposure lambda nSamples nExposure).A.coeff
        (nSamples * nExposure) c = 0) ∧
    (gsolveSystem w samples log_exposure lambda nSamples nExposure).b.coeff
      (nSamples * nExposure) = 0 := by
  obtain ⟨hrow, hb⟩ := gsolveSystem_gauge_row w samples log_exposure lambda nSamples
    nExposure
  refine ⟨by rw [hrow, if_pos rfl], fun c hc => by rw [hrow, if_neg hc], hb⟩

/-- C22: for every `c` in `0..253`, row `nSamples * nExposure + 1 + c` has
`lambda * w[c+1]`, `-2 * lambda * w[c+1]`, `lambda * w[c+1]` at the columns
`c`, `c + 1`, `c + 2`, zero elsewhere, and right-hand side `0`; the row
counter ends at `nSamples * nExposure + 1 + 254`, so there are 254 such
rows. -/
theorem gsolve_smoothness_rows (w : Nat → α) (samples : Nat → Nat)
    (log_exposure : Nat → α) (lambda : α) (nSamples nExposure c : Nat) (hc : c ≤ 253) :
    (gsolveSystem w samples log_exposure lambda nSamples nExposure).A.coeff
      (nSamples * nExposure + 1 + c) c = lambda * w (c + 1) ∧
    (gsolveSystem w samples log_exposure lambda nSamples nExposure).A.coeff
      (nSamples * nExposure + 1 + c) (c + 1) = -2 * (lambda * w (c + 1)) ∧
    (gsolveSystem w samples log_exposure lambda nSamples nExposure).A.coeff
      (nSamples * nExposure + 1 + c) (c + 2) = lambda * w (c + 1) ∧
    (∀ col, col ≠ c → col ≠ c + 1 → col ≠ c + 2 →
      (gsolveSystem w samples log_exposure lambda nSamples nExposure).A.coeff
        (nSamples * nExposure + 1 + c) col = 0) ∧
    (gsolveSystem w samples log_exposure lambda nSamples nExposure).b.coeff
      (nSamples * nExposure + 1 + c) = 0 ∧
    (gsolveSystem w samples log_exposure lambda nSamples nExposure).k =
      nSamples * nExposure + 1 + 254 := by
  obtain ⟨hrow, hb⟩ := gsolveSystem_smooth_row w samples log_exposure lambda nSamples
    nExposure c (by omega)
  obtain ⟨_, _, _, hk⟩ := gsolveSystem_shape w samples log_exposure lambda nSamples nExposure
  refine ⟨?_, ?_, ?_, ?_, hb, hk⟩
  · rw [hrow, if_neg (by omega), if_neg (by omega), if_pos rfl]
  · rw [hrow, if_neg (by omega), if_pos rfl]
  · rw [hrow, if_pos rfl]
  · intro col h0 h1 h2
    rw [hrow, if_neg h2, if_neg h1, if_neg h0]

/-- C22 for two samples and three exposures at `c = 1`. -/
theorem gsolve_smoothness_rows_witness :
    1 ≤ 253 ∧
    (gsolveSystem (fun c : Nat => (c : ℚ) / 255) (fun _ => 7) (fun e => (e : ℚ) + 1) 10 2
      3).A.coeff (2 * 3 + 1 + 1) (1 + 1) = -2 * (10 * (((1 + 1 : Nat) : ℚ) / 255)) ∧
    (gsolveSystem (fun c : Nat => (c : ℚ) / 255) (fun _ => 7) (fun e => (e : ℚ) + 1) 10 2
      3).b.coeff (2 * 3 + 1 + 1) = 0 :=
  ⟨by decide,
    (gsolve_smoothness_rows (fun c : Nat => (c : ℚ) / 255) (fun _ => 7)
      (fun e => (e : ℚ) + 1) 10 2 3 1 (by decide)).2.1,
    (gsolve_smoothness_rows (fun c : Nat => (c : ℚ) / 255) (fun _ => 7)
      (fun e => (e : ℚ) + 1) 10 2 3 1 (by decide)).2.2.2.2.1⟩

theorem lround_natCast [FloorRing α] (k : Nat) : lround ((k : α)) = (k : Int) := by
  unfold lround
  rw [if_pos (Nat.cast_nonneg k), Int.floor_eq_iff]
  constructor
  · push_cast; linarith
  · push_cast; linarith

theorem lutIndex_code [FloorRing α] (k : Nat) (hk : k ≤ 255) :
    lutIndex ((k : α) / 255) = (k : Int) := by
  unfold lutIndex
  have hfl : fl32 ((k : Nat) : α) = (k : α) := fl32_natCast k (by omega)
  have h : (k : α) / 255 * 255 = (k : α) := by field_simp
  rw [h, hfl, lround_natCast]
  unfold toInt32 CLAMP
  split_ifs <;> omega

/-- C24: on a strictly increasing 256-entry table, for every code `k` in
`0..255`, `ApplyCRF` maps `icrf[k]` to `k / 255`, `RemoveCRF` maps `k / 255`
to `icrf[k]`, and so `RemoveCRF` followed by `ApplyCRF` returns `k / 255`,
also for `k = 255`. -/
theorem lut_inverse_on_table [FloorRing α] (powf : α → α → α) (icrf : List α)
    (hlen : icrf.length = 256)
    (hstrict : ∀ i j : Nat, i < j → j < 256 → icrf.getD i 0 < icrf.getD j 0)
    (k : Nat) (hk : k ≤ 255) :
    ApplyCRF powf (icrf.getD k 0) .IL_LUT_8_BIT icrf = some ((k : α) / 255) ∧
    RemoveCRF powf ((k : α) / 255) .IL_LUT_8_BIT icrf = some (icrf.getD k 0) ∧
    (RemoveCRF powf ((k : α) / 255) .IL_LUT_8_BIT icrf).bind
      (fun y => ApplyCRF powf y .IL_LUT_8_BIT icrf) = some ((k : α) / 255) := by
  have h1 := ApplyCRF_lut_table_value powf icrf hlen hstrict k hk
  have h2 : RemoveCRF powf ((k : α) / 255) .IL_LUT_8_BIT icrf = some (icrf.getD k 0) := by
    rw [RemoveCRF_lut powf _ icrf hlen, lutIndex_code k hk, Int.toNat_ofNat]
  refine ⟨h1, h2, ?_⟩
  rw [h2]
  exact h1

/-- C24 on the table `i / 255` at `k = 255`. -/
theorem lut_inverse_on_table_witness :
    rampCurve.length = 256 ∧ 255 ≤ 255 ∧
    ApplyCRF powf0 (rampCurve.getD 255 0) .IL_LUT_8_BIT rampCurve =
      some (((255 : Nat) : ℚ) / 255) ∧
    (RemoveCRF powf0 (((255 : Nat) : ℚ) / 255) .IL_LUT_8_BIT rampCurve).bind
      (fun y => ApplyCRF powf0 y .IL_LUT_8_BIT rampCurve) = some (((255 : Nat) : ℚ) / 255) :=
  ⟨rampCurve_length, le_refl _,
    (lut_inverse_on_table powf0 rampCurve rampCurve_length rampCurve_strict 255
      (le_refl _)).1,
    (lut_inverse_on_table powf0 rampCurve rampCurve_length rampCurve_strict 255
      (le_refl _)).2.2⟩

/-- C25 fails on the code: on a valid one-channel image and a model without
curves, `Linearize` and the image overload of `ApplyCRF` in the modes `IL_LIN`
and `IL_2_2` fetch `icrf[0]`, which is outside the empty vector. -/
theorem non_lut_reads_missing_curve :
    greyPixel.isValid = true ∧ emptyModel.icrf.length = 0 ∧
    Linearize powf0 emptyModel greyPixel .IL_LIN = none ∧
    ApplyCRFImage powf0 emptyModel greyPixel .IL_LIN = none ∧
    Linearize powf0 emptyModel greyPixel .IL_2_2 = none ∧
    ApplyCRFImage powf0 emptyModel greyPixel .IL_2_2 = none := by
  refine ⟨by decide, rfl, ?_, ?_, ?_, ?_⟩ <;>
    simp [Linearize, ApplyCRFImage, pixelLoop, greyPixel, emptyModel, Image.isValid,
      Image.size, List.range_succ]

/-- The stored code of a value whose product with 255 lies in `[0, 256)`: the
integer part of the product. -/
theorem spatialCode_in_range [FloorRing α] (v : α) (h0 : 0 ≤ v) (h1 : v * 255 < 256) :
    spatialCode v = ⌊v * 255⌋.toNat ∧ ⌊v * 255⌋.toNat ≤ 255 := by
  have hnn : (0 : α) ≤ v * 255 := by positivity
  have hf0 : 0 ≤ ⌊v * 255⌋ := Int.floor_nonneg.mpr hnn
  have hf1 : ⌊v * 255⌋ < 256 := by
    rw [Int.floor_lt]
    exact_mod_cast h1
  unfold spatialCode truncInt
  rw [if_pos hnn]
  constructor
  · rw [Int.emod_eq_of_lt hf0 hf1]
  · omega

/-- C23, as stated, fails: for the pixel value `0.999` the stored code is
`254`, the integer part of `254.745`, while `clamp(round(0.999 * 255), 0, 255)`
is `255`. -/
theorem subSampleSpatial_bright :
    subSampleSpatial sampler0 [brightPixel] 1 = some ([254], 1) ∧
    CLAMPi (lround ((999 / 1000 : ℚ) * 255)) 0 255 = 255 := by
  have hfl : ⌊(999 / 1000 : ℚ) * 255⌋ = 254 := by
    rw [Int.floor_eq_iff]; norm_num
  have hcode : spatialCode (999 / 1000 : ℚ) = 254 := by
    rw [(spatialCode_in_range (999 / 1000 : ℚ) (by norm_num) (by norm_num)).1, hfl]
    rfl
  have hl : lround ((999 / 1000 : ℚ) * 255) = 255 := by
    unfold lround
    rw [if_pos (by norm_num), Int.floor_eq_iff]
    norm_num
  constructor
  · simp only [subSampleSpatial, sampler0, brightPixel, List.length_cons, List.length_nil,
      List.range_succ, List.range_zero, List.nil_append, List.flatMap_cons, List.flatMap_nil,
      List.map_cons, List.map_nil, List.append_nil, List.getD_cons_zero, Image.pixel]
    simp only [Nat.mul_zero, Nat.zero_mul, Nat.add_zero, Nat.mul_one, List.getD_cons_zero,
      Nat.zero_add]
    rw [hcode]
  · rw [hl]; decide

/-- C23, amended: for every sampled point, channel `k` and exposure `j` whose
pixel value `v` satisfies `0 ≤ v` and `v * 255 < 256`, the code that
`subSampleSpatial` stores at index `(k * nSamples + i) * exposures + j` is the
integer part of `v * 255` (truncation, not rounding), a code of `0..255`. -/
theorem subSampleSpatial_truncates [FloorRing α]
    (sampler : Nat → Nat → Int → List (Nat × Nat)) (img0 : Image α)
    (rest : List (Image α)) (nSamples : Int) (k i j : Nat) (hk : k < img0.channels)
    (hi : i < (sampler img0.width img0.height nSamples).length)
    (hj : j < rest.length + 1)
    (h0 : 0 ≤ ((img0 :: rest).getD j img0).pixel
      ((sampler img0.width img0.height nSamples).getD i (0, 0)).1
      ((sampler img0.width img0.height nSamples).getD i (0, 0)).2 k)
    (h1 : ((img0 :: rest).getD j img0).pixel
      ((sampler img0.width img0.height nSamples).getD i (0, 0)).1
      ((sampler img0.width img0.height nSamples).getD i (0, 0)).2 k * 255 < 256) :
    ∃ samples, subSampleSpatial sampler (img0 :: rest) nSamples =
        some (samples, (sampler img0.width img0.height nSamples).length) ∧
      samples[(k * (sampler img0.width img0.height nSamples).length + i) *
          (rest.length + 1) + j]? =
        some ⌊((img0 :: rest).getD j img0).pixel
          ((sampler img0.width img0.height nSamples).getD i (0, 0)).1
          ((sampler img0.width img0.height nSamples).getD i (0, 0)).2 k * 255⌋.toNat ∧
      ⌊((img0 :: rest).getD j img0).pixel
          ((sampler img0.width img0.height nSamples).getD i (0, 0)).1
          ((sampler img0.width img0.height nSamples).getD i (0, 0)).2 k * 255⌋.toNat ≤ 255 := by
  obtain ⟨hcode, hle⟩ := spatialCode_in_range _ h0 h1
  refine ⟨_, rfl, ?_, hle⟩
  have hinner : ∀ k i : Nat, ((List.range (img0 :: rest).length).map (fun j =>
      spatialCode (((img0 :: rest).getD j img0).pixel
        ((sampler img0.width img0.height nSamples).getD i (0, 0)).1
        ((sampler img0.width img0.height nSamples).getD i (0, 0)).2 k))).length =
      rest.length + 1 := by
    intro k i; simp
  have hmid : ∀ k : Nat, ((List.range (sampler img0.width img0.height nSamples).length).flatMap
      (fun i => (List.range (img0 :: rest).length).map (fun j =>
        spatialCode (((img0 :: rest).getD j img0).pixel
          ((sampler img0.width img0.height nSamples).getD i (0, 0)).1
          ((sampler img0.width img0.height nSamples).getD i (0, 0)).2 k)))).length =
      (sampler img0.width img0.height nSamples).length * (rest.length + 1) := by
    intro k
    exact flatMap_range_length _ _ (hinner k) _
  have hidx : (k * (sampler img0.width img0.height nSamples).length + i) *
      (rest.length + 1) + j =
      k * ((sampler img0.width img0.height nSamples).length * (rest.length + 1)) +
        (i * (rest.length + 1) + j) := by ring
  have hlt : i * (rest.length + 1) + j <
      (sampler img0.width img0.height nSamples).length * (rest.length + 1) := by
    calc i * (rest.length + 1) + j < i * (rest.length + 1) + (rest.length + 1) := by omega
      _ = (i + 1) * (rest.length + 1) := by ring
      _ ≤ (sampler img0.width img0.height nSamples).length * (rest.length + 1) :=
        Nat.mul_le_mul_right _ hi
  rw [hidx, flatMap_range_getElem? _ _ hmid _ k _ hk hlt,
    flatMap_range_getElem? _ _ (hinner k) _ i j hi hj]
  rw [List.getElem?_map, List.getElem?_range (by simpa using hj)]
  simp only [Option.map_some']
  rw [hcode]

/-- The amended C23 on one pixel of value `0.999` and one point. -/
theorem subSampleSpatial_truncates_witness :
    0 < brightPixel.channels ∧
    0 < (sampler0 brightPixel.width brightPixel.height 1).length ∧ 0 < ([] : List (Image ℚ)).length + 1 ∧
    ∃ samples, subSampleSpatial sampler0 [brightPixel] 1 = some (samples, 1) ∧
      samples[0]? = some 254 := by
  have hfl : ⌊(999 / 1000 : ℚ) * 255⌋ = 254 := by
    rw [Int.floor_eq_iff]; norm_num
  have hpix : ([brightPixel].getD 0 brightPixel).pixel
      ((sampler0 brightPixel.width brightPixel.height 1).getD 0 (0, 0)).1
      ((sampler0 brightPixel.width brightPixel.height 1).getD 0 (0, 0)).2 0 = 999 / 1000 := by
    simp [sampler0, brightPixel, Image.pixel]
  obtain ⟨samples, h1, h2, _⟩ := subSampleSpatial_truncates sampler0 brightPixel [] 1 0 0 0
    (by decide) (by decide) (by decide) (by rw [hpix]; norm_num) (by rw [hpix]; norm_num)
  rw [hpix, hfl] at h2
  exact ⟨by decide, by decide, by decide, samples, h1, by simpa using h2⟩

end CameraResponseFunction

/-- The binary path of `ReadPGM` once the magic number and the three header
numbers have been read. -/
theorem ReadPGM_binary (uninit : Nat) (file : List Nat) (s1 s2 s3 s4 s5 : IStream)
    (tw th bpp : Nat)
    (hm0 : IStream.get ⟨file, false⟩ = (some 80, s1))
    (hm1 : s1.get = (some 53, s2))
    (hw : s2.extract 4294967296 = (some tw, s3))
    (hh : s3.extract 4294967296 = (some th, s4))
    (hb : s4.extract 4294967296 = (some bpp, s5))
    (hbpp : bpp ≤ 255) :
    ReadPGM uninit file =
      if bpp = 0 ∧ 0 < tw * th then PGMRead.divisionByZero
      else PGMRead.image tw th 1 (readPixels true uninit bpp (tw * th) s5) := by
  have hnot : ¬ bpp > 255 := by omega
  simp only [ReadPGM, hm0, hm1, hw, hh, hb, Option.getD_some, ne_eq, not_true_eq_false,
    false_and, if_false, hnot, decide_True]

/-- One binary pixel read by `ReadPGM` from a stream that has a byte left. -/
theorem readPixels_binary_cons (uninit bpp n c : Nat) (r : List Nat) :
    readPixels true uninit bpp (n + 1) ⟨c :: r, false⟩ =
      ((c % 256) * 255 / bpp) % 256 :: readPixels true uninit bpp n ⟨r, false⟩ := rfl

/-- C26 fails on the code: the binary file written for the row `7, 8, 9` is
read back as `10, 7, 8`: the reader takes the line feed after `255` for the
first pixel, so every pixel moves one place and the last one is lost. -/
theorem pgm_binary_round_trip_shifted (uninit : Nat) :
    WritePGM [7, 8, 9] 3 1 1 false =
      [80, 53, 32, 10, 51, 32, 49, 32, 10, 50, 53, 53, 10, 7, 8, 9] ∧
    ReadPGM uninit (WritePGM [7, 8, 9] 3 1 1 false) = PGMRead.image 3 1 1 [10, 7, 8] ∧
    PGMRead.image 3 1 1 [10, 7, 8] ≠ PGMRead.image 3 1 1 [7, 8, 9] := by
  have hfile : WritePGM [7, 8, 9] 3 1 1 false =
      [80, 53, 32, 10, 51, 32, 49, 32, 10, 50, 53, 53, 10, 7, 8, 9] := by decide
  refine ⟨hfile, ?_, by decide⟩
  rw [hfile, ReadPGM_binary uninit _
    ⟨[53, 32, 10, 51, 32, 49, 32, 10, 50, 53, 53, 10, 7, 8, 9], false⟩
    ⟨[32, 10, 51, 32, 49, 32, 10, 50, 53, 53, 10, 7, 8, 9], false⟩
    ⟨[32, 49, 32, 10, 50, 53, 53, 10, 7, 8, 9], false⟩
    ⟨[32, 10, 50, 53, 53, 10, 7, 8, 9], false⟩
    ⟨[10, 7, 8, 9], false⟩ 3 1 255 (by decide) (by decide) (by decide) (by decide)
    (by decide) (by decide)]
  rw [if_neg (by decide)]
  show PGMRead.image 3 1 1 (readPixels true uninit 255 (2 + 1) ⟨[10, 7, 8, 9], false⟩) = _
  rw [readPixels_binary_cons, readPixels_binary_cons, readPixels_binary_cons]
  rfl

/-- C27 fails on the code: the file `P5 1 1 0` followed by one pixel has
`maxval = 0`, which passes the check `bpp > 255`, and the scaling of the first
pixel divides by it. -/
theorem pgm_maxval_zero_divides (uninit : Nat) :
    ReadPGM uninit [80, 53, 32, 49, 32, 49, 32, 48, 10, 7] = PGMRead.divisionByZero := by
  rw [ReadPGM_binary uninit _
    ⟨[53, 32, 49, 32, 49, 32, 48, 10, 7], false⟩
    ⟨[32, 49, 32, 49, 32, 48, 10, 7], false⟩
    ⟨[32, 49, 32, 48, 10, 7], false⟩
    ⟨[32, 48, 10, 7], false⟩
    ⟨[10, 7], false⟩ 1 1 0 (by decide) (by decide) (by decide) (by decide)
    (by decide) (by decide)]
  rw [if_pos (by decide)]

end pic
